import Mathlib

/-!
# Port 1 / format 0x2b message codec of the Model 4925 temperature monitor

A shallow embedding of `extra/catena-message-0x2b-port-1-format-test.cpp`:
the numeric codecs (`LMIC_f2uflt16`, `LMIC_f2sflt16`, `encode16s`, `encode16u`,
`encodeV`, `encodeT`), the byte buffer and `encodeMeasurement`.

C++ `float` values are modelled by their exact rational value together with the
two infinities (`F32`).  Arithmetic that rounds in the source (`v + 0.5f`,
`v * 4096.0f`) rounds here as IEEE-754 binary32 does (round to nearest, ties to
even, overflow to infinity).  Operations that are exact on binary32 values in
the source (`frexp`, `ldexp` by a small exponent, the double precision
`... + 0.5` applied to a value below 4096, `floor`, comparisons) are exact
rational operations here.  NaN is not modelled: converting a NaN to an integer
is undefined in the source.
-/

namespace Model4925

/-! ## binary32 values and rounding -/

/-- A `float` that is not a NaN: a finite value or one of the infinities. -/
inductive F32 where
  | fin (q : ℚ)
  | pinf
  | ninf
deriving DecidableEq

/-- The rational `q` has the shape of a binary32 value whose exponent is not
bounded above: an integer significand below `2^24` times a power of two not
below `2^-149`. -/
def isBinary24 (q : ℚ) : Prop :=
  ∃ m e : ℤ, |m| < 2 ^ 24 ∧ -149 ≤ e ∧ q = m * (2 : ℚ) ^ e

/-- The rational `q` is the value of a finite binary32 number: of binary32 shape
and of magnitude below `2^128`. -/
def isF32 (q : ℚ) : Prop := isBinary24 q ∧ |q| < 2 ^ 128

/-- Exponent of the unit in the last place of binary32 at `x`. -/
def ulpExp (x : ℚ) : ℤ := max (Int.log 2 |x| - 23) (-149)

/-- Round a rational to the nearest integer, ties to the even one. -/
def roundEven (s : ℚ) : ℤ :=
  if s - ⌊s⌋ < 1 / 2 then ⌊s⌋
  else if 1 / 2 < s - ⌊s⌋ then ⌊s⌋ + 1
  else if ⌊s⌋ % 2 = 0 then ⌊s⌋ else ⌊s⌋ + 1

/-- Round to nearest binary32 (ties to even) with an unbounded upper exponent. -/
def roundF32 (x : ℚ) : ℚ := roundEven (x / (2 : ℚ) ^ ulpExp x) * (2 : ℚ) ^ ulpExp x

/-- The binary32 result of an exact real result `x`: rounded, overflowing to an infinity. -/
def F32.ofRat (x : ℚ) : F32 :=
  if (2 : ℚ) ^ 128 ≤ roundF32 x then F32.pinf
  else if roundF32 x ≤ -(2 : ℚ) ^ 128 then F32.ninf
  else F32.fin (roundF32 x)

/-- Single precision `x + c` for a finite constant `c`. -/
def F32.add (x : F32) (c : ℚ) : F32 :=
  match x with
  | F32.fin q => F32.ofRat (q + c)
  | F32.pinf => F32.pinf
  | F32.ninf => F32.ninf

/-- Single precision `x * c` for a finite nonzero constant `c`. -/
def F32.mul (x : F32) (c : ℚ) : F32 :=
  match x with
  | F32.fin q => F32.ofRat (q * c)
  | F32.pinf => if 0 < c then F32.pinf else F32.ninf
  | F32.ninf => if 0 < c then F32.ninf else F32.pinf

/-- The function `std::floor` on a float: exact. -/
def F32.floor (x : F32) : F32 :=
  match x with
  | F32.fin q => F32.fin ⌊q⌋
  | F32.pinf => F32.pinf
  | F32.ninf => F32.ninf

/-- The comparison `x < y` of two floats. -/
def F32.lt (x y : F32) : Bool :=
  match x, y with
  | F32.fin a, F32.fin b => decide (a < b)
  | F32.fin _, F32.pinf => true
  | F32.ninf, F32.fin _ => true
  | F32.ninf, F32.pinf => true
  | _, _ => false

/-- Truncation toward zero. -/
def truncToInt (q : ℚ) : ℤ := if 0 ≤ q then ⌊q⌋ else ⌈q⌉

/-- Conversion of a float to an integer type: truncation toward zero
(only used in the source on finite values that are in range). -/
def F32.toInt (x : F32) : ℤ :=
  match x with
  | F32.fin q => truncToInt q
  | _ => 0

/-- Conversion of an integer to `std::uint16_t`. -/
def toUInt16 (i : ℤ) : ℕ := (i % 65536).toNat

/-- The function `frexp`: mantissa in `[1/2, 1)` (with the sign of `q`) and exponent;
`(0, 0)` for zero. -/
def frexp (q : ℚ) : ℚ × ℤ :=
  if q = 0 then (0, 0)
  else (q / (2 : ℚ) ^ (Int.log 2 |q| + 1), Int.log 2 |q| + 1)

/-- The function `ldexp`: `x * 2^n`. -/
def ldexp (x : ℚ) (n : ℤ) : ℚ := x * (2 : ℚ) ^ n

/-! ## compact floats -/

/-- The exponent `iExp` and fraction `outputFraction` of `LMIC_f2uflt16` after
the rounding carry, for a finite `0 ≤ f < 1`. -/
def f2uflt16_fields (f : ℚ) : ℤ × ℕ :=
  let normalValue := (frexp f).1
  let iExp := (frexp f).2 + 15
  let iExp := if iExp < 0 then 0 else iExp
  let outputFraction := toUInt16 (truncToInt (ldexp normalValue 12 + 1 / 2))
  if outputFraction ≥ 1 <<< 12 then (iExp + 1, 1 <<< 11) else (iExp, outputFraction)

/-- Encode a float in `[0, 1)` as a 4-bit exponent and 12-bit fraction. -/
def LMIC_f2uflt16 (f : F32) : ℕ :=
  if F32.lt f (F32.fin 0) then 0
  else if ! F32.lt f (F32.fin 1) then 0xFFFF
  else
    match f with
    | F32.fin q =>
      let iExp := (f2uflt16_fields q).1
      let outputFraction := (f2uflt16_fields q).2
      if iExp > 15 then 0xFFFF
      else ((iExp.toNat <<< 12) ||| outputFraction) % 65536
    | _ => 0

/-- The sign, exponent `iExp` and fraction `outputFraction` of `LMIC_f2sflt16`
after the rounding carry, for a finite `-1 < f < 1`. -/
def f2sflt16_fields (f : ℚ) : ℕ × ℤ × ℕ :=
  let normalValue := (frexp f).1
  let sign := if normalValue < 0 then 0x8000 else 0
  let normalValue := if normalValue < 0 then -normalValue else normalValue
  let iExp := (frexp f).2 + 15
  let iExp := if iExp < 0 then 0 else iExp
  let outputFraction := toUInt16 (truncToInt (ldexp normalValue 11 + 1 / 2))
  if outputFraction ≥ 1 <<< 11 then (sign, iExp + 1, 1 <<< 10) else (sign, iExp, outputFraction)

/-- Encode a float in `(-1, 1)` as sign, 4-bit exponent and 11-bit fraction. -/
def LMIC_f2sflt16 (f : F32) : ℕ :=
  if ! F32.lt (F32.fin (-1)) f then 0xFFFF
  else if ! F32.lt f (F32.fin 1) then 0x7FFF
  else
    match f with
    | F32.fin q =>
      let sign := (f2sflt16_fields q).1
      let iExp := (f2sflt16_fields q).2.1
      let outputFraction := (f2sflt16_fields q).2.2
      if iExp > 15 then 0x7FFF ||| sign
      else (sign ||| (iExp.toNat <<< 11) ||| outputFraction) % 65536
    | _ => 0

/-! ## scaled fixed point -/

/-- Round to nearest and saturate to a signed 16-bit value, as its bit pattern. -/
def encode16s (v : F32) : ℕ :=
  let nv := F32.floor (F32.add v (1 / 2))
  if F32.lt (F32.fin 32767) nv then 0x7FFF
  else if F32.lt nv (F32.fin (-32768)) then 0x8000
  else toUInt16 (F32.toInt nv)

/-- Round to nearest and saturate to an unsigned 16-bit value. -/
def encode16u (v : F32) : ℕ :=
  let nv := F32.floor (F32.add v (1 / 2))
  if F32.lt (F32.fin 65535) nv then 0xFFFF
  else if F32.lt nv (F32.fin 0) then 0
  else toUInt16 (F32.toInt nv)

/-- Voltage scaler: 12 fractional bits. -/
def encodeV (v : F32) : ℕ := encode16s (F32.mul v 4096)

/-- Temperature scaler: 8 fractional bits. -/
def encodeT (v : F32) : ℕ := encode16s (F32.mul v 256)

/-! ## records and buffers -/

/-- A value with its validity flag. -/
structure val (T : Type) where
  fValid : Bool
  v : T

/-- The compost temperature reading. -/
structure compostTemp where
  t : F32

/-- The measurement record. -/
structure Measurements where
  Vbat : val F32
  Vsys : val F32
  Vbus : val F32
  Boot : val (Fin 256)
  CompostTemp : val compostTemp

/-- A byte buffer (`std::vector<std::uint8_t>`). -/
abbrev Buffer := List ℕ

/-- The method `clear`: drop every byte. -/
def Buffer.clear (_ : Buffer) : Buffer := []

/-- Append one byte. -/
def Buffer.push_back (buf : Buffer) (b : ℕ) : Buffer := buf ++ [b % 256]

/-- Append a 16-bit value, most significant byte first. -/
def Buffer.push_back_be (buf : Buffer) (v : ℕ) : Buffer :=
  Buffer.push_back (Buffer.push_back buf (v >>> 8)) (v &&& 0xFF)

/-- Build the message for a record.  The source takes the buffer and the record
by reference; the final buffer and the record are returned. -/
def encodeMeasurement (buf : Buffer) (m : Measurements) : Buffer × Measurements :=
  let flags : ℕ := 0
  let buf := Buffer.clear buf
  let buf := Buffer.push_back buf 0x2b
  let buf := Buffer.push_back buf 0
  let flags := if m.Vbat.fValid then (flags ||| (1 <<< 0)) % 256 else flags
  let buf := if m.Vbat.fValid then Buffer.push_back_be buf (encodeV m.Vbat.v) else buf
  let flags := if m.Vbus.fValid then (flags ||| (1 <<< 1)) % 256 else flags
  let buf := if m.Vbus.fValid then Buffer.push_back_be buf (encodeV m.Vbus.v) else buf
  let flags := if m.Boot.fValid then (flags ||| (1 <<< 2)) % 256 else flags
  let buf := if m.Boot.fValid then Buffer.push_back buf m.Boot.v.val else buf
  let flags := if m.CompostTemp.fValid then (flags ||| (1 <<< 3)) % 256 else flags
  let buf := if m.CompostTemp.fValid then Buffer.push_back_be buf (encodeT m.CompostTemp.v.t) else buf
  (List.set buf 1 flags, m)

/-- The record `m0` of the driver: every field zero and invalid. -/
def m0 : Measurements :=
  { Vbat := ⟨false, F32.fin 0⟩, Vsys := ⟨false, F32.fin 0⟩, Vbus := ⟨false, F32.fin 0⟩,
    Boot := ⟨false, 0⟩, CompostTemp := ⟨false, ⟨F32.fin 0⟩⟩ }

/-- Scenario A: the record holding `Vbat 3.3 Vbus 5.0`, the decimals read as binary32. -/
def recordA : Measurements :=
  { m0 with Vbat := ⟨true, F32.ofRat (33 / 10)⟩, Vbus := ⟨true, F32.fin 5⟩ }

/-- Scenario B: the record holding `Boot 7`. -/
def recordB : Measurements := { m0 with Boot := ⟨true, 7⟩ }

/-- Scenario C: the record holding `Vbat 3.3 Boot 7 CompostTemp 25.5`. -/
def recordC : Measurements :=
  { m0 with Vbat := ⟨true, F32.ofRat (33 / 10)⟩, Boot := ⟨true, 7⟩,
            CompostTemp := ⟨true, ⟨F32.fin (51 / 2)⟩⟩ }

/-- The record of scenario C with other contents in the fields that are not sent. -/
def recordC2 : Measurements :=
  { recordC with Vsys := ⟨true, F32.fin 9⟩, Vbus := ⟨false, F32.fin 5⟩ }

/-- The exponent field (bits 14..11) of a signed compact float code. -/
def sflt16Exp (r : ℕ) : ℤ := (((r >>> 11) &&& 0xF : ℕ) : ℤ)

/-- The value denoted by a signed compact float code with sign `S` (bit 15), exponent
field `E` and fraction field `F` (bits 10..0): `(-1)^S * (F / 2^11) * 2^(E - 15)`. -/
def sflt16Value (r : ℕ) : ℚ :=
  (if Nat.testBit r 15 then -1 else 1) * (((r &&& 0x7FF : ℕ) : ℚ) / 2 ^ 11) *
    (2 : ℚ) ^ (sflt16Exp r - 15)

/-- The signed 16-bit integer denoted by a 16-bit pattern (two's complement). -/
def toInt16 (p : ℕ) : ℤ := if p < 32768 then (p : ℤ) else (p : ℤ) - 65536

/-- The comparison `x <= y` of two floats. -/
def F32.le (x y : F32) : Bool := ! F32.lt y x

/-- What a message carries: for each field of the format, its encoded value when the
field is present. -/
structure WireView where
  Vbat : Option ℕ
  Vbus : Option ℕ
  Boot : Option ℕ
  CompostTemp : Option ℕ
deriving DecidableEq

/-- The validity flags of a record together with the encoded values of its valid fields. -/
def wireView (m : Measurements) : WireView :=
  { Vbat := if m.Vbat.fValid then some (encodeV m.Vbat.v) else none
    Vbus := if m.Vbus.fValid then some (encodeV m.Vbus.v) else none
    Boot := if m.Boot.fValid then some m.Boot.v.val else none
    CompostTemp := if m.CompostTemp.fValid then some (encodeT m.CompostTemp.v.t) else none }

/-- Read a field of `width` bytes (1 or 2, big-endian) when `present`, nothing otherwise. -/
def decodeField (present : Bool) (width : ℕ) (buf : Buffer) : Option (Option ℕ × Buffer) :=
  if present then
    if width = 2 then
      match buf with
      | hi :: lo :: rest => some (some (hi * 256 + lo), rest)
      | _ => none
    else
      match buf with
      | b :: rest => some (some b, rest)
      | _ => none
  else some (none, buf)

/-- A decoder for the message format: tag, flags byte, then the present fields in bit
order. -/
def decodeMeasurement (buf : Buffer) : Option WireView :=
  match buf with
  | tag :: flags :: rest =>
    if tag = 0x2b then
      match decodeField (flags.testBit 0) 2 rest with
      | none => none
      | some (vbat, rest) =>
        match decodeField (flags.testBit 1) 2 rest with
        | none => none
        | some (vbus, rest) =>
          match decodeField (flags.testBit 2) 1 rest with
          | none => none
          | some (boot, rest) =>
            match decodeField (flags.testBit 3) 2 rest with
            | none => none
            | some (temp, rest) =>
              if rest = [] then
                some { Vbat := vbat, Vbus := vbus, Boot := boot, CompostTemp := temp }
              else none
    else none
  | _ => none

/-- The state of `std::cin`: the unread characters and the bits `eofbit` and `failbit`. -/
structure IStream where
  chars : List Char
  eofbit : Bool
  failbit : Bool
deriving DecidableEq

/-- The test `good()`. -/
def IStream.good (s : IStream) : Bool := !s.eofbit && !s.failbit

/-- White space of the classic locale: the space and the characters 9 to 13. -/
def isSpace (c : Char) : Bool := c.toNat = 32 || (9 ≤ c.toNat && c.toNat ≤ 13)

/-- The extraction `std::cin >> str` of a string: skip white space, then take the
characters up to the next white space or the end of the input. -/
def IStream.getString (s : IStream) (str : String) : IStream × String :=
  if s.good then
    if (s.chars.dropWhile isSpace).isEmpty then
      ({ chars := [], eofbit := true, failbit := true }, str)
    else
      ({ chars := (s.chars.dropWhile isSpace).dropWhile (fun c => !isSpace c),
         eofbit := ((s.chars.dropWhile isSpace).dropWhile (fun c => !isSpace c)).isEmpty,
         failbit := false },
       String.mk ((s.chars.dropWhile isSpace).takeWhile (fun c => !isSpace c)))
  else ({ s with failbit := true }, str)

/-- The numeric input facet of the standard library for a type: `scan` is the number of
leading characters it accumulates, `conv` the value it stores for the accumulated
characters and whether the conversion succeeded. -/
structure NumGet (α : Type) where
  scan : List Char → ℕ
  conv : List Char → α × Bool

/-- The extraction `std::cin >> x` of a number: skip white space, accumulate, convert;
`eofbit` when the input is used up, `failbit` when the conversion fails.  Nothing is stored
when the stream is not good or holds only white space. -/
def IStream.get {α : Type} (g : NumGet α) (s : IStream) (x : α) : IStream × α :=
  if s.good then
    if (s.chars.dropWhile isSpace).isEmpty then
      ({ chars := [], eofbit := true, failbit := true }, x)
    else
      ({ chars := (s.chars.dropWhile isSpace).drop (g.scan (s.chars.dropWhile isSpace)),
         eofbit :=
           ((s.chars.dropWhile isSpace).drop (g.scan (s.chars.dropWhile isSpace))).isEmpty,
         failbit :=
           !(g.conv ((s.chars.dropWhile isSpace).take (g.scan (s.chars.dropWhile isSpace)))).2 },
       (g.conv ((s.chars.dropWhile isSpace).take (g.scan (s.chars.dropWhile isSpace)))).1)
  else ({ s with failbit := true }, x)

/-- What is written to `std::cout`: text, and floats inserted with the default format. -/
inductive Out where
  | text (s : String)
  | float (v : F32)
deriving DecidableEq

/-- Append text to what has been written. -/
def Out.append : List Out → String → List Out
  | [], s => [Out.text s]
  | [Out.text t], s => [Out.text (t ++ s)]
  | [Out.float v], s => [Out.float v, Out.text s]
  | x :: y :: r, s => x :: Out.append (y :: r) s

/-- The state of `std::cout`: what has been written and whether the base is hexadecimal. -/
structure OStream where
  items : List Out
  hex : Bool
deriving DecidableEq

/-- The insertion of a string. -/
def OStream.put (o : OStream) (s : String) : OStream := { o with items := Out.append o.items s }

/-- The insertion of a float. -/
def OStream.putFloat (o : OStream) (v : F32) : OStream :=
  { o with items := o.items ++ [Out.float v] }

/-- The numeral of an unsigned value in base ten or sixteen. -/
def showUnsigned (hex : Bool) (n : ℕ) : String :=
  String.mk (Nat.toDigits (if hex then 16 else 10) n)

/-- The insertion of an unsigned value in the current base. -/
def OStream.putUnsigned (o : OStream) (n : ℕ) : OStream := o.put (showUnsigned o.hex n)

/-- The insertion of an unsigned value with `width(2)` and `fill('0')`. -/
def OStream.putUnsigned2 (o : OStream) (n : ℕ) : OStream :=
  o.put (if (showUnsigned o.hex n).length < 2 then "0" ++ showUnsigned o.hex n
    else showUnsigned o.hex n)

/-- The method `Padder::get`: the separator and the new value of `m_first`. -/
def padGet (first : Bool) : String × Bool := (if first then "" else " ", false)

/-- Print the summary line of a record. -/
def logMeasurement (o : OStream) (m : Measurements) : OStream × Measurements :=
  let first := true
  let o1 := if m.Vbat.fValid then
    (((o.put (padGet first).1).put "Vbat ").putFloat m.Vbat.v, (padGet first).2) else (o, first)
  let o2 := if m.Vbus.fValid then
    (((o1.1.put (padGet o1.2).1).put "Vbus ").putFloat m.Vbus.v, (padGet o1.2).2) else o1
  let o3 := if m.Boot.fValid then
    (((o2.1.put (padGet o2.2).1).put "Boot ").putUnsigned m.Boot.v.val, (padGet o2.2).2) else o2
  let o4 := if m.CompostTemp.fValid then
    (((o3.1.put (padGet o3.2).1).put "CompostTemp ").putFloat m.CompostTemp.v.t,
      (padGet o3.2).2) else o3
  ((o4.1.put (padGet o4.2).1).put ".\n", m)

/-- The loop of `putTestVector` over the bytes of the buffer. -/
def putBytes : OStream → Bool → List ℕ → OStream
  | o, _, [] => o
  | o, fFirst, v :: vs =>
    putBytes (OStream.putUnsigned2 { (if !fFirst then o.put " " else o) with hex := true } v)
      false vs

/-- Print the summary line and the bytes of the message of a record. -/
def putTestVector (o : OStream) (m : Measurements) : OStream × Measurements :=
  let buf : Buffer := []
  let r := logMeasurement o m
  let e := encodeMeasurement buf r.2
  ((putBytes r.1 true e.1).put "\n", e.2)

/-- The variables of `main` at an iteration boundary of its loop. -/
structure Driver where
  cin : IStream
  cout : OStream
  cerr : String
  key : String
  m : Measurements
  fAny : Bool

/-- One iteration of the loop of `main`; `junk` is the indeterminate value of the local
`nonce`, which is read only by an iteration that extracts nothing after the key `Boot`. -/
def loopBody (F : NumGet F32) (U : NumGet ℕ) (junk : ℕ) (d : Driver) : Driver :=
  let fUpdate := true
  let k := d.cin.getString ""
  if k.2 = "Vbat" then
    { d with cin := (k.1.get F d.m.Vbat.v).1, key := k.2,
             m := { d.m with Vbat := ⟨true, (k.1.get F d.m.Vbat.v).2⟩ },
             fAny := d.fAny || fUpdate }
  else if k.2 = "Vbus" then
    { d with cin := (k.1.get F d.m.Vbus.v).1, key := k.2,
             m := { d.m with Vbus := ⟨true, (k.1.get F d.m.Vbus.v).2⟩ },
             fAny := d.fAny || fUpdate }
  else if k.2 = "Boot" then
    { d with cin := (k.1.get U junk).1, key := k.2,
             m := { d.m with Boot := ⟨true, Fin.ofNat (k.1.get U junk).2⟩ },
             fAny := d.fAny || fUpdate }
  else if k.2 = "CompostTemp" then
    { d with cin := (k.1.get F d.m.CompostTemp.v.t).1, key := k.2,
             m := { d.m with CompostTemp := ⟨true, ⟨(k.1.get F d.m.CompostTemp.v.t).2⟩⟩ },
             fAny := d.fAny || fUpdate }
  else if k.2 = "." then
    { d with cin := k.1, key := k.2, cout := (putTestVector d.cout d.m).1, m := m0,
             fAny := false }
  else if k.2 = "" then
    { d with cin := k.1, key := k.2 }
  else
    { d with cin := k.1, key := k.2, cerr := d.cerr ++ "unknown key: " ++ k.2 ++ "\n" }

/-- The loop `while (std::cin.good())` of `main`, run for at most `n` iterations. -/
def loop (F : NumGet F32) (U : NumGet ℕ) (junk : ℕ) : ℕ → Driver → Driver
  | 0, d => d
  | n + 1, d => if d.cin.good then loop F U junk n (loopBody F U junk d) else d

/-- What a run of `main` leaves: the exit status and what was written. -/
structure Result where
  status : ℕ
  cout : OStream
  cerr : String
deriving DecidableEq

/-- The part of `main` after its loop. -/
def finish (d : Driver) : Result :=
  if !d.cin.eofbit && d.cin.failbit then
    { status := 1, cout := d.cout,
      cerr := d.cerr ++ "parse error: " ++
        (IStream.getString { d.cin with eofbit := false, failbit := false } "").2 ++ "\n" }
  else if d.fAny then
    { status := 0, cout := (putTestVector d.cout d.m).1, cerr := d.cerr }
  else { status := 0, cout := d.cout, cerr := d.cerr }

/-- The line written when `main` starts. -/
def banner : String := "Input one or more lines of name/value tuples, ended by '.'\n"

/-- The variables of `main` when its loop is entered on the input `input`. -/
def initial (input : List Char) : Driver :=
  { cin := { chars := input, eofbit := false, failbit := false },
    cout := OStream.put { items := [], hex := false } banner,
    cerr := "", key := "", m := m0, fAny := false }

/-- The rest of a run of `main` from an iteration boundary: the loop, which ends within
one iteration more than there are unread characters, and the part after it. -/
def runFrom (F : NumGet F32) (U : NumGet ℕ) (junk : ℕ) (d : Driver) : Result :=
  finish (loop F U junk (d.cin.chars.length + 1) d)

/-- The program `main` on the input `input`. -/
def main (F : NumGet F32) (U : NumGet ℕ) (junk : ℕ) (input : List Char) : Result :=
  runFrom F U junk (initial input)

/-- Is the character a decimal digit. -/
def isDigit (c : Char) : Bool := 48 ≤ c.toNat && c.toNat ≤ 57

/-- Is the character a sign. -/
def isSign (c : Char) : Bool := c.toNat = 43 || c.toNat = 45

/-- The number denoted by a sequence of decimal digits. -/
def digitsValue (cs : List Char) : ℕ := cs.foldl (fun a c => 10 * a + (c.toNat - 48)) 0

/-- A field without its leading sign. -/
def dropSign : List Char → List Char
  | [] => []
  | c :: r => if isSign c then r else c :: r

/-- The facet of the standard library for `std::uint32_t` in base ten: an optional sign and
the decimal digits that follow are accumulated; a field without digits stores 0 and fails, a
number above `2^32 - 1` stores `2^32 - 1` and fails, a minus sign negates modulo `2^32`. -/
def cinU32 : NumGet ℕ where
  scan cs := (cs.length - (dropSign cs).length) + ((dropSign cs).takeWhile isDigit).length
  conv fld :=
    if (dropSign fld).isEmpty then (0, false)
    else if digitsValue (dropSign fld) < 2 ^ 32 then
      (if fld.head? = some '-' then (2 ^ 32 - digitsValue (dropSign fld)) % 2 ^ 32
        else digitsValue (dropSign fld), true)
    else (2 ^ 32 - 1, false)

/-- The parts of a floating literal: the sign, the digits before and after the point, the
exponent part if there is one (its sign and digits), and the number of characters. -/
structure FloatParts where
  neg : Bool
  int : List Char
  frac : List Char
  expo : Option (Bool × List Char)
  len : ℕ
deriving DecidableEq

/-- The exponent part at the head of the characters `cs`, when the mantissa has a digit. -/
def splitExponent (mantissa : Bool) (cs : List Char) : Option (Bool × List Char) × ℕ :=
  match cs with
  | [] => (none, 0)
  | c :: r =>
    if mantissa && (c.toNat = 101 || c.toNat = 69) then
      (some (r.head? = some '-', (dropSign r).takeWhile isDigit),
        1 + (r.length - (dropSign r).length) + ((dropSign r).takeWhile isDigit).length)
    else (none, 0)

/-- The characters after an optional decimal point. -/
def dropPoint : List Char → List Char
  | [] => []
  | c :: r => if c.toNat = 46 then r else c :: r

/-- The longest floating literal at the head of the characters `cs`. -/
def splitFloat (cs : List Char) : FloatParts :=
  { neg := cs.head? = some '-'
    int := (dropSign cs).takeWhile isDigit
    frac := (dropPoint ((dropSign cs).dropWhile isDigit)).takeWhile isDigit
    expo := (splitExponent
      (!((dropSign cs).takeWhile isDigit).isEmpty ||
        !((dropPoint ((dropSign cs).dropWhile isDigit)).takeWhile isDigit).isEmpty)
      ((dropPoint ((dropSign cs).dropWhile isDigit)).dropWhile isDigit)).1
    len := (cs.length - ((dropPoint ((dropSign cs).dropWhile isDigit)).dropWhile isDigit).length) +
      (splitExponent
        (!((dropSign cs).takeWhile isDigit).isEmpty ||
          !((dropPoint ((dropSign cs).dropWhile isDigit)).takeWhile isDigit).isEmpty)
        ((dropPoint ((dropSign cs).dropWhile isDigit)).dropWhile isDigit)).2 }

/-- Is the literal complete: a digit in the mantissa and, after an exponent letter, a
digit. -/
def FloatParts.valid (p : FloatParts) : Bool :=
  (!p.int.isEmpty || !p.frac.isEmpty) &&
    (match p.expo with
      | none => true
      | some e => !e.2.isEmpty)

/-- The decimal exponent of a literal. -/
def FloatParts.exponent (p : FloatParts) : ℤ :=
  match p.expo with
  | none => 0
  | some e => if e.1 then -(digitsValue e.2 : ℤ) else (digitsValue e.2 : ℤ)

/-- The number denoted by a complete literal. -/
def FloatParts.value (p : FloatParts) : ℚ :=
  (if p.neg then -1 else 1) * (digitsValue (p.int ++ p.frac) : ℚ) / 10 ^ p.frac.length *
    10 ^ p.exponent

/-- The largest finite binary32 value. -/
def maxF32 : ℚ := (2 ^ 24 - 1) * 2 ^ 104

/-- The facet of the standard library for `float`: the longest floating literal is
accumulated; an incomplete literal stores 0 and fails, a number that rounds beyond the
largest finite value stores that value with the sign and fails, any other is stored rounded
to binary32. -/
def cinFloat : NumGet F32 where
  scan cs := (splitFloat cs).len
  conv fld :=
    if (splitFloat fld).valid then
      if |(splitFloat fld).value| < 2 ^ 128 - 2 ^ 103 then (F32.ofRat (splitFloat fld).value, true)
      else (F32.fin (if (splitFloat fld).neg then -maxF32 else maxF32), false)
    else (F32.fin 0, false)

/-- Does the record have a valid field among the four the driver reads. -/
def hasValid (m : Measurements) : Bool :=
  m.Vbat.fValid || m.Vbus.fValid || m.Boot.fValid || m.CompostTemp.fValid

/-- Does the extraction of a number from the stream find characters and fail to convert
them. -/
def IStream.convFails {α : Type} (g : NumGet α) (s : IStream) : Bool :=
  s.good && !(s.chars.dropWhile isSpace).isEmpty &&
    !(g.conv ((s.chars.dropWhile isSpace).take (g.scan (s.chars.dropWhile isSpace)))).2

/-- Does the iteration that starts in `d` read the key of a value and then fail to convert
the characters of the value. -/
def valueFails (F : NumGet F32) (U : NumGet ℕ) (d : Driver) : Bool :=
  d.cin.good &&
    (if (d.cin.getString "").2 = "Vbat" ∨ (d.cin.getString "").2 = "Vbus" ∨
        (d.cin.getString "").2 = "CompostTemp" then (d.cin.getString "").1.convFails F
      else if (d.cin.getString "").2 = "Boot" then (d.cin.getString "").1.convFails U
      else false)

/-- What has been written after one more item is written. -/
def Out.write (l : List Out) : Out → List Out
  | Out.text s => Out.append l s
  | Out.float v => l ++ [Out.float v]

/-- What has been written after the items `w` are written in turn. -/
def Out.after (l w : List Out) : List Out := w.foldl Out.write l

/-- The streams `p1` and `p2` come from `o1` and `o2` by the same writes, and have the same
base. -/
def SameWrites (o1 o2 p1 p2 : OStream) : Prop :=
  p1.hex = p2.hex ∧ ∃ W, p1.items = Out.after o1.items W ∧ p2.items = Out.after o2.items W

theorem roundEven_floor_le (s : ℚ) : ⌊s⌋ ≤ roundEven s := by
  unfold roundEven
  split_ifs <;> omega

theorem roundEven_le_floor_succ (s : ℚ) : roundEven s ≤ ⌊s⌋ + 1 := by
  unfold roundEven
  split_ifs <;> omega

theorem roundEven_intCast (n : ℤ) : roundEven (n : ℚ) = n := by
  unfold roundEven
  simp

theorem le_roundEven {n : ℤ} {s : ℚ} (h : (n : ℚ) ≤ s) : n ≤ roundEven s :=
  le_trans (Int.le_floor.mpr h) (roundEven_floor_le s)

theorem roundEven_le {n : ℤ} {s : ℚ} (h : s ≤ (n : ℚ)) : roundEven s ≤ n := by
  rcases eq_or_lt_of_le h with h | h
  · rw [h, roundEven_intCast]
  · have := Int.floor_lt.mpr h
    have := roundEven_le_floor_succ s
    omega

theorem roundEven_neg (s : ℚ) : roundEven (-s) = -roundEven s := by
  by_cases hs : (⌊s⌋ : ℚ) = s
  · rw [← hs, ← Int.cast_neg, roundEven_intCast, roundEven_intCast]
  · have h1 : (⌊s⌋ : ℚ) < s := lt_of_le_of_ne (Int.floor_le s) hs
    have h2 : s < ⌊s⌋ + 1 := Int.lt_floor_add_one s
    have hf : ⌊-s⌋ = -⌊s⌋ - 1 := by
      rw [Int.floor_eq_iff]
      push_cast
      constructor <;> linarith
    unfold roundEven
    rw [hf]
    push_cast
    split_ifs <;> first | omega | (exfalso; linarith)

theorem ulpExp_ge (x : ℚ) : -149 ≤ ulpExp x := le_max_right _ _

theorem ulpExp_neg (x : ℚ) : ulpExp (-x) = ulpExp x := by
  unfold ulpExp; rw [abs_neg]

theorem two_zpow_pos (e : ℤ) : (0 : ℚ) < (2 : ℚ) ^ e := zpow_pos (by norm_num) e

theorem abs_lt_of_ulpExp (x : ℚ) : |x| < (2 : ℚ) ^ (ulpExp x + 24) := by
  have h := Int.lt_zpow_succ_log_self (b := 2) (by norm_num) |x|
  refine lt_of_lt_of_le h ?_
  push_cast
  apply zpow_le_zpow_right₀ (by norm_num)
  have : Int.log 2 |x| - 23 ≤ ulpExp x := le_max_left _ _
  omega

theorem le_abs_of_ulpExp {x : ℚ} (hx : x ≠ 0) (h : -149 < ulpExp x) :
    (2 : ℚ) ^ (ulpExp x + 23) ≤ |x| := by
  have h1 : ulpExp x = Int.log 2 |x| - 23 := by
    unfold ulpExp at h ⊢
    rcases max_cases (Int.log 2 |x| - 23) (-149) with ⟨h2, _⟩ | ⟨h2, _⟩
    · exact h2
    · rw [h2] at h; omega
  have h3 := Int.zpow_log_le_self (b := 2) (r := |x|) (by norm_num) (abs_pos.mpr hx)
  rw [h1]
  simpa using h3

theorem ulpExp_mono {x y : ℚ} (hx : x ≠ 0) (h : |x| ≤ |y|) : ulpExp x ≤ ulpExp y := by
  unfold ulpExp
  have := Int.log_mono_right (b := 2) (abs_pos.mpr hx) h
  apply max_le_max _ le_rfl
  omega

/-- A multiple of `2^e` is a multiple of every smaller power of two. -/
theorem exists_mul_zpow {m e E : ℤ} (h : E ≤ e) :
    ∃ k : ℤ, (m : ℚ) * (2 : ℚ) ^ e = k * (2 : ℚ) ^ E := by
  refine ⟨m * 2 ^ (e - E).toNat, ?_⟩
  have h2 : (2 : ℚ) ^ e = (2 : ℚ) ^ ((e - E).toNat : ℤ) * (2 : ℚ) ^ E := by
    rw [← zpow_add₀ (by norm_num)]
    congr 1
    omega
  rw [h2, zpow_natCast]
  push_cast
  ring

theorem isBinary24_canonical {a : ℚ} (ha : isBinary24 a) : ∃ k : ℤ, a = k * (2 : ℚ) ^ ulpExp a := by
  obtain ⟨m, e, hm, he, rfl⟩ := ha
  by_cases h0 : (m : ℚ) * (2 : ℚ) ^ e = 0
  · exact ⟨0, by simp [h0]⟩
  · apply exists_mul_zpow
    unfold ulpExp
    apply max_le _ he
    have hlt : |(m : ℚ) * (2 : ℚ) ^ e| < (2 : ℚ) ^ (e + 24) := by
      rw [abs_mul, abs_of_pos (two_zpow_pos e), zpow_add₀ (by norm_num), mul_comm]
      apply mul_lt_mul_of_pos_left _ (two_zpow_pos e)
      exact_mod_cast hm
    have := (Int.lt_zpow_iff_log_lt (b := 2) (by norm_num) (abs_pos.mpr h0)).mp (by simpa using hlt)
    omega

theorem isBinary24_neg {a : ℚ} (ha : isBinary24 a) : isBinary24 (-a) := by
  obtain ⟨m, e, hm, he, rfl⟩ := ha
  exact ⟨-m, e, by simpa using hm, he, by push_cast; ring⟩

theorem roundF32_neg (x : ℚ) : roundF32 (-x) = -roundF32 x := by
  unfold roundF32
  rw [ulpExp_neg, neg_div, roundEven_neg]
  push_cast
  ring

theorem roundF32_zero : roundF32 0 = 0 := by
  unfold roundF32
  rw [zero_div, ← Int.cast_zero, roundEven_intCast]
  simp

theorem le_roundF32_of_mul {k : ℤ} {x : ℚ} (h : (k : ℚ) * (2 : ℚ) ^ ulpExp x ≤ x) :
    (k : ℚ) * (2 : ℚ) ^ ulpExp x ≤ roundF32 x := by
  unfold roundF32
  apply mul_le_mul_of_nonneg_right _ (le_of_lt (two_zpow_pos _))
  have : (k : ℚ) ≤ x / (2 : ℚ) ^ ulpExp x := by
    rw [le_div_iff₀ (two_zpow_pos _)]; exact h
  exact_mod_cast le_roundEven this

/-- Rounding never crosses a representable value from above. -/
theorem le_roundF32 {a x : ℚ} (ha : isBinary24 a) (h : a ≤ x) : a ≤ roundF32 x := by
  rcases lt_trichotomy x 0 with hx | hx | hx
  · have ha0 : a < 0 := lt_of_le_of_lt h hx
    have hE : ulpExp x ≤ ulpExp a := by
      apply ulpExp_mono (ne_of_lt hx)
      rw [abs_of_neg hx, abs_of_neg ha0]; linarith
    obtain ⟨k, hk⟩ := isBinary24_canonical ha
    obtain ⟨k', hk'⟩ := exists_mul_zpow (m := k) hE
    rw [hk, hk']
    apply le_roundF32_of_mul
    rw [← hk', ← hk]; exact h
  · rw [hx, roundF32_zero]; rw [hx] at h; exact h
  · have h0 : (0 : ℚ) ≤ roundF32 x := by
      have := le_roundF32_of_mul (k := 0) (x := x) (by simpa using le_of_lt hx)
      simpa using this
    rcases le_or_lt a 0 with ha0 | ha0
    · exact le_trans ha0 h0
    · have hE : ulpExp a ≤ ulpExp x := by
        apply ulpExp_mono (ne_of_gt ha0)
        rw [abs_of_pos hx, abs_of_pos ha0]; exact h
      rcases eq_or_lt_of_le hE with hE | hE
      · obtain ⟨k, hk⟩ := isBinary24_canonical ha
        rw [hk, hE]
        apply le_roundF32_of_mul
        rw [← hE, ← hk]; exact h
      · have h1 := le_abs_of_ulpExp (ne_of_gt hx) (lt_of_le_of_lt (ulpExp_ge a) hE)
        rw [abs_of_pos hx] at h1
        have h2 : ((2 ^ 23 : ℤ) : ℚ) * (2 : ℚ) ^ ulpExp x = (2 : ℚ) ^ (ulpExp x + 23) := by
          rw [zpow_add₀ (by norm_num)]; push_cast; rw [mul_comm]; norm_num
        have h3 := le_roundF32_of_mul (k := 2 ^ 23) (x := x) (by rw [h2]; exact h1)
        rw [h2] at h3
        have h4 := abs_lt_of_ulpExp a
        rw [abs_of_pos ha0] at h4
        have h5 : (2 : ℚ) ^ (ulpExp a + 24) ≤ (2 : ℚ) ^ (ulpExp x + 23) :=
          zpow_le_zpow_right₀ (by norm_num) (by omega)
        linarith

/-- Rounding never crosses a representable value from below. -/
theorem roundF32_le {a x : ℚ} (ha : isBinary24 a) (h : x ≤ a) : roundF32 x ≤ a := by
  have := le_roundF32 (isBinary24_neg ha) (neg_le_neg h)
  rw [roundF32_neg] at this
  linarith

/-- Representable values round to themselves. -/
theorem roundF32_eq_self {a : ℚ} (ha : isBinary24 a) : roundF32 a = a :=
  le_antisymm (roundF32_le ha le_rfl) (le_roundF32 ha le_rfl)

theorem isBinary24_of_mul_zpow {x : ℚ} {K E : ℤ} (hx : x = K * (2 : ℚ) ^ E) (hE : -149 ≤ E)
    (h1 : |x| < (2 : ℚ) ^ (E + 24)) : isBinary24 x := by
  refine ⟨K, E, ?_, hE, hx⟩
  rw [hx, abs_mul, abs_of_pos (two_zpow_pos E), zpow_add₀ (by norm_num), mul_comm] at h1
  have h3 := lt_of_mul_lt_mul_left h1 (le_of_lt (two_zpow_pos E))
  exact_mod_cast h3

theorem isBinary24_intCast {n : ℤ} (h : |n| < 2 ^ 24) : isBinary24 (n : ℚ) := by
  exact ⟨n, 0, h, by norm_num, by simp⟩

theorem isBinary24_intCast_add_half {n : ℤ} (h : |n| < 2 ^ 22) : isBinary24 ((n : ℚ) + 1 / 2) := by
  have h1 := abs_lt.mp h
  refine ⟨2 * n + 1, -1, ?_, by norm_num, ?_⟩
  · rw [abs_lt]; constructor <;> omega
  · push_cast
    rw [zpow_neg_one]
    ring

theorem ulpExp_le_neg_one {v : ℚ} (h : |v| < 2 ^ 23) : ulpExp v ≤ -1 := by
  unfold ulpExp
  apply max_le _ (by norm_num)
  by_cases h0 : v = 0
  · subst h0; simp [Int.log_zero_right]
  · have := (Int.lt_zpow_iff_log_lt (b := 2) (x := 23) (by norm_num) (abs_pos.mpr h0)).mp
      (by norm_num; linarith)
    omega

theorem half_eq_mul_zpow {E : ℤ} (hE : E ≤ -1) :
    (1 / 2 : ℚ) = ((2 ^ (-1 - E).toNat : ℤ) : ℚ) * (2 : ℚ) ^ E := by
  push_cast
  rw [← zpow_natCast, ← zpow_add₀ (by norm_num)]
  have : ((-1 - E).toNat : ℤ) + E = -1 := by omega
  rw [this]
  norm_num

/-- In the quarter-to-half binade binary32 values are multiples of `2^-25`. -/
theorem isBinary24_quarter_half {v : ℚ} (hv : isBinary24 v) (h1 : 1 / 4 ≤ v) (h2 : v < 1 / 2) :
    ∃ k : ℤ, v = k / 33554432 := by
  obtain ⟨k, hk⟩ := isBinary24_canonical hv
  have hpos : 0 < v := by linarith
  have hL : Int.log 2 |v| = -2 := by
    rw [abs_of_pos hpos]
    apply le_antisymm
    · have := (Int.lt_zpow_iff_log_lt (b := 2) (x := -1) (by norm_num) hpos).mp
        (by norm_num; linarith)
      omega
    · exact (Int.zpow_le_iff_le_log (b := 2) (x := -2) (by norm_num) hpos).mp
        (by norm_num; linarith)
  have hE : ulpExp v = -25 := by
    unfold ulpExp; rw [hL]; norm_num
  rw [hE] at hk
  refine ⟨k, ?_⟩
  rw [hk]
  norm_num
  ring

/-- The sum `v + 1/2` of a binary32 value of magnitude at least `1/2` that lies in the
upper half of its unit interval is representable. -/
theorem isBinary24_add_half {v : ℚ} {n : ℤ} (hv : isBinary24 v) (hb : |v| < 2 ^ 22)
    (h1 : (n : ℚ) + 1 / 2 ≤ v + 1 / 2) (h2 : v + 1 / 2 < n + 1)
    (h3 : v ≤ -1 / 2 ∨ 1 / 2 ≤ v) : isBinary24 (v + 1 / 2) := by
  have hE : ulpExp v ≤ -1 := ulpExp_le_neg_one (by linarith)
  obtain ⟨k, hk⟩ := isBinary24_canonical hv
  have hx : v + 1 / 2 = ((k + 2 ^ (-1 - ulpExp v).toNat : ℤ) : ℚ) * (2 : ℚ) ^ ulpExp v := by
    rw [Int.cast_add, add_mul, ← half_eq_mul_zpow hE, ← hk]
  have hb' := abs_lt.mp hb
  apply isBinary24_of_mul_zpow hx (ulpExp_ge v)
  rcases h3 with h3 | h3
  · have : |v + 1 / 2| ≤ |v| := by
      rw [abs_of_nonpos (by linarith), abs_of_neg (by linarith)]; linarith
    exact lt_of_le_of_lt this (abs_lt_of_ulpExp v)
  · have hpos : 0 < v := by linarith
    have hL : (-1 : ℤ) ≤ Int.log 2 |v| := by
      rw [abs_of_pos hpos]
      exact (Int.zpow_le_iff_le_log (b := 2) (x := -1) (by norm_num) hpos).mp
        (by norm_num; linarith)
    have hlt := Int.lt_zpow_succ_log_self (b := 2) (by norm_num) |v|
    rw [abs_of_pos hpos] at hlt hL
    obtain ⟨p, hp⟩ : ∃ p : ℕ, Int.log 2 v + 1 = p := ⟨(Int.log 2 v + 1).toNat, by omega⟩
    rw [hp] at hlt
    have h4 : (n : ℚ) < ((2 ^ p : ℤ) : ℚ) := by
      push_cast
      rw [← zpow_natCast]
      push_cast at hlt
      linarith
    have h5 : n + 1 ≤ 2 ^ p := by
      have : n < 2 ^ p := by exact_mod_cast h4
      omega
    have h6 : ((n + 1 : ℤ) : ℚ) ≤ ((2 ^ p : ℤ) : ℚ) := by exact_mod_cast h5
    have h7 : (2 : ℚ) ^ (p : ℤ) ≤ (2 : ℚ) ^ (ulpExp v + 24) := by
      apply zpow_le_zpow_right₀ (by norm_num)
      have : Int.log 2 |v| - 23 ≤ ulpExp v := le_max_left _ _
      rw [abs_of_pos hpos] at this
      omega
    rw [abs_of_pos (by linarith)]
    push_cast at h6
    rw [← zpow_natCast] at h6
    linarith

/-- Rounding the single precision sum `v + 0.5f` does not change its floor, except at the
binary32 value just below one half. -/
theorem floor_roundF32_add_half {v : ℚ} (hv : isBinary24 v) (hne : v ≠ 1 / 2 - 1 / 2 ^ 25)
    (hb : |v| ≤ 2 ^ 22 - 1) : ⌊roundF32 (v + 1 / 2)⌋ = ⌊v + 1 / 2⌋ := by
  have hn1 := Int.floor_le (v + 1 / 2)
  have hn2 := Int.lt_floor_add_one (v + 1 / 2)
  have hb' := abs_le.mp hb
  generalize hn : ⌊v + 1 / 2⌋ = n at hn1 hn2 ⊢
  have hnabs : |n| < 2 ^ 22 := by
    have h1 : ((-(2 ^ 22) : ℤ) : ℚ) < (n : ℚ) := by push_cast; linarith
    have h2 : (n : ℚ) < ((2 ^ 22 : ℤ) : ℚ) := by push_cast; linarith
    rw [abs_lt]
    exact ⟨by exact_mod_cast h1, by exact_mod_cast h2⟩
  rw [Int.floor_eq_iff]
  constructor
  · exact le_roundF32 (isBinary24_intCast (lt_trans hnabs (by norm_num))) hn1
  · by_cases hc : v + 1 / 2 < n + 1 / 2
    · have := roundF32_le (isBinary24_intCast_add_half hnabs) (le_of_lt hc)
      linarith
    · push_neg at hc
      by_cases h3 : v ≤ -1 / 2 ∨ 1 / 2 ≤ v
      · have hx := isBinary24_add_half hv (by rw [abs_lt]; constructor <;> linarith) hc hn2 h3
        rw [roundF32_eq_self hx]; exact hn2
      · push_neg at h3
        have hn0 : (0 : ℚ) ≤ n := by
          have : ((-1 : ℤ) : ℚ) < (n : ℚ) := by push_cast; linarith
          have : -1 < n := by exact_mod_cast this
          exact_mod_cast (show (0 : ℤ) ≤ n by omega)
        by_cases h4 : v < 1 / 4
        · have h34 : isBinary24 (3 / 4 : ℚ) :=
            ⟨3, -2, by norm_num, by norm_num, by norm_num⟩
          have := roundF32_le h34 (show v + 1 / 2 ≤ 3 / 4 by linarith)
          linarith
        · push_neg at h4
          obtain ⟨k, hk⟩ := isBinary24_quarter_half hv h4 h3.2
          have hk1 : (k : ℚ) < ((16777216 : ℤ) : ℚ) := by
            push_cast; rw [hk] at h3; linarith [h3.2]
          have hk2 : k ≠ 16777215 := by
            intro h; apply hne; rw [hk, h]; norm_num
          have hk3 : k ≤ 16777214 := by
            have : k < 16777216 := by exact_mod_cast hk1
            omega
          have hk4 : (k : ℚ) ≤ ((16777214 : ℤ) : ℚ) := by exact_mod_cast hk3
          push_cast at hk4
          have htop : isBinary24 (16777215 / 16777216 : ℚ) :=
            ⟨16777215, -24, by norm_num, by norm_num, by norm_num⟩
          have := roundF32_le htop (show v + 1 / 2 ≤ 16777215 / 16777216 by rw [hk]; linarith)
          linarith

theorem truncToInt_intCast (n : ℤ) : truncToInt (n : ℚ) = n := by
  unfold truncToInt
  split_ifs <;> simp

/-- The function `encode16s` on a finite input, in terms of the rounded sum. -/
theorem encode16s_fin (v : ℚ) :
    encode16s (F32.fin v) =
      if (2 : ℚ) ^ 128 ≤ roundF32 (v + 1 / 2) then 0x7FFF
      else if roundF32 (v + 1 / 2) ≤ -(2 : ℚ) ^ 128 then 0x8000
      else if 32767 < ⌊roundF32 (v + 1 / 2)⌋ then 0x7FFF
      else if ⌊roundF32 (v + 1 / 2)⌋ < -32768 then 0x8000
      else toUInt16 ⌊roundF32 (v + 1 / 2)⌋ := by
  have key : ∀ r : ℚ,
      (if F32.lt (F32.fin 32767) (F32.floor (if (2 : ℚ) ^ 128 ≤ r then F32.pinf
            else if r ≤ -(2 : ℚ) ^ 128 then F32.ninf else F32.fin r)) then 0x7FFF
        else if F32.lt (F32.floor (if (2 : ℚ) ^ 128 ≤ r then F32.pinf
            else if r ≤ -(2 : ℚ) ^ 128 then F32.ninf else F32.fin r)) (F32.fin (-32768)) then 0x8000
        else toUInt16 (F32.toInt (F32.floor (if (2 : ℚ) ^ 128 ≤ r then F32.pinf
            else if r ≤ -(2 : ℚ) ^ 128 then F32.ninf else F32.fin r)))) =
      (if (2 : ℚ) ^ 128 ≤ r then 0x7FFF
        else if r ≤ -(2 : ℚ) ^ 128 then 0x8000
        else if 32767 < ⌊r⌋ then 0x7FFF
        else if ⌊r⌋ < -32768 then 0x8000
        else toUInt16 ⌊r⌋) := by
    intro r
    by_cases h1 : (2 : ℚ) ^ 128 ≤ r
    · simp only [h1, if_true, F32.floor, F32.lt]
    · by_cases h2 : r ≤ -(2 : ℚ) ^ 128
      · simp only [h1, h2, if_true, if_false, F32.floor, F32.lt]; rfl
      · simp only [h1, h2, if_false, F32.floor, F32.lt, F32.toInt, truncToInt_intCast,
          decide_eq_true_eq]
        have e1 : ((32767 : ℚ) < (⌊r⌋ : ℚ)) ↔ 32767 < ⌊r⌋ := by
          exact_mod_cast Iff.rfl
        have e2 : ((⌊r⌋ : ℚ) < -32768) ↔ ⌊r⌋ < -32768 := by
          exact_mod_cast Iff.rfl
        simp only [e1, e2]
  exact key (roundF32 (v + 1 / 2))

/-- The function `encode16u` on a finite input, in terms of the rounded sum. -/
theorem encode16u_fin (v : ℚ) :
    encode16u (F32.fin v) =
      if (2 : ℚ) ^ 128 ≤ roundF32 (v + 1 / 2) then 0xFFFF
      else if roundF32 (v + 1 / 2) ≤ -(2 : ℚ) ^ 128 then 0
      else if 65535 < ⌊roundF32 (v + 1 / 2)⌋ then 0xFFFF
      else if ⌊roundF32 (v + 1 / 2)⌋ < 0 then 0
      else toUInt16 ⌊roundF32 (v + 1 / 2)⌋ := by
  have key : ∀ r : ℚ,
      (if F32.lt (F32.fin 65535) (F32.floor (if (2 : ℚ) ^ 128 ≤ r then F32.pinf
            else if r ≤ -(2 : ℚ) ^ 128 then F32.ninf else F32.fin r)) then 0xFFFF
        else if F32.lt (F32.floor (if (2 : ℚ) ^ 128 ≤ r then F32.pinf
            else if r ≤ -(2 : ℚ) ^ 128 then F32.ninf else F32.fin r)) (F32.fin (0)) then 0
        else toUInt16 (F32.toInt (F32.floor (if (2 : ℚ) ^ 128 ≤ r then F32.pinf
            else if r ≤ -(2 : ℚ) ^ 128 then F32.ninf else F32.fin r)))) =
      (if (2 : ℚ) ^ 128 ≤ r then 0xFFFF
        else if r ≤ -(2 : ℚ) ^ 128 then 0
        else if 65535 < ⌊r⌋ then 0xFFFF
        else if ⌊r⌋ < 0 then 0
        else toUInt16 ⌊r⌋) := by
    intro r
    by_cases h1 : (2 : ℚ) ^ 128 ≤ r
    · simp only [h1, if_true, F32.floor, F32.lt]
    · by_cases h2 : r ≤ -(2 : ℚ) ^ 128
      · simp only [h1, h2, if_true, if_false, F32.floor, F32.lt]; rfl
      · simp only [h1, h2, if_false, F32.floor, F32.lt, F32.toInt, truncToInt_intCast,
          decide_eq_true_eq]
        have e1 : ((65535 : ℚ) < (⌊r⌋ : ℚ)) ↔ 65535 < ⌊r⌋ := by
          exact_mod_cast Iff.rfl
        have e2 : ((⌊r⌋ : ℚ) < 0) ↔ ⌊r⌋ < 0 := by
          exact_mod_cast Iff.rfl
        simp only [e1, e2]
  exact key (roundF32 (v + 1 / 2))

theorem isBinary24_32768 : isBinary24 (32768 : ℚ) := by
  have := isBinary24_intCast (n := 32768) (by norm_num)
  simpa using this

theorem isBinary24_neg_32768 : isBinary24 (-32768 : ℚ) := by
  have := isBinary24_intCast (n := -32768) (by norm_num)
  simpa using this

theorem isBinary24_65536 : isBinary24 (65536 : ℚ) := by
  have := isBinary24_intCast (n := 65536) (by norm_num)
  simpa using this

theorem isBinary24_zero : isBinary24 (0 : ℚ) := by
  have := isBinary24_intCast (n := 0) (by norm_num)
  simpa using this

/-- Saturation of the scaled codecs in terms of the exact rounded value `floor(v + 1/2)`. -/
theorem sat16_cases (v : ℚ) :
    (32767 < ⌊v + 1 / 2⌋ → encode16s (F32.fin v) = 0x7FFF) ∧
    (⌊v + 1 / 2⌋ < -32768 → encode16s (F32.fin v) = 0x8000) ∧
    (65535 < ⌊v + 1 / 2⌋ → encode16u (F32.fin v) = 0xFFFF) ∧
    (⌊v + 1 / 2⌋ < 0 → encode16u (F32.fin v) = 0) := by
  refine ⟨?_, ?_, ?_, ?_⟩
  · intro h
    have h1 : (32768 : ℚ) ≤ v + 1 / 2 := by
      have : ((32768 : ℤ) : ℚ) ≤ v + 1 / 2 := Int.le_floor.mp (by omega)
      simpa using this
    have h2 := le_roundF32 isBinary24_32768 h1
    have h3 : 32767 < ⌊roundF32 (v + 1 / 2)⌋ := by
      have : (32768 : ℤ) ≤ ⌊roundF32 (v + 1 / 2)⌋ := Int.le_floor.mpr (by simpa using h2)
      omega
    rw [encode16s_fin]
    have h4 : ¬ roundF32 (v + 1 / 2) ≤ -(2 : ℚ) ^ 128 := by
      push_neg; refine lt_of_lt_of_le ?_ h2; norm_num
    simp only [h3, h4, if_true, if_false]
    split_ifs <;> rfl
  · intro h
    have h1 : v + 1 / 2 ≤ (-32768 : ℚ) := by
      have : v + 1 / 2 < ((-32768 : ℤ) : ℚ) := Int.floor_lt.mp h
      push_cast at this; linarith
    have h2 := roundF32_le isBinary24_neg_32768 h1
    have h3 : ⌊roundF32 (v + 1 / 2)⌋ ≤ -32768 := by
      have : ⌊roundF32 (v + 1 / 2)⌋ ≤ ⌊(-32768 : ℚ)⌋ := Int.floor_mono h2
      have e : ⌊(-32768 : ℚ)⌋ = -32768 := by
        rw [Int.floor_eq_iff]; norm_num
      omega
    rw [encode16s_fin]
    have h4 : ¬ (2 : ℚ) ^ 128 ≤ roundF32 (v + 1 / 2) := by
      push_neg; refine lt_of_le_of_lt h2 ?_; norm_num
    have h5 : ¬ 32767 < ⌊roundF32 (v + 1 / 2)⌋ := by omega
    simp only [h4, h5, if_false]
    split_ifs
    · rfl
    · rfl
    · have : ⌊roundF32 (v + 1 / 2)⌋ = -32768 := by omega
      rw [this]; decide
  · intro h
    have h1 : (65536 : ℚ) ≤ v + 1 / 2 := by
      have : ((65536 : ℤ) : ℚ) ≤ v + 1 / 2 := Int.le_floor.mp (by omega)
      simpa using this
    have h2 := le_roundF32 isBinary24_65536 h1
    have h3 : 65535 < ⌊roundF32 (v + 1 / 2)⌋ := by
      have : (65536 : ℤ) ≤ ⌊roundF32 (v + 1 / 2)⌋ := Int.le_floor.mpr (by simpa using h2)
      omega
    rw [encode16u_fin]
    have h4 : ¬ roundF32 (v + 1 / 2) ≤ -(2 : ℚ) ^ 128 := by
      push_neg; refine lt_of_lt_of_le ?_ h2; norm_num
    simp only [h3, h4, if_true, if_false]
    split_ifs <;> rfl
  · intro h
    have h1 : v + 1 / 2 ≤ (0 : ℚ) := by
      have : v + 1 / 2 < ((0 : ℤ) : ℚ) := Int.floor_lt.mp h
      push_cast at this; linarith
    have h2 := roundF32_le isBinary24_zero h1
    have h3 : ⌊roundF32 (v + 1 / 2)⌋ ≤ 0 := by
      have : ⌊roundF32 (v + 1 / 2)⌋ ≤ ⌊(0 : ℚ)⌋ := Int.floor_mono h2
      simpa using this
    rw [encode16u_fin]
    have h4 : ¬ (2 : ℚ) ^ 128 ≤ roundF32 (v + 1 / 2) := by
      push_neg; refine lt_of_le_of_lt h2 ?_; norm_num
    have h5 : ¬ 65535 < ⌊roundF32 (v + 1 / 2)⌋ := by omega
    simp only [h4, h5, if_false]
    split_ifs
    · rfl
    · rfl
    · have : ⌊roundF32 (v + 1 / 2)⌋ = 0 := by omega
      rw [this]; decide

/-! ## the buffer builder -/

theorem toUInt16_lt (i : ℤ) : toUInt16 i < 65536 := by
  unfold toUInt16
  have := Int.emod_lt_of_pos i (show (0 : ℤ) < 65536 by norm_num)
  have := Int.emod_nonneg i (show (65536 : ℤ) ≠ 0 by norm_num)
  omega

theorem encode16s_lt (v : F32) : encode16s v < 65536 := by
  unfold encode16s
  simp only
  split_ifs
  · norm_num
  · norm_num
  · exact toUInt16_lt _

theorem encodeV_lt (v : F32) : encodeV v < 65536 := encode16s_lt _

theorem encodeT_lt (v : F32) : encodeT v < 65536 := encode16s_lt _

/-- The two bytes appended by `push_back_be` for a 16-bit value. -/
theorem push_back_be_eq (buf : Buffer) {v : ℕ} (h : v < 65536) :
    Buffer.push_back_be buf v = buf ++ [v >>> 8, v &&& 0xFF] := by
  unfold Buffer.push_back_be Buffer.push_back
  have h1 : (v >>> 8) % 256 = v >>> 8 := by
    apply Nat.mod_eq_of_lt
    rw [Nat.shiftRight_eq_div_pow]
    omega
  have h2 : (v &&& 0xFF) % 256 = v &&& 0xFF := by
    apply Nat.mod_eq_of_lt
    exact lt_of_le_of_lt Nat.and_le_right (by norm_num)
  rw [h1, h2]
  simp

/-- The buffer built by `encodeMeasurement`, as an explicit list. -/
theorem encodeMeasurement_eq (buf : Buffer) (m : Measurements) :
    encodeMeasurement buf m =
      ([0x2b,
        (if m.Vbat.fValid then 1 else 0) ||| (if m.Vbus.fValid then 2 else 0) |||
          (if m.Boot.fValid then 4 else 0) ||| (if m.CompostTemp.fValid then 8 else 0)] ++
        (if m.Vbat.fValid then [encodeV m.Vbat.v >>> 8, encodeV m.Vbat.v &&& 0xFF] else []) ++
        (if m.Vbus.fValid then [encodeV m.Vbus.v >>> 8, encodeV m.Vbus.v &&& 0xFF] else []) ++
        (if m.Boot.fValid then [m.Boot.v.val] else []) ++
        (if m.CompostTemp.fValid then
          [encodeT m.CompostTemp.v.t >>> 8, encodeT m.CompostTemp.v.t &&& 0xFF] else []), m) := by
  obtain ⟨⟨a, va⟩, vsys, ⟨b, vb⟩, ⟨c, vc⟩, ⟨d, ⟨vd⟩⟩⟩ := m
  have hc : vc.val % 256 = vc.val := Nat.mod_eq_of_lt vc.isLt
  unfold encodeMeasurement
  cases a <;> cases b <;> cases c <;> cases d <;>
    simp [Buffer.clear, Buffer.push_back, push_back_be_eq, encodeV_lt, encodeT_lt, hc]

/-! ## concrete codes -/

theorem int_log_two_eq {x : ℚ} {L : ℤ} (h0 : 0 < x) (h1 : (2 : ℚ) ^ L ≤ x)
    (h2 : x < (2 : ℚ) ^ (L + 1)) : Int.log 2 x = L := by
  apply le_antisymm
  · have := (Int.lt_zpow_iff_log_lt (b := 2) (x := L + 1) (by norm_num) h0).mp
      (by exact_mod_cast h2)
    omega
  · exact (Int.zpow_le_iff_le_log (b := 2) (x := L) (by norm_num) h0).mp (by exact_mod_cast h1)

/-- The decimal `3.3` read as a binary32 value. -/
theorem ofRat_3_3 : F32.ofRat (33 / 10) = F32.fin (13841203 / 4194304) := by
  have hE : ulpExp (33 / 10) = -22 := by
    unfold ulpExp
    rw [abs_of_pos (by norm_num), int_log_two_eq (L := 1) (by norm_num) (by norm_num) (by norm_num)]
    norm_num
  have hfl : ⌊(33 / 10 : ℚ) / (2 : ℚ) ^ (-22 : ℤ)⌋ = 13841203 := by
    rw [Int.floor_eq_iff]; norm_num
  have hr : roundF32 (33 / 10) = 13841203 / 4194304 := by
    unfold roundF32 roundEven
    rw [hE, hfl]
    norm_num
  unfold F32.ofRat
  rw [hr]
  norm_num

/-- A finite product that is representable is computed exactly. -/
theorem F32.mul_fin_of_isF32 {q c : ℚ} (h : isF32 (q * c)) :
    F32.mul (F32.fin q) c = F32.fin (q * c) := by
  have hb := abs_lt.mp h.2
  show F32.ofRat (q * c) = F32.fin (q * c)
  unfold F32.ofRat
  rw [roundF32_eq_self h.1]
  have h1 : ¬ (2 : ℚ) ^ 128 ≤ q * c := by push_neg; exact hb.2
  have h2 : ¬ q * c ≤ -(2 : ℚ) ^ 128 := by push_neg; exact hb.1
  simp only [h1, h2, if_false]

/-- The function `encode16s` where the single precision sum is exact and in range. -/
theorem encode16s_of_exact {v : ℚ} {n : ℤ} (hx : isBinary24 (v + 1 / 2))
    (hn : ⌊v + 1 / 2⌋ = n) (h1 : -32768 ≤ n) (h2 : n ≤ 32767) :
    encode16s (F32.fin v) = toUInt16 n := by
  have h3 := Int.floor_le (v + 1 / 2)
  have h4 := Int.lt_floor_add_one (v + 1 / 2)
  rw [hn] at h3 h4
  have h5 : ((-32768 : ℤ) : ℚ) ≤ (n : ℚ) := by exact_mod_cast h1
  have h6 : (n : ℚ) ≤ ((32767 : ℤ) : ℚ) := by exact_mod_cast h2
  push_cast at h5 h6
  rw [encode16s_fin, roundF32_eq_self hx, hn]
  have c1 : ¬ (2 : ℚ) ^ 128 ≤ v + 1 / 2 := by
    push_neg; refine lt_trans (show v + 1 / 2 < 32768 by linarith) (by norm_num)
  have c2 : ¬ v + 1 / 2 ≤ -(2 : ℚ) ^ 128 := by
    push_neg; refine lt_of_lt_of_le (show -(2 : ℚ) ^ 128 < -32768 by norm_num) (by linarith)
  have c3 : ¬ 32767 < n := by omega
  have c4 : ¬ n < -32768 := by omega
  simp only [c1, c2, c3, c4, if_false]

theorem encodeV_3_3 : encodeV (F32.ofRat (33 / 10)) = 0x34CD := by
  have hm : F32.mul (F32.fin (13841203 / 4194304)) 4096 = F32.fin (13841203 / 1024) := by
    have h : isF32 ((13841203 / 4194304 : ℚ) * 4096) :=
      ⟨⟨13841203, -10, by norm_num, by norm_num, by norm_num⟩,
        by rw [abs_lt]; constructor <;> norm_num⟩
    rw [F32.mul_fin_of_isF32 h]; norm_num
  unfold encodeV
  rw [ofRat_3_3, hm,
    encode16s_of_exact (n := 13517) ⟨13841715, -10, by norm_num, by norm_num, by norm_num⟩
      (by rw [Int.floor_eq_iff]; norm_num) (by norm_num) (by norm_num)]
  decide

theorem encodeV_5 : encodeV (F32.fin 5) = 0x5000 := by
  have hm : F32.mul (F32.fin 5) 4096 = F32.fin 20480 := by
    have h : isF32 ((5 : ℚ) * 4096) :=
      ⟨⟨20480, 0, by norm_num, by norm_num, by norm_num⟩,
        by rw [abs_lt]; constructor <;> norm_num⟩
    rw [F32.mul_fin_of_isF32 h]; norm_num
  unfold encodeV
  rw [hm, encode16s_of_exact (n := 20480) ⟨40961, -1, by norm_num, by norm_num, by norm_num⟩
      (by rw [Int.floor_eq_iff]; norm_num) (by norm_num) (by norm_num)]
  decide

theorem encodeT_25_5 : encodeT (F32.fin (51 / 2)) = 0x1980 := by
  have hm : F32.mul (F32.fin (51 / 2)) 256 = F32.fin 6528 := by
    have h : isF32 ((51 / 2 : ℚ) * 256) :=
      ⟨⟨6528, 0, by norm_num, by norm_num, by norm_num⟩,
        by rw [abs_lt]; constructor <;> norm_num⟩
    rw [F32.mul_fin_of_isF32 h]; norm_num
  unfold encodeT
  rw [hm, encode16s_of_exact (n := 6528) ⟨13057, -1, by norm_num, by norm_num, by norm_num⟩
      (by rw [Int.floor_eq_iff]; norm_num) (by norm_num) (by norm_num)]
  decide

theorem isBinary24_mul_two_pow {q : ℚ} (hq : isBinary24 q) (k : ℕ) :
    isBinary24 (q * (2 : ℚ) ^ k) := by
  obtain ⟨m, e, hm, he, rfl⟩ := hq
  refine ⟨m, e + k, hm, by omega, ?_⟩
  rw [zpow_add₀ (by norm_num), zpow_natCast, mul_assoc]

theorem encode16s_pinf : encode16s F32.pinf = 0x7FFF := by
  simp [encode16s, F32.add, F32.floor, F32.lt]

theorem encode16s_ninf : encode16s F32.ninf = 0x8000 := by
  simp [encode16s, F32.add, F32.floor, F32.lt]

/-- Scaling a binary32 value by a power of two before `encode16s` gives the same code as
`encode16s` of the exact product, also when the product overflows. -/
theorem encode16s_mul_two_pow {q : ℚ} (hq : isF32 q) (k : ℕ) :
    encode16s (F32.mul (F32.fin q) ((2 : ℚ) ^ k)) = encode16s (F32.fin (q * (2 : ℚ) ^ k)) := by
  have hx := isBinary24_mul_two_pow hq.1 k
  show encode16s (F32.ofRat (q * (2 : ℚ) ^ k)) = encode16s (F32.fin (q * (2 : ℚ) ^ k))
  generalize q * (2 : ℚ) ^ k = x at hx
  unfold F32.ofRat
  rw [roundF32_eq_self hx]
  split_ifs with h1 h2
  · rw [encode16s_pinf, (sat16_cases x).1]
    have h3 : ((32768 : ℤ) : ℚ) ≤ x + 1 / 2 := by
      push_cast
      have : (32768 : ℚ) < 2 ^ 128 := by norm_num
      linarith
    have := Int.le_floor.mpr h3
    omega
  · rw [encode16s_ninf, (sat16_cases x).2.1]
    have h3 : x + 1 / 2 < ((-32768 : ℤ) : ℚ) := by
      push_cast
      have : (32769 : ℚ) < 2 ^ 128 := by norm_num
      linarith
    exact Int.floor_lt.mpr h3
  · rfl

/-- On binary32 inputs the scalers multiply exactly. -/
theorem encodeV_eq_encode16s_exact {q : ℚ} (hq : isF32 q) :
    encodeV (F32.fin q) = encode16s (F32.fin (4096 * q)) ∧
    encodeT (F32.fin q) = encode16s (F32.fin (256 * q)) := by
  constructor
  · have := encode16s_mul_two_pow hq 12
    rw [mul_comm]
    norm_num at this
    exact this
  · have := encode16s_mul_two_pow hq 8
    rw [mul_comm]
    norm_num at this
    exact this

theorem isF32_3_3 : isF32 (13841203 / 4194304 : ℚ) :=
  ⟨⟨13841203, -22, by norm_num, by norm_num, by norm_num⟩,
    by rw [abs_lt]; constructor <;> norm_num⟩

/-! ## exact rounding of `encode16s` -/

/-- The rounded sum at the binary32 value just below one half is one. -/
theorem roundF32_below_one : roundF32 (16777215 / 33554432 + 1 / 2) = 1 := by
  have hx : (16777215 / 33554432 + 1 / 2 : ℚ) = 33554431 / 33554432 := by norm_num
  have hE : ulpExp (33554431 / 33554432) = -24 := by
    unfold ulpExp
    rw [abs_of_pos (by norm_num),
      int_log_two_eq (L := -1) (by norm_num) (by norm_num) (by norm_num)]
    norm_num
  have hfl : ⌊(33554431 / 33554432 : ℚ) / (2 : ℚ) ^ (-24 : ℤ)⌋ = 16777215 := by
    rw [Int.floor_eq_iff]; norm_num
  rw [hx]
  unfold roundF32 roundEven
  rw [hE, hfl]
  norm_num

theorem encode16s_below_half : encode16s (F32.fin (16777215 / 33554432)) = 1 := by
  rw [encode16s_fin, roundF32_below_one]
  norm_num
  decide

theorem isF32_below_half : isF32 (16777215 / 33554432 : ℚ) :=
  ⟨⟨16777215, -25, by norm_num, by norm_num, by norm_num⟩,
    by rw [abs_lt]; constructor <;> norm_num⟩

theorem toInt16_toUInt16 {n : ℤ} (h1 : -32768 ≤ n) (h2 : n ≤ 32767) :
    toInt16 (toUInt16 n) = n := by
  unfold toInt16 toUInt16
  by_cases hn : 0 ≤ n
  · have h3 : n % 65536 = n := Int.emod_eq_of_lt hn (by omega)
    rw [h3]
    have h4 : ((n.toNat : ℕ) : ℤ) = n := Int.toNat_of_nonneg hn
    have h5 : n.toNat < 32768 := by omega
    rw [if_pos h5, h4]
  · push_neg at hn
    have h3 : n % 65536 = n + 65536 := by
      rw [← Int.add_emod_self, Int.emod_eq_of_lt (by omega) (by omega)]
    rw [h3]
    have h4 : (((n + 65536).toNat : ℕ) : ℤ) = n + 65536 := Int.toNat_of_nonneg (by omega)
    have h5 : ¬ (n + 65536).toNat < 32768 := by omega
    rw [if_neg h5, h4]
    ring

/-- On binary32 inputs other than the one just below one half, `encode16s` rounds the exact
value in range. -/
theorem encode16s_of_in_range {v : ℚ} (hv : isF32 v) (hne : v ≠ 1 / 2 - 1 / 2 ^ 25)
    (h1 : -32768 ≤ ⌊v + 1 / 2⌋) (h2 : ⌊v + 1 / 2⌋ ≤ 32767) :
    encode16s (F32.fin v) = toUInt16 ⌊v + 1 / 2⌋ := by
  have h3 := Int.floor_le (v + 1 / 2)
  have h4 := Int.lt_floor_add_one (v + 1 / 2)
  have h5 : ((-32768 : ℤ) : ℚ) ≤ (⌊v + 1 / 2⌋ : ℚ) := by exact_mod_cast h1
  have h6 : (⌊v + 1 / 2⌋ : ℚ) ≤ ((32767 : ℤ) : ℚ) := by exact_mod_cast h2
  push_cast at h5 h6
  have hb : |v| ≤ 2 ^ 22 - 1 := by
    rw [abs_le]; constructor <;> norm_num <;> linarith
  have hfl := floor_roundF32_add_half hv.1 hne hb
  have h7 := Int.floor_le (roundF32 (v + 1 / 2))
  have h8 := Int.lt_floor_add_one (roundF32 (v + 1 / 2))
  rw [hfl] at h7 h8
  rw [encode16s_fin, hfl]
  have c1 : ¬ (2 : ℚ) ^ 128 ≤ roundF32 (v + 1 / 2) := by
    push_neg
    refine lt_trans (show roundF32 (v + 1 / 2) < 32768 by linarith) (by norm_num)
  have c2 : ¬ roundF32 (v + 1 / 2) ≤ -(2 : ℚ) ^ 128 := by
    push_neg
    refine lt_of_lt_of_le (show -(2 : ℚ) ^ 128 < -32768 by norm_num) (by linarith)
  have c3 : ¬ 32767 < ⌊v + 1 / 2⌋ := by omega
  have c4 : ¬ ⌊v + 1 / 2⌋ < -32768 := by omega
  simp only [c1, c2, c3, c4, if_false]

/-! ## compact floats -/

theorem frexp_zero : frexp 0 = (0, 0) := by
  unfold frexp; simp

/-- The decomposition computed by `frexp` is the one with mantissa in `[1/2, 1)`. -/
theorem frexp_eq {q m : ℚ} {e : ℤ} (hm1 : 1 / 2 ≤ m) (hm2 : m < 1) (h : q = m * (2 : ℚ) ^ e) :
    frexp q = (m, e) := by
  have hp := two_zpow_pos e
  have hq : 0 < q := by rw [h]; exact mul_pos (by linarith) hp
  have hL : Int.log 2 |q| = e - 1 := by
    rw [abs_of_pos hq]
    apply int_log_two_eq hq
    · rw [h, zpow_sub_one₀ (by norm_num)]
      have : (2 : ℚ) ^ e * 2⁻¹ = 1 / 2 * (2 : ℚ) ^ e := by ring
      rw [this]
      exact mul_le_mul_of_nonneg_right hm1 (le_of_lt hp)
    · rw [h, sub_add_cancel]
      calc m * (2 : ℚ) ^ e < 1 * (2 : ℚ) ^ e := mul_lt_mul_of_pos_right hm2 hp
        _ = (2 : ℚ) ^ e := one_mul _
  unfold frexp
  rw [if_neg (ne_of_gt hq), hL, sub_add_cancel, h, mul_div_assoc, div_self (ne_of_gt hp), mul_one]

theorem frexp_neg (q : ℚ) : frexp (-q) = (-(frexp q).1, (frexp q).2) := by
  unfold frexp
  by_cases h : q = 0
  · simp [h]
  · simp [h, abs_neg, neg_div]

/-- Every positive rational has a decomposition with mantissa in `[1/2, 1)`. -/
theorem exists_frexp {q : ℚ} (hq : 0 < q) :
    ∃ (m : ℚ) (e : ℤ), 1 / 2 ≤ m ∧ m < 1 ∧ q = m * (2 : ℚ) ^ e := by
  have h1 := Int.zpow_log_le_self (b := 2) (r := q) (by norm_num) hq
  have h2 := Int.lt_zpow_succ_log_self (b := 2) (by norm_num) q
  push_cast at h1 h2
  have hp := two_zpow_pos (Int.log 2 q + 1)
  refine ⟨q / (2 : ℚ) ^ (Int.log 2 q + 1), Int.log 2 q + 1, ?_, ?_, ?_⟩
  · rw [le_div_iff₀ hp, zpow_add_one₀ (by norm_num)]
    linarith
  · rw [div_lt_one hp]; exact h2
  · rw [div_mul_cancel₀ _ (ne_of_gt hp)]

/-- The rounded fraction of a mantissa in `[1/2, 1)` scaled by `2^k`. -/
theorem toUInt16_trunc_ldexp {m : ℚ} (hm1 : 1 / 2 ≤ m) (hm2 : m < 1) (k : ℕ) (hk : k ≤ 12) :
    toUInt16 (truncToInt (ldexp m k + 1 / 2)) = ⌊m * 2 ^ k + 1 / 2⌋.toNat ∧
    (2 : ℤ) ^ k ≤ 2 * ⌊m * 2 ^ k + 1 / 2⌋ ∧ ⌊m * 2 ^ k + 1 / 2⌋ ≤ 2 ^ k := by
  have hk1 : (1 : ℚ) ≤ 2 ^ k := one_le_pow₀ (by norm_num)
  have hk2 : (2 : ℚ) ^ k ≤ 2 ^ 12 := pow_le_pow_right₀ (by norm_num) hk
  have hpos : (0 : ℚ) ≤ m * 2 ^ k + 1 / 2 := by positivity
  have hlo : ((2 : ℤ) ^ k : ℤ) ≤ 2 * ⌊m * 2 ^ k + 1 / 2⌋ := by
    have h1 := Int.lt_floor_add_one (m * 2 ^ k + 1 / 2)
    have h2 : (1 / 2 : ℚ) * 2 ^ k ≤ m * 2 ^ k := mul_le_mul_of_nonneg_right hm1 (by positivity)
    have h3 : (((2 : ℤ) ^ k : ℤ) : ℚ) < ((2 * ⌊m * 2 ^ k + 1 / 2⌋ + 1 : ℤ) : ℚ) := by
      push_cast; linarith
    have h4 : (2 : ℤ) ^ k < 2 * ⌊m * 2 ^ k + 1 / 2⌋ + 1 := by exact_mod_cast h3
    omega
  have hhi : ⌊m * 2 ^ k + 1 / 2⌋ ≤ 2 ^ k := by
    have h1 := Int.floor_le (m * 2 ^ k + 1 / 2)
    have h2 : m * 2 ^ k < 1 * 2 ^ k := mul_lt_mul_of_pos_right hm2 (by positivity)
    have h3 : ((⌊m * 2 ^ k + 1 / 2⌋ : ℤ) : ℚ) < (((2 : ℤ) ^ k + 1 : ℤ) : ℚ) := by
      push_cast; linarith
    have h4 : ⌊m * 2 ^ k + 1 / 2⌋ < (2 : ℤ) ^ k + 1 := by exact_mod_cast h3
    omega
  refine ⟨?_, hlo, hhi⟩
  unfold ldexp truncToInt toUInt16
  rw [zpow_natCast, if_pos hpos]
  have h0 : 0 ≤ ⌊m * 2 ^ k + 1 / 2⌋ := Int.floor_nonneg.mpr hpos
  have h5 : ((2 : ℤ) ^ k : ℤ) ≤ 2 ^ 12 := by exact_mod_cast hk2
  rw [Int.emod_eq_of_lt h0 (by norm_num at h5; omega)]

/-- The fields of `LMIC_f2uflt16` from the decomposition of a positive input. -/
theorem f2uflt16_fields_eq {f m : ℚ} {e : ℤ} (hm1 : 1 / 2 ≤ m) (hm2 : m < 1)
    (hf : f = m * (2 : ℚ) ^ e) :
    f2uflt16_fields f =
      if 4096 ≤ ⌊m * 4096 + 1 / 2⌋ then (max (e + 15) 0 + 1, 2048)
      else (max (e + 15) 0, ⌊m * 4096 + 1 / 2⌋.toNat) := by
  obtain ⟨h1, h2, h3⟩ := toUInt16_trunc_ldexp hm1 hm2 12 le_rfl
  norm_num at h1 h2 h3
  have hE : (if e + 15 < 0 then (0 : ℤ) else e + 15) = max (e + 15) 0 := by
    split_ifs with h
    · rw [max_eq_right (le_of_lt h)]
    · rw [max_eq_left (not_lt.mp h)]
  unfold f2uflt16_fields
  simp only [frexp_eq hm1 hm2 hf, hE]
  rw [h1]
  have hc : (⌊m * 4096 + 1 / 2⌋.toNat ≥ 1 <<< 12) ↔ 4096 ≤ ⌊m * 4096 + 1 / 2⌋ := by
    have : (1 <<< 12 : ℕ) = 4096 := by decide
    rw [this]
    omega
  by_cases h : 4096 ≤ ⌊m * 4096 + 1 / 2⌋
  · rw [if_pos (hc.mpr h), if_pos h]; rfl
  · rw [if_neg (fun h' => h (hc.mp h')), if_neg h]

/-- The fields of `LMIC_f2sflt16` from the decomposition of the magnitude of a nonzero
input. -/
theorem f2sflt16_fields_eq {f m : ℚ} {e : ℤ} (hm1 : 1 / 2 ≤ m) (hm2 : m < 1)
    (hf : |f| = m * (2 : ℚ) ^ e) :
    f2sflt16_fields f =
      if 2048 ≤ ⌊m * 2048 + 1 / 2⌋ then
        (if f < 0 then 0x8000 else 0, max (e + 15) 0 + 1, 1024)
      else (if f < 0 then 0x8000 else 0, max (e + 15) 0, ⌊m * 2048 + 1 / 2⌋.toNat) := by
  obtain ⟨h1, h2, h3⟩ := toUInt16_trunc_ldexp hm1 hm2 11 (by norm_num)
  norm_num at h1 h2 h3
  have hE : (if e + 15 < 0 then (0 : ℤ) else e + 15) = max (e + 15) 0 := by
    split_ifs with h
    · rw [max_eq_right (le_of_lt h)]
    · rw [max_eq_left (not_lt.mp h)]
  have hfr : frexp f = (if f < 0 then -m else m, e) := by
    by_cases hneg : f < 0
    · rw [abs_of_neg hneg] at hf
      have := frexp_neg (-f)
      rw [neg_neg, frexp_eq hm1 hm2 hf] at this
      rw [this, if_pos hneg]
    · rw [abs_of_nonneg (not_lt.mp hneg)] at hf
      rw [frexp_eq hm1 hm2 hf, if_neg hneg]
  have hnv : ((if f < 0 then -m else m) < 0) ↔ f < 0 := by
    by_cases hneg : f < 0
    · rw [if_pos hneg]; exact ⟨fun _ => hneg, fun _ => by linarith⟩
    · rw [if_neg hneg]; exact ⟨fun h => by linarith, fun h => absurd h hneg⟩
  have habs : (if (if f < 0 then -m else m) < 0 then -(if f < 0 then -m else m)
      else (if f < 0 then -m else m)) = m := by
    by_cases hneg : f < 0
    · rw [if_pos (hnv.mpr hneg), if_pos hneg, neg_neg]
    · rw [if_neg (fun h => hneg (hnv.mp h)), if_neg hneg]
  have hsign : (if (if f < 0 then -m else m) < 0 then (0x8000 : ℕ) else 0) =
      if f < 0 then 0x8000 else 0 := by
    by_cases hneg : f < 0
    · rw [if_pos (hnv.mpr hneg), if_pos hneg]
    · rw [if_neg (fun h => hneg (hnv.mp h)), if_neg hneg]
  unfold f2sflt16_fields
  simp only [hfr, hE, habs, hsign]
  rw [h1]
  have hc : (⌊m * 2048 + 1 / 2⌋.toNat ≥ 1 <<< 11) ↔ 2048 ≤ ⌊m * 2048 + 1 / 2⌋ := by
    have : (1 <<< 11 : ℕ) = 2048 := by decide
    rw [this]
    omega
  by_cases h : 2048 ≤ ⌊m * 2048 + 1 / 2⌋
  · rw [if_pos (hc.mpr h), if_pos h]; rfl
  · rw [if_neg (fun h' => h (hc.mp h')), if_neg h]

theorem f2uflt16_fields_zero : f2uflt16_fields 0 = (15, 0) := by
  unfold f2uflt16_fields
  simp only [frexp_zero]
  have : toUInt16 (truncToInt (ldexp 0 12 + 1 / 2)) = 0 := by
    unfold ldexp truncToInt toUInt16
    norm_num
  rw [this]
  decide

theorem f2sflt16_fields_zero : f2sflt16_fields 0 = (0, 15, 0) := by
  unfold f2sflt16_fields
  simp only [frexp_zero]
  have : toUInt16 (truncToInt (ldexp 0 11 + 1 / 2)) = 0 := by
    unfold ldexp truncToInt toUInt16
    norm_num
  norm_num
  rw [this]
  decide

/-- The function `LMIC_f2uflt16` on a finite input in `[0, 1)`. -/
theorem LMIC_f2uflt16_fin {f : ℚ} (h0 : 0 ≤ f) (h1 : f < 1) :
    LMIC_f2uflt16 (F32.fin f) =
      if (f2uflt16_fields f).1 > 15 then 0xFFFF
      else (((f2uflt16_fields f).1.toNat <<< 12) ||| (f2uflt16_fields f).2) % 65536 := by
  unfold LMIC_f2uflt16
  simp only [F32.lt, decide_eq_true_eq, not_lt.mpr h0, h1, if_false, decide_True,
    Bool.not_true, Bool.false_eq_true]

/-- The function `LMIC_f2sflt16` on a finite input in `(-1, 1)`. -/
theorem LMIC_f2sflt16_fin {f : ℚ} (h0 : -1 < f) (h1 : f < 1) :
    LMIC_f2sflt16 (F32.fin f) =
      if (f2sflt16_fields f).2.1 > 15 then 0x7FFF ||| (f2sflt16_fields f).1
      else ((f2sflt16_fields f).1 ||| ((f2sflt16_fields f).2.1.toNat <<< 11) |||
        (f2sflt16_fields f).2.2) % 65536 := by
  unfold LMIC_f2sflt16
  simp only [F32.lt, decide_eq_true_eq, h0, h1, if_false, decide_True,
    Bool.not_true, Bool.false_eq_true]

/-- Packing an exponent and a 12-bit fraction. -/
theorem pack_u {E : ℤ} {F : ℕ} (h0 : 0 ≤ E) (h1 : E ≤ 15) (hF : F < 4096) :
    ((E.toNat <<< 12) ||| F) % 65536 = E.toNat * 4096 + F := by
  have hE : E.toNat ≤ 15 := by omega
  have h := Nat.mul_add_lt_is_or (i := 12) (b := F) (by norm_num; exact hF) E.toNat
  rw [Nat.shiftLeft_eq, Nat.mul_comm, ← h]
  omega

/-- Packing a sign, an exponent and an 11-bit fraction. -/
theorem pack_s {s : ℕ} {E : ℤ} {F : ℕ} (hs : s = 0 ∨ s = 0x8000) (h0 : 0 ≤ E) (h1 : E ≤ 15)
    (hF : F < 2048) :
    (s ||| (E.toNat <<< 11) ||| F) % 65536 = s + E.toNat * 2048 + F := by
  have hE : E.toNat ≤ 15 := by omega
  have h := Nat.mul_add_lt_is_or (i := 11) (b := F) (by norm_num; exact hF) E.toNat
  have hx : E.toNat <<< 11 ||| F = E.toNat * 2048 + F := by
    rw [Nat.shiftLeft_eq, Nat.mul_comm, ← h]
  rw [Nat.or_assoc, hx]
  rcases hs with hs | hs
  · rw [hs, Nat.zero_or, Nat.zero_add]
    apply Nat.mod_eq_of_lt
    omega
  · have h2 := Nat.mul_add_lt_is_or (i := 15) (b := E.toNat * 2048 + F)
      (by norm_num; omega) 1
    norm_num at h2
    rw [hs, ← h2]
    omega

theorem f2uflt16_fields_bounds {f : ℚ} (h0 : 0 ≤ f) :
    0 ≤ (f2uflt16_fields f).1 ∧ (f2uflt16_fields f).2 < 4096 := by
  rcases eq_or_lt_of_le h0 with h | h
  · rw [← h, f2uflt16_fields_zero]; norm_num
  · obtain ⟨m, e, hm1, hm2, hf⟩ := exists_frexp h
    obtain ⟨_, _, h3⟩ := toUInt16_trunc_ldexp hm1 hm2 12 le_rfl
    norm_num at h3
    rw [f2uflt16_fields_eq hm1 hm2 hf]
    have := le_max_right (e + 15) 0
    split_ifs with hc
    · exact ⟨by simp only; omega, by norm_num⟩
    · exact ⟨by simp only; omega, by simp only; omega⟩

theorem f2sflt16_fields_bounds (f : ℚ) :
    ((f2sflt16_fields f).1 = 0 ∨ (f2sflt16_fields f).1 = 0x8000) ∧
    0 ≤ (f2sflt16_fields f).2.1 ∧ (f2sflt16_fields f).2.2 < 2048 := by
  by_cases h : f = 0
  · rw [h, f2sflt16_fields_zero]; norm_num
  · obtain ⟨m, e, hm1, hm2, hf⟩ := exists_frexp (abs_pos.mpr h)
    obtain ⟨_, _, h3⟩ := toUInt16_trunc_ldexp hm1 hm2 11 (by norm_num)
    norm_num at h3
    rw [f2sflt16_fields_eq hm1 hm2 hf]
    have := le_max_right (e + 15) 0
    split_ifs with hc
    · exact ⟨by simp, by simp only; omega, by norm_num⟩
    · exact ⟨by simp, by simp only; omega, by norm_num⟩
    · exact ⟨by simp, by simp only; omega, by simp only; omega⟩
    · exact ⟨by simp, by simp only; omega, by simp only; omega⟩

theorem or_u {E : ℤ} {F : ℕ} (h0 : 0 ≤ E) (h1 : E ≤ 15) (hF : F < 4096) :
    (E.toNat <<< 12) ||| F = E.toNat * 4096 + F := by
  have h := pack_u h0 h1 hF
  have hlt : (E.toNat <<< 12) ||| F < 65536 := by
    apply Nat.or_lt_two_pow (n := 16)
    · rw [Nat.shiftLeft_eq]; omega
    · omega
  rwa [Nat.mod_eq_of_lt hlt] at h

theorem or_s {s : ℕ} {E : ℤ} {F : ℕ} (hs : s = 0 ∨ s = 0x8000) (h0 : 0 ≤ E) (h1 : E ≤ 15)
    (hF : F < 2048) :
    s ||| (E.toNat <<< 11) ||| F = s + E.toNat * 2048 + F := by
  have h := pack_s hs h0 h1 hF
  have hlt : s ||| (E.toNat <<< 11) ||| F < 65536 := by
    apply Nat.or_lt_two_pow (n := 16)
    · apply Nat.or_lt_two_pow (n := 16)
      · rcases hs with hs | hs <;> rw [hs] <;> norm_num
      · rw [Nat.shiftLeft_eq]; omega
    · omega
  rwa [Nat.mod_eq_of_lt hlt] at h

theorem lmic_sat_cases :
    (∀ q : ℚ, q < 0 → LMIC_f2uflt16 (F32.fin q) = 0) ∧ LMIC_f2uflt16 F32.ninf = 0 ∧
    (∀ q : ℚ, 1 ≤ q → LMIC_f2uflt16 (F32.fin q) = 0xFFFF) ∧
    LMIC_f2uflt16 F32.pinf = 0xFFFF ∧
    (∀ q : ℚ, q ≤ -1 → LMIC_f2sflt16 (F32.fin q) = 0xFFFF) ∧
    LMIC_f2sflt16 F32.ninf = 0xFFFF ∧
    (∀ q : ℚ, 1 ≤ q → LMIC_f2sflt16 (F32.fin q) = 0x7FFF) ∧
    LMIC_f2sflt16 F32.pinf = 0x7FFF := by
  refine ⟨?_, ?_, ?_, ?_, ?_, ?_, ?_, ?_⟩
  · intro q h
    simp [LMIC_f2uflt16, F32.lt, h]
  · simp [LMIC_f2uflt16, F32.lt]
  · intro q h
    have h0 : ¬ q < 0 := by linarith
    have h1 : ¬ q < 1 := by linarith
    simp [LMIC_f2uflt16, F32.lt, h0, h1]
  · simp [LMIC_f2uflt16, F32.lt]
  · intro q h
    have h0 : ¬ -1 < q := by linarith
    simp [LMIC_f2sflt16, F32.lt, h0]
  · simp [LMIC_f2sflt16, F32.lt]
  · intro q h
    have h0 : -1 < q := by linarith
    have h1 : ¬ q < 1 := by linarith
    simp [LMIC_f2sflt16, F32.lt, h0, h1]
  · simp [LMIC_f2sflt16, F32.lt]

theorem LMIC_f2uflt16_carry {f m : ℚ} {e : ℤ} (h0 : 0 < f) (h1 : f < 1)
    (hf : f = m * (2 : ℚ) ^ e) (hm1 : 1 / 2 ≤ m) (hm2 : m < 1)
    (hc : ⌊m * 4096 + 1 / 2⌋ = 4096) (hE : max (e + 15) 0 + 1 ≤ 15) :
    LMIC_f2uflt16 (F32.fin f) = ((max (e + 15) 0 + 1).toNat <<< 12) ||| 0x800 := by
  have hE0 := le_max_right (e + 15) 0
  rw [LMIC_f2uflt16_fin (le_of_lt h0) h1, f2uflt16_fields_eq hm1 hm2 hf,
    if_pos (show (4096 : ℤ) ≤ ⌊m * 4096 + 1 / 2⌋ by omega)]
  simp only
  rw [if_neg (show ¬ max (e + 15) 0 + 1 > 15 by omega), pack_u (by omega) hE (by norm_num), or_u (by omega) hE (by norm_num)]

theorem LMIC_f2sflt16_carry {f m : ℚ} {e : ℤ} (h0 : -1 < f) (h1 : f < 1)
    (hf : |f| = m * (2 : ℚ) ^ e) (hm1 : 1 / 2 ≤ m) (hm2 : m < 1)
    (hc : ⌊m * 2048 + 1 / 2⌋ = 2048) (hE : max (e + 15) 0 + 1 ≤ 15) :
    LMIC_f2sflt16 (F32.fin f) =
      (if f < 0 then 0x8000 else 0) ||| ((max (e + 15) 0 + 1).toNat <<< 11) ||| 0x400 := by
  have hE0 := le_max_right (e + 15) 0
  have hs : ((if f < 0 then (0x8000 : ℕ) else 0) = 0 ∨
      (if f < 0 then (0x8000 : ℕ) else 0) = 0x8000) := by
    split_ifs
    · right; rfl
    · left; rfl
  rw [LMIC_f2sflt16_fin h0 h1, f2sflt16_fields_eq hm1 hm2 hf,
    if_pos (show (2048 : ℤ) ≤ ⌊m * 2048 + 1 / 2⌋ by omega)]
  simp only
  rw [if_neg (show ¬ max (e + 15) 0 + 1 > 15 by omega), pack_s hs (by omega) hE (by norm_num),
    or_s hs (by omega) hE (by norm_num)]

theorem LMIC_f2uflt16_fraction_field {f : ℚ} (h0 : 0 ≤ f) (h1 : f < 1) :
    (f2uflt16_fields f).2 < 4096 ∧
    ((f2uflt16_fields f).1 ≤ 15 →
      LMIC_f2uflt16 (F32.fin f) >>> 12 = (f2uflt16_fields f).1.toNat ∧
      LMIC_f2uflt16 (F32.fin f) &&& 0xFFF = (f2uflt16_fields f).2) := by
  obtain ⟨hb1, hb2⟩ := f2uflt16_fields_bounds h0
  refine ⟨hb2, fun hE => ?_⟩
  rw [LMIC_f2uflt16_fin h0 h1, if_neg (by omega), pack_u hb1 hE hb2]
  constructor
  · rw [Nat.shiftRight_eq_div_pow]; omega
  · have := Nat.and_pow_two_sub_one_eq_mod ((f2uflt16_fields f).1.toNat * 4096 +
      (f2uflt16_fields f).2) 12
    norm_num at this
    rw [this]; omega

theorem LMIC_f2sflt16_fraction_field {f : ℚ} (h0 : -1 < f) (h1 : f < 1) :
    (f2sflt16_fields f).2.2 < 2048 ∧
    ((f2sflt16_fields f).2.1 ≤ 15 →
      (LMIC_f2sflt16 (F32.fin f) >>> 11) &&& 0xF = (f2sflt16_fields f).2.1.toNat ∧
      LMIC_f2sflt16 (F32.fin f) &&& 0x7FF = (f2sflt16_fields f).2.2) := by
  obtain ⟨hs, hb1, hb2⟩ := f2sflt16_fields_bounds f
  refine ⟨hb2, fun hE => ?_⟩
  rw [LMIC_f2sflt16_fin h0 h1, if_neg (by omega), pack_s hs hb1 hE hb2]
  constructor
  · have := Nat.and_pow_two_sub_one_eq_mod (((f2sflt16_fields f).1 +
      (f2sflt16_fields f).2.1.toNat * 2048 + (f2sflt16_fields f).2.2) >>> 11) 4
    norm_num at this
    rw [this, Nat.shiftRight_eq_div_pow]
    rcases hs with hs | hs <;> rw [hs] <;> omega
  · have := Nat.and_pow_two_sub_one_eq_mod ((f2sflt16_fields f).1 +
      (f2sflt16_fields f).2.1.toNat * 2048 + (f2sflt16_fields f).2.2) 11
    norm_num at this
    rw [this]
    rcases hs with hs | hs <;> rw [hs] <;> omega

/-- The fields of `LMIC_f2sflt16` of an input and of its negation differ in the sign only. -/
theorem f2sflt16_fields_neg {q : ℚ} (hq : 0 < q) :
    (f2sflt16_fields q).1 = 0 ∧ (f2sflt16_fields (-q)).1 = 0x8000 ∧
    (f2sflt16_fields (-q)).2 = (f2sflt16_fields q).2 := by
  obtain ⟨m, e, hm1, hm2, hf⟩ := exists_frexp hq
  have hf1 : |q| = m * (2 : ℚ) ^ e := by rw [abs_of_pos hq]; exact hf
  have hf2 : |-q| = m * (2 : ℚ) ^ e := by rw [abs_neg]; exact hf1
  have hn1 : ¬ q < 0 := not_lt.mpr (le_of_lt hq)
  have hn2 : -q < 0 := by linarith
  rw [f2sflt16_fields_eq hm1 hm2 hf1, f2sflt16_fields_eq hm1 hm2 hf2]
  simp only [if_neg hn1, if_pos hn2]
  split_ifs <;> exact ⟨rfl, rfl, rfl⟩

theorem LMIC_f2sflt16_neg {q : ℚ} (hq : 0 < q) :
    Nat.testBit (LMIC_f2sflt16 (F32.fin q)) 15 = false ∧
    LMIC_f2sflt16 (F32.fin (-q)) = LMIC_f2sflt16 (F32.fin q) ||| 0x8000 := by
  rcases le_or_lt 1 q with h1 | h1
  · rw [lmic_sat_cases.2.2.2.2.2.2.1 q h1,
      lmic_sat_cases.2.2.2.2.1 (-q) (by linarith)]
    decide
  · obtain ⟨hs1, hs2, hs3⟩ := f2sflt16_fields_neg hq
    obtain ⟨_, hb1, hb2⟩ := f2sflt16_fields_bounds q
    rw [LMIC_f2sflt16_fin (by linarith) h1, LMIC_f2sflt16_fin (by linarith) (by linarith),
      hs1, hs2, hs3]
    by_cases hE : (f2sflt16_fields q).2.1 > 15
    · rw [if_pos hE, if_pos hE]; decide
    · rw [if_neg hE, if_neg hE,
        pack_s (Or.inl rfl) hb1 (by omega) hb2, pack_s (Or.inr rfl) hb1 (by omega) hb2]
      have hlt : 0 + (f2sflt16_fields q).2.1.toNat * 2048 + (f2sflt16_fields q).2.2 < 2 ^ 15 := by
        norm_num; omega
      refine ⟨Nat.testBit_lt_two_pow hlt, ?_⟩
      have h2 := Nat.mul_add_lt_is_or (i := 15) hlt 1
      rw [Nat.or_comm, ← h2]
      omega

/-- Decoding a packed sign, exponent and fraction. -/
theorem sflt16_decode {s : ℕ} {E : ℤ} {F : ℕ} (hs : s = 0 ∨ s = 0x8000) (h0 : 0 ≤ E)
    (h1 : E ≤ 15) (hF : F < 2048) :
    sflt16Exp (s + E.toNat * 2048 + F) = E ∧
    sflt16Value (s + E.toNat * 2048 + F) =
      (if s = 0x8000 then -1 else 1) * ((F : ℚ) / 2048) * (2 : ℚ) ^ (E - 15) := by
  have hE : sflt16Exp (s + E.toNat * 2048 + F) = E := by
    unfold sflt16Exp
    have := Nat.and_pow_two_sub_one_eq_mod ((s + E.toNat * 2048 + F) >>> 11) 4
    norm_num at this
    rw [this, Nat.shiftRight_eq_div_pow]
    rcases hs with hs | hs <;> rw [hs] <;> omega
  refine ⟨hE, ?_⟩
  unfold sflt16Value
  rw [hE]
  have hfr : (s + E.toNat * 2048 + F) &&& 0x7FF = F := by
    have := Nat.and_pow_two_sub_one_eq_mod (s + E.toNat * 2048 + F) 11
    norm_num at this
    rw [this]
    rcases hs with hs | hs <;> rw [hs] <;> omega
  rw [hfr]
  have hlt : E.toNat * 2048 + F < 2 ^ 15 := by norm_num; omega
  rcases hs with hs | hs
  · have hb : Nat.testBit (s + E.toNat * 2048 + F) 15 = false := by
      rw [hs, Nat.zero_add]; exact Nat.testBit_lt_two_pow hlt
    rw [hb, hs]; norm_num
  · have hb : Nat.testBit (s + E.toNat * 2048 + F) 15 = true := by
      have := Nat.testBit_two_pow_add_eq (E.toNat * 2048 + F) 15
      rw [Nat.testBit_lt_two_pow hlt] at this
      rw [hs, Nat.add_assoc]
      simpa using this
    rw [hb, hs]; norm_num

theorem LMIC_f2sflt16_tiny : LMIC_f2sflt16 (F32.fin (1 / 2 ^ 20)) = 0x0400 := by
  have hf : |(1 / 2 ^ 20 : ℚ)| = 1 / 2 * (2 : ℚ) ^ (-19 : ℤ) := by
    rw [abs_of_pos (by norm_num)]; norm_num
  have hfl : ⌊(1 / 2 : ℚ) * 2048 + 1 / 2⌋ = 1024 := by
    rw [Int.floor_eq_iff]; norm_num
  rw [LMIC_f2sflt16_fin (by norm_num) (by norm_num),
    f2sflt16_fields_eq (by norm_num) (by norm_num) hf, hfl]
  norm_num
  decide

theorem sflt16Value_0x0400 : sflt16Exp 0x0400 = 0 ∧ sflt16Value 0x0400 = 1 / 2 ^ 16 := by
  have h := sflt16_decode (s := 0) (E := 0) (F := 1024) (Or.inl rfl) le_rfl (by norm_num)
    (by norm_num)
  norm_num at h
  refine ⟨h.1, ?_⟩
  rw [h.2]
  norm_num

/-- On inputs of magnitude at least `2^-16` (and on zero) an unsaturated code of
`LMIC_f2sflt16` denotes a value within half a unit in the last place of the input. -/
theorem LMIC_f2sflt16_rounding_normal {f : ℚ} (h0 : -1 < f) (h1 : f < 1)
    (hn : f = 0 ∨ 1 / 2 ^ 16 ≤ |f|)
    (hs1 : LMIC_f2sflt16 (F32.fin f) ≠ 0x7FFF) (hs2 : LMIC_f2sflt16 (F32.fin f) ≠ 0xFFFF) :
    |sflt16Value (LMIC_f2sflt16 (F32.fin f)) - f| ≤
      (2 : ℚ) ^ (sflt16Exp (LMIC_f2sflt16 (F32.fin f)) - 15 - 12) := by
  by_cases hz : f = 0
  · have hr : LMIC_f2sflt16 (F32.fin f) = 0 + (15 : ℤ).toNat * 2048 + 0 := by
      rw [hz, LMIC_f2sflt16_fin (by norm_num) (by norm_num), f2sflt16_fields_zero]
      decide
    obtain ⟨hE, hV⟩ := sflt16_decode (s := 0) (E := 15) (F := 0) (Or.inl rfl) (by norm_num)
      le_rfl (by norm_num)
    rw [hr, hE, hV, hz]
    norm_num
  · have hpos : 0 < |f| := abs_pos.mpr hz
    have hlo : (1 : ℚ) / 2 ^ 16 ≤ |f| := by
      rcases hn with hn | hn
      · exact absurd hn hz
      · exact hn
    have hhi : |f| < 1 := abs_lt.mpr ⟨h0, h1⟩
    obtain ⟨m, e, hm1, hm2, hf⟩ := exists_frexp hpos
    have hP := two_zpow_pos e
    -- the exponent lies in [-15, 0]
    have he1 : e ≤ 0 := by
      by_contra hc
      push_neg at hc
      have : (2 : ℚ) ^ (1 : ℤ) ≤ (2 : ℚ) ^ e := zpow_le_zpow_right₀ (by norm_num) (by omega)
      norm_num at this
      nlinarith
    have he2 : -15 ≤ e := by
      by_contra hc
      push_neg at hc
      have : (2 : ℚ) ^ e ≤ (2 : ℚ) ^ (-16 : ℤ) := zpow_le_zpow_right₀ (by norm_num) (by omega)
      norm_num at this
      norm_num at hlo
      nlinarith
    have hmax : max (e + 15) 0 = e + 15 := max_eq_left (by omega)
    obtain ⟨_, hF1, hF2⟩ := toUInt16_trunc_ldexp hm1 hm2 11 (by norm_num)
    norm_num at hF1 hF2
    have hfl1 := Int.floor_le (m * 2048 + 1 / 2)
    have hfl2 := Int.lt_floor_add_one (m * 2048 + 1 / 2)
    have hsgn : f = (if (if f < 0 then (0x8000 : ℕ) else 0) = 0x8000 then -1 else 1) *
        (m * (2 : ℚ) ^ e) := by
      by_cases hneg : f < 0
      · rw [if_pos hneg, if_pos rfl, ← hf, abs_of_neg hneg]; ring
      · rw [if_neg hneg, if_neg (by norm_num), ← hf, abs_of_nonneg (not_lt.mp hneg)]; ring
    have hs : ((if f < 0 then (0x8000 : ℕ) else 0) = 0 ∨
        (if f < 0 then (0x8000 : ℕ) else 0) = 0x8000) := by
      split_ifs
      · right; rfl
      · left; rfl
    have habs : ∀ x : ℚ, |(if (if f < 0 then (0x8000 : ℕ) else 0) = 0x8000 then (-1 : ℚ) else 1)
        * x| = |x| := by
      intro x
      split_ifs <;> simp
    have hr := LMIC_f2sflt16_fin h0 h1
    rw [f2sflt16_fields_eq hm1 hm2 hf, hmax] at hr
    by_cases hc : 2048 ≤ ⌊m * 2048 + 1 / 2⌋
    · -- rounding carry
      rw [if_pos hc] at hr
      simp only at hr
      by_cases hE : e + 15 + 1 > 15
      · rw [if_pos hE] at hr
        exfalso
        by_cases hneg : f < 0
        · rw [if_pos hneg] at hr; exact hs2 (by rw [hr]; decide)
        · rw [if_neg hneg] at hr; exact hs1 (by rw [hr]; decide)
      · rw [if_neg hE, pack_s hs (by omega) (by omega) (by norm_num)] at hr
        obtain ⟨hE', hV⟩ := sflt16_decode (s := if f < 0 then 0x8000 else 0) (E := e + 15 + 1)
          (F := 1024) hs (by omega) (by omega) (by norm_num)
        rw [hr, hE', hV]
        have e1 : e + 15 + 1 - 15 = e + 1 := by ring
        have e2 : e + 15 + 1 - 15 - 12 = e + 1 - 12 := by ring
        rw [e2, e1, zpow_sub₀ (by norm_num), zpow_add_one₀ (by norm_num)]
        have hc' : ((2048 : ℤ) : ℚ) ≤ (⌊m * 2048 + 1 / 2⌋ : ℚ) := by exact_mod_cast hc
        push_cast at hc'
        have hm3 : 1 - m ≤ 1 / 4096 := by linarith
        have key : (if (if f < 0 then (0x8000 : ℕ) else 0) = 0x8000 then (-1 : ℚ) else 1) *
            (((1024 : ℕ) : ℚ) / 2048) * ((2 : ℚ) ^ e * 2) - f =
            (if (if f < 0 then (0x8000 : ℕ) else 0) = 0x8000 then (-1 : ℚ) else 1) *
            ((1 - m) * (2 : ℚ) ^ e) := by
          push_cast
          linear_combination (-1 : ℚ) * hsgn
        rw [key, habs, abs_of_nonneg (mul_nonneg (by linarith) (le_of_lt hP))]
        norm_num
        nlinarith
    · -- no carry
      rw [if_neg hc] at hr
      simp only at hr
      have hFlt : ⌊m * 2048 + 1 / 2⌋.toNat < 2048 := by omega
      have hFnn : 0 ≤ ⌊m * 2048 + 1 / 2⌋ := by omega
      rw [if_neg (by omega), pack_s hs (by omega) (by omega) hFlt] at hr
      obtain ⟨hE', hV⟩ := sflt16_decode (s := if f < 0 then 0x8000 else 0) (E := e + 15)
        (F := ⌊m * 2048 + 1 / 2⌋.toNat) hs (by omega) (by omega) hFlt
      rw [hr, hE', hV]
      have e1 : e + 15 - 15 = e := by ring
      have e2 : e + 15 - 15 - 12 = e - 12 := by ring
      rw [e2, e1, zpow_sub₀ (by norm_num)]
      have hcast : ((⌊m * 2048 + 1 / 2⌋.toNat : ℕ) : ℚ) = (⌊m * 2048 + 1 / 2⌋ : ℚ) := by
        have : ((⌊m * 2048 + 1 / 2⌋.toNat : ℕ) : ℤ) = ⌊m * 2048 + 1 / 2⌋ :=
          Int.toNat_of_nonneg hFnn
        exact_mod_cast this
      simp only [hcast]
      have key : (if (if f < 0 then (0x8000 : ℕ) else 0) = 0x8000 then (-1 : ℚ) else 1) *
          ((⌊m * 2048 + 1 / 2⌋ : ℚ) / 2048) * (2 : ℚ) ^ e - f =
          (if (if f < 0 then (0x8000 : ℕ) else 0) = 0x8000 then (-1 : ℚ) else 1) *
          (((⌊m * 2048 + 1 / 2⌋ : ℚ) / 2048 - m) * (2 : ℚ) ^ e) := by
        linear_combination (-1 : ℚ) * hsgn
      rw [key, habs, abs_mul, abs_of_pos hP]
      have hd : |(⌊m * 2048 + 1 / 2⌋ : ℚ) / 2048 - m| ≤ 1 / 4096 := by
        rw [abs_le]; constructor <;> linarith
      norm_num
      nlinarith

theorem f2uflt16_fields_carry_example : f2uflt16_fields (8191 / 16384) = (15, 2048) := by
  have hfl : ⌊(8191 / 8192 : ℚ) * 4096 + 1 / 2⌋ = 4096 := by
    rw [Int.floor_eq_iff]; norm_num
  rw [f2uflt16_fields_eq (m := 8191 / 8192) (e := -1) (by norm_num) (by norm_num) (by norm_num),
    hfl]
  decide

theorem f2sflt16_fields_carry_example : f2sflt16_fields (-4095 / 8192) = (0x8000, 15, 1024) := by
  have hfl : ⌊(4095 / 4096 : ℚ) * 2048 + 1 / 2⌋ = 2048 := by
    rw [Int.floor_eq_iff]; norm_num
  have habs : |(-4095 / 8192 : ℚ)| = 4095 / 4096 * (2 : ℚ) ^ (-1 : ℤ) := by
    rw [abs_of_neg (by norm_num)]; norm_num
  rw [f2sflt16_fields_eq (m := 4095 / 4096) (e := -1) (by norm_num) (by norm_num) habs, hfl]
  norm_num

/-- The buffer built for a record whose sent fields are known. -/
theorem encodeMeasurement_of_fields (buf : Buffer) (m : Measurements) (a b c d : Bool)
    (x y z : F32) (w : Fin 256) (h1 : m.Vbat = ⟨a, x⟩) (h2 : m.Vbus = ⟨b, y⟩)
    (h3 : m.Boot = ⟨c, w⟩) (h4 : m.CompostTemp = ⟨d, ⟨z⟩⟩) :
    (encodeMeasurement buf m).1 =
      [0x2b, (if a then 1 else 0) ||| (if b then 2 else 0) ||| (if c then 4 else 0) |||
          (if d then 8 else 0)] ++
        (if a then [encodeV x >>> 8, encodeV x &&& 0xFF] else []) ++
        (if b then [encodeV y >>> 8, encodeV y &&& 0xFF] else []) ++
        (if c then [w.val] else []) ++
        (if d then [encodeT z >>> 8, encodeT z &&& 0xFF] else []) := by
  rw [encodeMeasurement_eq, h1, h2, h3, h4]

theorem bytes_3_3 : encodeV (F32.ofRat (33 / 10)) >>> 8 = 0x34 ∧
    encodeV (F32.ofRat (33 / 10)) &&& 0xFF = 0xCD := by
  rw [encodeV_3_3]; decide

theorem bytes_5 : encodeV (F32.fin 5) >>> 8 = 0x50 ∧ encodeV (F32.fin 5) &&& 0xFF = 0x00 := by
  rw [encodeV_5]; decide

theorem bytes_25_5 : encodeT (F32.fin (51 / 2)) >>> 8 = 0x19 ∧
    encodeT (F32.fin (51 / 2)) &&& 0xFF = 0x80 := by
  rw [encodeT_25_5]; decide

theorem encodeMeasurement_length (buf : Buffer) (m : Measurements) :
    (encodeMeasurement buf m).1.length =
      2 + 2 * (if m.Vbat.fValid then 1 else 0) + 2 * (if m.Vbus.fValid then 1 else 0) +
        1 * (if m.Boot.fValid then 1 else 0) + 2 * (if m.CompostTemp.fValid then 1 else 0) := by
  rw [encodeMeasurement_eq]
  rcases h1 : m.Vbat.fValid <;> rcases h2 : m.Vbus.fValid <;>
    rcases h3 : m.Boot.fValid <;> rcases h4 : m.CompostTemp.fValid <;> simp

/-! ## monotone rounding -/

theorem roundEven_mono {s t : ℚ} (h : s ≤ t) : roundEven s ≤ roundEven t := by
  have hf : ⌊s⌋ ≤ ⌊t⌋ := Int.floor_mono h
  rcases eq_or_lt_of_le hf with he | hl
  · unfold roundEven
    rw [he]
    split_ifs <;> first | omega | (exfalso; linarith)
  · have h1 := roundEven_le_floor_succ s
    have h2 := roundEven_floor_le t
    omega

theorem roundF32_nonneg {x : ℚ} (h : 0 ≤ x) : 0 ≤ roundF32 x := by
  have := le_roundF32 isBinary24_zero h
  exact this

theorem roundF32_nonpos {x : ℚ} (h : x ≤ 0) : roundF32 x ≤ 0 :=
  roundF32_le isBinary24_zero h

theorem isBinary24_two_zpow {e : ℤ} (he : -149 ≤ e) : isBinary24 ((2 : ℚ) ^ e) :=
  ⟨1, e, by norm_num, he, by simp⟩

theorem roundF32_mono_pos {x y : ℚ} (hx : 0 < x) (h : x ≤ y) : roundF32 x ≤ roundF32 y := by
  have hy : 0 < y := lt_of_lt_of_le hx h
  have hE : ulpExp x ≤ ulpExp y := by
    apply ulpExp_mono (ne_of_gt hx)
    rw [abs_of_pos hx, abs_of_pos hy]; exact h
  rcases eq_or_lt_of_le hE with hE | hE
  · unfold roundF32
    rw [hE]
    apply mul_le_mul_of_nonneg_right _ (le_of_lt (two_zpow_pos _))
    have : x / (2 : ℚ) ^ ulpExp y ≤ y / (2 : ℚ) ^ ulpExp y :=
      div_le_div_of_nonneg_right h (le_of_lt (two_zpow_pos _))
    exact_mod_cast roundEven_mono this
  · have h1 := abs_lt_of_ulpExp x
    rw [abs_of_pos hx] at h1
    have h2 := le_abs_of_ulpExp (ne_of_gt hy) (lt_of_le_of_lt (ulpExp_ge x) hE)
    rw [abs_of_pos hy] at h2
    have h3 : (2 : ℚ) ^ (ulpExp x + 24) ≤ (2 : ℚ) ^ (ulpExp y + 23) :=
      zpow_le_zpow_right₀ (by norm_num) (by omega)
    have hp : isBinary24 ((2 : ℚ) ^ (ulpExp x + 24)) :=
      isBinary24_two_zpow (by have := ulpExp_ge x; omega)
    exact le_trans (roundF32_le hp (le_of_lt h1)) (le_roundF32 hp (le_trans h3 h2))

/-- Rounding to binary32 is monotone. -/
theorem roundF32_mono {x y : ℚ} (h : x ≤ y) : roundF32 x ≤ roundF32 y := by
  rcases le_or_lt x 0 with hx | hx
  · rcases le_or_lt 0 y with hy | hy
    · exact le_trans (roundF32_nonpos hx) (roundF32_nonneg hy)
    · have := roundF32_mono_pos (x := -y) (y := -x) (by linarith) (by linarith)
      rw [roundF32_neg, roundF32_neg] at this
      linarith
  · exact roundF32_mono_pos hx h

/-- The signed value of `encode16s` on a finite input: the floor of the rounded sum,
clamped. -/
theorem toInt16_encode16s_fin (v : ℚ) :
    toInt16 (encode16s (F32.fin v)) = max (-32768) (min ⌊roundF32 (v + 1 / 2)⌋ 32767) := by
  rw [encode16s_fin]
  generalize roundF32 (v + 1 / 2) = r
  by_cases h1 : (2 : ℚ) ^ 128 ≤ r
  · rw [if_pos h1]
    have : (32767 : ℤ) ≤ ⌊r⌋ := Int.le_floor.mpr (by push_cast; linarith [show (32767 : ℚ) ≤ 2 ^ 128 by norm_num])
    rw [min_eq_right this]; decide
  · rw [if_neg h1]
    by_cases h2 : r ≤ -(2 : ℚ) ^ 128
    · rw [if_pos h2]
      have : ⌊r⌋ ≤ -32768 := by
        have h3 : ⌊r⌋ ≤ ⌊(-32768 : ℚ)⌋ :=
          Int.floor_mono (by linarith [show (32768 : ℚ) ≤ 2 ^ 128 by norm_num])
        have e : ⌊(-32768 : ℚ)⌋ = -32768 := by rw [Int.floor_eq_iff]; norm_num
        omega
      rw [min_eq_left (by omega), max_eq_left this]; decide
    · rw [if_neg h2]
      by_cases h3 : 32767 < ⌊r⌋
      · rw [if_pos h3, min_eq_right (le_of_lt h3)]; decide
      · rw [if_neg h3]
        by_cases h4 : ⌊r⌋ < -32768
        · rw [if_pos h4, min_eq_left (by omega), max_eq_left (le_of_lt h4)]; decide
        · rw [if_neg h4, toInt16_toUInt16 (by omega) (by omega), min_eq_left (by omega),
            max_eq_right (by omega)]

theorem toInt16_encode16s_bounds (x : F32) :
    -32768 ≤ toInt16 (encode16s x) ∧ toInt16 (encode16s x) ≤ 32767 := by
  cases x with
  | fin v =>
    rw [toInt16_encode16s_fin]
    exact ⟨le_max_left _ _, max_le (by norm_num) (min_le_right _ _)⟩
  | pinf => rw [encode16s_pinf]; decide
  | ninf => rw [encode16s_ninf]; decide

/-- The signed value of `encode16s` is monotone in its input. -/
theorem toInt16_encode16s_mono {x y : F32} (h : F32.le x y = true) :
    toInt16 (encode16s x) ≤ toInt16 (encode16s y) := by
  cases x with
  | fin a =>
    cases y with
    | fin b =>
      have hab : a ≤ b := by
        simpa [F32.le, F32.lt] using h
      rw [toInt16_encode16s_fin, toInt16_encode16s_fin]
      have := Int.floor_mono (roundF32_mono (show a + 1 / 2 ≤ b + 1 / 2 by linarith))
      exact max_le_max le_rfl (min_le_min this le_rfl)
    | pinf =>
      rw [encode16s_pinf]
      exact (toInt16_encode16s_bounds _).2
    | ninf => simp [F32.le, F32.lt] at h
  | pinf =>
    cases y with
    | fin b => simp [F32.le, F32.lt] at h
    | pinf => exact le_rfl
    | ninf => simp [F32.le, F32.lt] at h
  | ninf =>
    rw [encode16s_ninf]
    exact (toInt16_encode16s_bounds _).1

/-- Rounding into binary32, with overflow, is monotone. -/
theorem F32.ofRat_mono {x y : ℚ} (h : x ≤ y) : F32.le (F32.ofRat x) (F32.ofRat y) = true := by
  have hr := roundF32_mono h
  unfold F32.ofRat
  by_cases h1 : (2 : ℚ) ^ 128 ≤ roundF32 y
  · rw [if_pos h1]
    split_ifs <;> simp [F32.le, F32.lt]
  · rw [if_neg h1]
    have h1' : ¬ (2 : ℚ) ^ 128 ≤ roundF32 x := fun hc => h1 (le_trans hc hr)
    rw [if_neg h1']
    by_cases h2 : roundF32 x ≤ -(2 : ℚ) ^ 128
    · rw [if_pos h2]
      split_ifs <;> simp [F32.le, F32.lt]
    · rw [if_neg h2]
      have h2' : ¬ roundF32 y ≤ -(2 : ℚ) ^ 128 := fun hc => h2 (le_trans hr hc)
      rw [if_neg h2']
      simpa [F32.le, F32.lt] using hr

/-- Scaling by a positive constant is monotone. -/
theorem F32.mul_mono {x y : F32} (h : F32.le x y = true) {c : ℚ} (hc : 0 < c) :
    F32.le (F32.mul x c) (F32.mul y c) = true := by
  cases x with
  | fin a =>
    cases y with
    | fin b =>
      have hab : a ≤ b := by
        simpa [F32.le, F32.lt] using h
      exact F32.ofRat_mono (mul_le_mul_of_nonneg_right hab (le_of_lt hc))
    | pinf =>
      show F32.le (F32.ofRat (a * c)) (if 0 < c then F32.pinf else F32.ninf) = true
      rw [if_pos hc]
      unfold F32.ofRat
      split_ifs <;> simp [F32.le, F32.lt]
    | ninf => simp [F32.le, F32.lt] at h
  | pinf =>
    cases y with
    | fin b => simp [F32.le, F32.lt] at h
    | pinf => simp [F32.le, F32.lt, F32.mul, hc]
    | ninf => simp [F32.le, F32.lt] at h
  | ninf =>
    show F32.le (if 0 < c then F32.ninf else F32.pinf) (F32.mul y c) = true
    rw [if_pos hc]
    cases y with
    | fin b =>
      show F32.le F32.ninf (F32.ofRat (b * c)) = true
      unfold F32.ofRat
      split_ifs <;> simp [F32.le, F32.lt]
    | pinf => simp [F32.le, F32.lt, F32.mul, hc]
    | ninf => simp [F32.le, F32.lt, F32.mul, hc]

theorem encodeV_encodeT_mono {x y : F32} (h : F32.le x y = true) :
    toInt16 (encodeV x) ≤ toInt16 (encodeV y) ∧ toInt16 (encodeT x) ≤ toInt16 (encodeT y) :=
  ⟨toInt16_encode16s_mono (F32.mul_mono h (by norm_num)),
    toInt16_encode16s_mono (F32.mul_mono h (by norm_num))⟩

/-- Quantization error of `encode16s` after scaling by `2^k`. -/
theorem scaled_quantization {v : ℚ} (hv : isF32 v) (k : ℕ)
    (hne : v * 2 ^ k ≠ 1 / 2 - 1 / 2 ^ 25) (hlo : -32768 ≤ v * 2 ^ k)
    (hhi : v * 2 ^ k < 32768 - 1 / 2) :
    |(toInt16 (encode16s (F32.mul (F32.fin v) ((2 : ℚ) ^ k))) : ℚ) / 2 ^ k - v| ≤
      1 / (2 * 2 ^ k) := by
  have hw : isF32 (v * 2 ^ k) :=
    ⟨isBinary24_mul_two_pow hv.1 k, by
      rw [abs_lt]; constructor
      · linarith [show (32768 : ℚ) < 2 ^ 128 by norm_num]
      · linarith [show (32768 : ℚ) < 2 ^ 128 by norm_num]⟩
  have h3 := Int.floor_le (v * 2 ^ k + 1 / 2)
  have h4 := Int.lt_floor_add_one (v * 2 ^ k + 1 / 2)
  have h1 : -32768 ≤ ⌊v * 2 ^ k + 1 / 2⌋ :=
    Int.le_floor.mpr (by push_cast; linarith)
  have h2 : ⌊v * 2 ^ k + 1 / 2⌋ ≤ 32767 := by
    have : ⌊v * 2 ^ k + 1 / 2⌋ < 32768 := Int.floor_lt.mpr (by push_cast; linarith)
    omega
  rw [encode16s_mul_two_pow hv k, encode16s_of_in_range hw hne h1 h2, toInt16_toUInt16 h1 h2]
  have hp : (0 : ℚ) < 2 ^ k := by positivity
  have key : (⌊v * 2 ^ k + 1 / 2⌋ : ℚ) / 2 ^ k - v =
      ((⌊v * 2 ^ k + 1 / 2⌋ : ℚ) - v * 2 ^ k) / 2 ^ k := by
    field_simp
    ring
  rw [key, abs_div, abs_of_pos hp, div_le_div_iff₀ hp (by positivity)]
  have : |(⌊v * 2 ^ k + 1 / 2⌋ : ℚ) - v * 2 ^ k| ≤ 1 / 2 := by
    rw [abs_le]; constructor <;> linarith
  calc |(⌊v * 2 ^ k + 1 / 2⌋ : ℚ) - v * 2 ^ k| * (2 * 2 ^ k)
      ≤ 1 / 2 * (2 * 2 ^ k) := mul_le_mul_of_nonneg_right this (by positivity)
    _ = 1 * 2 ^ k := by ring

/-! ## the decoder -/

theorem hi_lo (v : ℕ) : (v >>> 8) * 256 + (v &&& 0xFF) = v := by
  have := Nat.and_pow_two_sub_one_eq_mod v 8
  norm_num at this
  rw [this, Nat.shiftRight_eq_div_pow]
  omega

theorem decodeMeasurement_encodeMeasurement (buf : Buffer) (m : Measurements) :
    decodeMeasurement (encodeMeasurement buf m).1 = some (wireView m) := by
  rw [encodeMeasurement_eq]
  unfold wireView
  rcases h1 : m.Vbat.fValid <;> rcases h2 : m.Vbus.fValid <;>
    rcases h3 : m.Boot.fValid <;> rcases h4 : m.CompostTemp.fValid <;>
    simp [decodeMeasurement, decodeField, hi_lo, Nat.testBit]

theorem ite_some_eq {a b : Bool} {x y : ℕ}
    (h : (if a = true then some x else none) = (if b = true then some y else none)) :
    a = b ∧ (a = true → x = y) := by
  cases a <;> cases b <;> simp at h ⊢
  exact h

theorem encodeMeasurement_eq_of_wireView {b1 b2 : Buffer} {m1 m2 : Measurements}
    (h : wireView m1 = wireView m2) :
    (encodeMeasurement b1 m1).1 = (encodeMeasurement b2 m2).1 := by
  unfold wireView at h
  have h' := WireView.mk.inj h
  obtain ⟨f1, v1⟩ := ite_some_eq h'.1
  obtain ⟨f2, v2⟩ := ite_some_eq h'.2.1
  obtain ⟨f3, v3⟩ := ite_some_eq h'.2.2.1
  obtain ⟨f4, v4⟩ := ite_some_eq h'.2.2.2
  rw [encodeMeasurement_eq, encodeMeasurement_eq]
  simp only [← f1, ← f2, ← f3, ← f4]
  rcases h1 : m1.Vbat.fValid <;> rcases h2 : m1.Vbus.fValid <;>
    rcases h3 : m1.Boot.fValid <;> rcases h4 : m1.CompostTemp.fValid <;>
    simp [h1, h2, h3, h4] at v1 v2 v3 v4 ⊢ <;> simp [*]

theorem encodeMeasurement_eq_iff (b1 b2 : Buffer) (m1 m2 : Measurements) :
    (encodeMeasurement b1 m1).1 = (encodeMeasurement b2 m2).1 ↔ wireView m1 = wireView m2 := by
  constructor
  · intro h
    have h1 := decodeMeasurement_encodeMeasurement b1 m1
    have h2 := decodeMeasurement_encodeMeasurement b2 m2
    rw [h, h2] at h1
    exact (Option.some.inj h1).symm
  · exact encodeMeasurement_eq_of_wireView

/-! ## exponent overflow and zero of the compact floats -/

/-- The exponent of a decomposition of a positive value below one is not positive. -/
theorem frexp_exp_nonpos {f m : ℚ} {e : ℤ} (h1 : f < 1) (hm1 : 1 / 2 ≤ m)
    (hf : f = m * (2 : ℚ) ^ e) : e ≤ 0 := by
  by_contra hc
  push_neg at hc
  have h2 : (2 : ℚ) ^ (1 : ℤ) ≤ (2 : ℚ) ^ e := zpow_le_zpow_right₀ (by norm_num) (by omega)
  norm_num at h2
  have hP := two_zpow_pos e
  nlinarith

/-- Fields of `LMIC_f2uflt16` on `(0, 1)`: the exponent exceeds 15 exactly when the input
is at least `1 - 2^-13`, and the fraction has its top bit set. -/
theorem f2uflt16_fields_range {f : ℚ} (h0 : 0 < f) (h1 : f < 1) :
    ((f2uflt16_fields f).1 > 15 ↔ 1 - 1 / 2 ^ 13 ≤ f) ∧
    2048 ≤ (f2uflt16_fields f).2 ∧ (f2uflt16_fields f).2 < 4096 := by
  obtain ⟨m, e, hm1, hm2, hf⟩ := exists_frexp h0
  have he := frexp_exp_nonpos h1 hm1 hf
  obtain ⟨_, h2, h3⟩ := toUInt16_trunc_ldexp hm1 hm2 12 le_rfl
  norm_num at h2 h3
  have hfl1 := Int.floor_le (m * 4096 + 1 / 2)
  have hfl2 := Int.lt_floor_add_one (m * 4096 + 1 / 2)
  have hP := two_zpow_pos e
  rw [f2uflt16_fields_eq hm1 hm2 hf]
  by_cases hc : 4096 ≤ ⌊m * 4096 + 1 / 2⌋
  · rw [if_pos hc]
    have hc' : ((4096 : ℤ) : ℚ) ≤ (⌊m * 4096 + 1 / 2⌋ : ℚ) := by exact_mod_cast hc
    push_cast at hc'
    have hm3 : 1 - 1 / 2 ^ 13 ≤ m := by norm_num; linarith
    refine ⟨?_, by norm_num, by norm_num⟩
    simp only
    constructor
    · intro hE
      have : e = 0 := by
        rcases max_cases (e + 15) 0 with ⟨h, _⟩ | ⟨h, _⟩ <;> omega
      rw [hf, this]; simpa using hm3
    · intro hge
      have he0 : e = 0 := by
        by_contra hne
        have : (2 : ℚ) ^ e ≤ (2 : ℚ) ^ (-1 : ℤ) := zpow_le_zpow_right₀ (by norm_num) (by omega)
        norm_num at this hge
        nlinarith
      rw [he0]; norm_num
  · rw [if_neg hc]
    have hc' : (⌊m * 4096 + 1 / 2⌋ : ℚ) ≤ ((4095 : ℤ) : ℚ) := by
      exact_mod_cast (show ⌊m * 4096 + 1 / 2⌋ ≤ 4095 by omega)
    push_cast at hc'
    have hm3 : m < 1 - 1 / 2 ^ 13 := by norm_num; linarith
    refine ⟨?_, by simp only; omega, by simp only; omega⟩
    simp only
    constructor
    · intro hE
      rcases max_cases (e + 15) 0 with ⟨h, _⟩ | ⟨h, _⟩ <;> omega
    · intro hge
      exfalso
      have : (2 : ℚ) ^ e ≤ (2 : ℚ) ^ (0 : ℤ) := zpow_le_zpow_right₀ (by norm_num) he
      norm_num at this hge hm3
      nlinarith

/-- Fields of `LMIC_f2sflt16` on nonzero inputs in `(-1, 1)`: the exponent exceeds 15
exactly when the magnitude is at least `1 - 2^-12`. -/
theorem f2sflt16_fields_range {f : ℚ} (h0 : f ≠ 0) (h1 : |f| < 1) :
    ((f2sflt16_fields f).2.1 > 15 ↔ 1 - 1 / 2 ^ 12 ≤ |f|) ∧
    (f2sflt16_fields f).1 = (if f < 0 then 0x8000 else 0) := by
  obtain ⟨m, e, hm1, hm2, hf⟩ := exists_frexp (abs_pos.mpr h0)
  have he := frexp_exp_nonpos h1 hm1 hf
  obtain ⟨_, h2, h3⟩ := toUInt16_trunc_ldexp hm1 hm2 11 (by norm_num)
  norm_num at h2 h3
  have hfl1 := Int.floor_le (m * 2048 + 1 / 2)
  have hfl2 := Int.lt_floor_add_one (m * 2048 + 1 / 2)
  have hP := two_zpow_pos e
  rw [f2sflt16_fields_eq hm1 hm2 hf]
  by_cases hc : 2048 ≤ ⌊m * 2048 + 1 / 2⌋
  · rw [if_pos hc]
    have hc' : ((2048 : ℤ) : ℚ) ≤ (⌊m * 2048 + 1 / 2⌋ : ℚ) := by exact_mod_cast hc
    push_cast at hc'
    have hm3 : 1 - 1 / 2 ^ 12 ≤ m := by norm_num; linarith
    refine ⟨?_, rfl⟩
    simp only
    constructor
    · intro hE
      have : e = 0 := by
        rcases max_cases (e + 15) 0 with ⟨h, _⟩ | ⟨h, _⟩ <;> omega
      rw [hf, this]; simpa using hm3
    · intro hge
      have he0 : e = 0 := by
        by_contra hne
        have : (2 : ℚ) ^ e ≤ (2 : ℚ) ^ (-1 : ℤ) := zpow_le_zpow_right₀ (by norm_num) (by omega)
        rw [hf] at hge
        norm_num at this hge
        nlinarith
      rw [he0]; norm_num
  · rw [if_neg hc]
    have hc' : (⌊m * 2048 + 1 / 2⌋ : ℚ) ≤ ((2047 : ℤ) : ℚ) := by
      exact_mod_cast (show ⌊m * 2048 + 1 / 2⌋ ≤ 2047 by omega)
    push_cast at hc'
    have hm3 : m < 1 - 1 / 2 ^ 12 := by norm_num; linarith
    refine ⟨?_, rfl⟩
    simp only
    constructor
    · intro hE
      rcases max_cases (e + 15) 0 with ⟨h, _⟩ | ⟨h, _⟩ <;> omega
    · intro hge
      exfalso
      have : (2 : ℚ) ^ e ≤ (2 : ℚ) ^ (0 : ℤ) := zpow_le_zpow_right₀ (by norm_num) he
      rw [hf] at hge
      norm_num at this hge hm3
      nlinarith

theorem LMIC_f2uflt16_overflow {f : ℚ} (h0 : 1 - 1 / 2 ^ 13 ≤ f) (h1 : f < 1) :
    LMIC_f2uflt16 (F32.fin f) = 0xFFFF := by
  have hpos : 0 < f := lt_of_lt_of_le (by norm_num) h0
  rw [LMIC_f2uflt16_fin (le_of_lt hpos) h1, if_pos ((f2uflt16_fields_range hpos h1).1.mpr h0)]

theorem LMIC_f2sflt16_overflow {f : ℚ} (h0 : 1 - 1 / 2 ^ 12 ≤ |f|) (h1 : |f| < 1) :
    LMIC_f2sflt16 (F32.fin f) = if 0 < f then 0x7FFF else 0xFFFF := by
  have hne : f ≠ 0 := by
    intro h; rw [h] at h0; norm_num at h0
  obtain ⟨hE, hs⟩ := f2sflt16_fields_range hne h1
  have hb := abs_lt.mp h1
  rw [LMIC_f2sflt16_fin hb.1 hb.2, if_pos (hE.mpr h0), hs]
  rcases lt_or_gt_of_ne hne with h | h
  · rw [if_pos h, if_neg (not_lt.mpr (le_of_lt h))]; decide
  · rw [if_neg (not_lt.mpr (le_of_lt h)), if_pos h]; decide

theorem LMIC_f2uflt16_exp_le {f : ℚ} (h0 : 0 ≤ f) (h1 : f < 1 - 1 / 2 ^ 13) :
    (f2uflt16_fields f).1 ≤ 15 ∧
    LMIC_f2uflt16 (F32.fin f) >>> 12 = (f2uflt16_fields f).1.toNat ∧
    LMIC_f2uflt16 (F32.fin f) >>> 12 ≤ 15 := by
  have h2 : f < 1 := lt_trans h1 (by norm_num)
  have hE : (f2uflt16_fields f).1 ≤ 15 := by
    rcases eq_or_lt_of_le h0 with h | h
    · rw [← h, f2uflt16_fields_zero]
    · have := (f2uflt16_fields_range h h2).1
      by_contra hc
      push_neg at hc
      have := this.mp hc
      linarith
  have h3 := ((LMIC_f2uflt16_fraction_field h0 h2).2 hE).1
  refine ⟨hE, h3, ?_⟩
  rw [h3]; omega

theorem LMIC_f2sflt16_exp_le {f : ℚ} (h1 : |f| < 1 - 1 / 2 ^ 12) :
    (f2sflt16_fields f).2.1 ≤ 15 ∧
    (LMIC_f2sflt16 (F32.fin f) >>> 11) &&& 0xF = (f2sflt16_fields f).2.1.toNat ∧
    (LMIC_f2sflt16 (F32.fin f) >>> 11) &&& 0xF ≤ 15 := by
  have h2 : |f| < 1 := lt_trans h1 (by norm_num)
  have hb := abs_lt.mp h2
  have hE : (f2sflt16_fields f).2.1 ≤ 15 := by
    by_cases h : f = 0
    · rw [h, f2sflt16_fields_zero]
    · have := (f2sflt16_fields_range h h2).1
      by_contra hc
      push_neg at hc
      have := this.mp hc
      linarith
  have h3 := ((LMIC_f2sflt16_fraction_field hb.1 hb.2).2 hE).1
  refine ⟨hE, h3, ?_⟩
  rw [h3]; omega

theorem LMIC_f2uflt16_zero : LMIC_f2uflt16 (F32.fin 0) = 0xF000 := by
  rw [LMIC_f2uflt16_fin le_rfl (by norm_num), f2uflt16_fields_zero]
  decide

theorem LMIC_f2sflt16_zero : LMIC_f2sflt16 (F32.fin 0) = 0x7800 := by
  rw [LMIC_f2sflt16_fin (by norm_num) (by norm_num), f2sflt16_fields_zero]
  decide

theorem LMIC_f2uflt16_fraction_top {f : ℚ} (h0 : 0 < f) (h1 : f < 1) :
    0x800 ≤ LMIC_f2uflt16 (F32.fin f) &&& 0xFFF ∧ LMIC_f2uflt16 (F32.fin f) &&& 0xFFF ≤ 0xFFF := by
  obtain ⟨_, hlo, hhi⟩ := f2uflt16_fields_range h0 h1
  by_cases hE : (f2uflt16_fields f).1 ≤ 15
  · rw [((LMIC_f2uflt16_fraction_field (le_of_lt h0) h1).2 hE).2]
    exact ⟨hlo, by omega⟩
  · rw [LMIC_f2uflt16_fin (le_of_lt h0) h1, if_pos (by omega)]
    decide

theorem LMIC_f2uflt16_eq_zero_iff (x : F32) :
    LMIC_f2uflt16 x = 0 ↔ F32.lt x (F32.fin 0) = true := by
  cases x with
  | fin q =>
    rcases lt_trichotomy q 0 with h | h | h
    · rw [lmic_sat_cases.1 q h]
      simp [F32.lt, h]
    · rw [h, LMIC_f2uflt16_zero]
      simp [F32.lt]
    · have hlt : ¬ q < 0 := not_lt.mpr (le_of_lt h)
      have hne : LMIC_f2uflt16 (F32.fin q) ≠ 0 := by
        rcases le_or_lt 1 q with h1 | h1
        · rw [lmic_sat_cases.2.2.1 q h1]; norm_num
        · intro h0
          have := (LMIC_f2uflt16_fraction_top h h1).1
          rw [h0] at this
          simp at this
      simp [F32.lt, hlt, hne]
  | pinf =>
    rw [lmic_sat_cases.2.2.2.1]
    simp [F32.lt]
  | ninf =>
    rw [lmic_sat_cases.2.1]
    simp [F32.lt]

theorem isF32_quantum_v : isF32 (16777215 / 2 ^ 37 : ℚ) :=
  ⟨⟨16777215, -37, by norm_num, by norm_num, by norm_num⟩,
    by rw [abs_lt]; constructor <;> norm_num⟩

theorem encodeV_quantum_v : encodeV (F32.fin (16777215 / 2 ^ 37)) = 1 := by
  rw [(encodeV_eq_encode16s_exact isF32_quantum_v).1]
  have h : (4096 * (16777215 / 2 ^ 37) : ℚ) = 16777215 / 33554432 := by norm_num
  rw [h, encode16s_below_half]

theorem wireView_eq_iff (m1 m2 : Measurements) :
    wireView m1 = wireView m2 ↔
      (m1.Vbat.fValid = m2.Vbat.fValid ∧ m1.Vbus.fValid = m2.Vbus.fValid ∧
        m1.Boot.fValid = m2.Boot.fValid ∧ m1.CompostTemp.fValid = m2.CompostTemp.fValid) ∧
      (m1.Vbat.fValid = true → encodeV m1.Vbat.v = encodeV m2.Vbat.v) ∧
      (m1.Vbus.fValid = true → encodeV m1.Vbus.v = encodeV m2.Vbus.v) ∧
      (m1.Boot.fValid = true → m1.Boot.v = m2.Boot.v) ∧
      (m1.CompostTemp.fValid = true →
        encodeT m1.CompostTemp.v.t = encodeT m2.CompostTemp.v.t) := by
  constructor
  · intro h
    have h1 := ite_some_eq (congrArg WireView.Vbat h)
    have h2 := ite_some_eq (congrArg WireView.Vbus h)
    have h3 := ite_some_eq (congrArg WireView.Boot h)
    have h4 := ite_some_eq (congrArg WireView.CompostTemp h)
    exact ⟨⟨h1.1, h2.1, h3.1, h4.1⟩, h1.2, h2.2, fun hv => Fin.ext (h3.2 hv), h4.2⟩
  · rintro ⟨⟨f1, f2, f3, f4⟩, v1, v2, v3, v4⟩
    unfold wireView
    rw [← f1, ← f2, ← f3, ← f4]
    rcases h1 : m1.Vbat.fValid <;> rcases h2 : m1.Vbus.fValid <;>
      rcases h3 : m1.Boot.fValid <;> rcases h4 : m1.CompostTemp.fValid <;>
      simp [h1, h2, h3, h4] at v1 v2 v3 v4 ⊢ <;> simp [*]

/-! ## the test vector driver -/

theorem dropWhile_isSpace_head {cs : List Char}
    (h : (cs.dropWhile isSpace).isEmpty = false) :
    ∃ c r, cs.dropWhile isSpace = c :: r ∧ isSpace c = false := by
  induction cs with
  | nil => simp at h
  | cons a t ih =>
    by_cases ha : isSpace a = true
    · rw [List.dropWhile_cons_of_pos ha] at h ⊢
      exact ih h
    · rw [List.dropWhile_cons_of_neg ha]
      exact ⟨a, t, rfl, by simpa using ha⟩

theorem length_dropWhile_le (p : Char → Bool) (cs : List Char) :
    (cs.dropWhile p).length ≤ cs.length :=
  (List.dropWhile_suffix p).length_le

/-- Extracting a string from a good stream ends the stream or uses up a character. -/
theorem getString_progress (s : IStream) (str : String) (h : s.good = true) :
    (s.getString str).1.good = false ∨ (s.getString str).1.chars.length < s.chars.length := by
  unfold IStream.getString
  rw [if_pos h]
  by_cases he : (s.chars.dropWhile isSpace).isEmpty = true
  · rw [if_pos he]; left; rfl
  · rw [if_neg he]
    right
    obtain ⟨c, r, hc, hs⟩ := dropWhile_isSpace_head (by simpa using he)
    have h1 := length_dropWhile_le isSpace s.chars
    have h2 := length_dropWhile_le (fun c => !isSpace c) r
    simp only [hc]
    rw [List.dropWhile_cons_of_pos (by simp [hs])]
    rw [hc] at h1
    simp only [List.length_cons] at h1
    omega

/-- After the extraction of a string `failbit` comes with `eofbit`, and a stream that is
not good has `eofbit`. -/
theorem getString_bits (s : IStream) (str : String) (h : s.good = true) :
    ((s.getString str).1.failbit = true → (s.getString str).1.eofbit = true) ∧
    ((s.getString str).1.good = false → (s.getString str).1.eofbit = true) := by
  unfold IStream.getString
  rw [if_pos h]
  by_cases he : (s.chars.dropWhile isSpace).isEmpty = true
  · rw [if_pos he]; exact ⟨fun _ => rfl, fun _ => rfl⟩
  · rw [if_neg he]
    simp [IStream.good]

/-- A key that is not empty was extracted from a good stream and leaves `failbit` clear. -/
theorem getString_nonempty (s : IStream) (h : (s.getString "").2 ≠ "") :
    s.good = true ∧ (s.getString "").1.failbit = false ∧
    (s.getString "").1.chars =
      (s.chars.dropWhile isSpace).dropWhile (fun c => !isSpace c) ∧
    (s.getString "").2 =
      String.mk ((s.chars.dropWhile isSpace).takeWhile (fun c => !isSpace c)) := by
  unfold IStream.getString at h ⊢
  by_cases hg : s.good = true
  · rw [if_pos hg] at h ⊢
    by_cases he : (s.chars.dropWhile isSpace).isEmpty = true
    · rw [if_pos he] at h; exact absurd rfl h
    · rw [if_neg he]; exact ⟨hg, rfl, rfl, rfl⟩
  · rw [if_neg hg] at h; exact absurd rfl h

theorem get_length_le {α : Type} (g : NumGet α) (s : IStream) (x : α) :
    (s.get g x).1.chars.length ≤ s.chars.length := by
  unfold IStream.get
  split_ifs
  · simp
  · simp only [List.length_drop]
    have := length_dropWhile_le isSpace s.chars
    omega
  · exact le_rfl

theorem get_not_good {α : Type} (g : NumGet α) (s : IStream) (x : α) (h : s.good = false) :
    s.get g x = ({ s with failbit := true }, x) := by
  unfold IStream.get
  rw [if_neg (by simp [h])]

/-- A failed extraction of a number that leaves `eofbit` clear is a failed conversion. -/
theorem get_failbit {α : Type} (g : NumGet α) (s : IStream) (x : α)
    (hs : s.good = false → s.eofbit = true)
    (h1 : (s.get g x).1.failbit = true) (h2 : (s.get g x).1.eofbit = false) :
    s.good = true ∧ (s.chars.dropWhile isSpace).isEmpty = false ∧
    (g.conv ((s.chars.dropWhile isSpace).take (g.scan (s.chars.dropWhile isSpace)))).2 = false := by
  by_cases hg : s.good = true
  · unfold IStream.get at h1 h2
    rw [if_pos hg] at h1 h2
    by_cases he : (s.chars.dropWhile isSpace).isEmpty = true
    · rw [if_pos he] at h2; exact absurd h2 (by simp)
    · rw [if_neg he] at h1
      exact ⟨hg, by simpa using he, by simpa using h1⟩
  · have hg' : s.good = false := by simpa using hg
    rw [get_not_good g s x hg'] at h2
    exact absurd (hs hg') (by simp at h2; simp [h2])

/-- The evaluation of the extraction of a number. -/
theorem get_eval {α : Type} (g : NumGet α) (cs rest fld : List Char) (x v : α) (ok : Bool)
    (h1 : cs.dropWhile isSpace = fld ++ rest) (h2 : (fld ++ rest).isEmpty = false)
    (h3 : g.scan (fld ++ rest) = fld.length) (h4 : g.conv fld = (v, ok)) :
    IStream.get g ⟨cs, false, false⟩ x = (⟨rest, rest.isEmpty, !ok⟩, v) := by
  unfold IStream.get
  have hg : IStream.good ⟨cs, false, false⟩ = true := rfl
  rw [if_pos hg]
  simp only [h1, h3, h2, List.drop_left, List.take_left, h4]
  simp

theorem get_good_false {α : Type} (g : NumGet α) (s : IStream) (x : α) (h : s.good = false) :
    (s.get g x).1.good = false := by
  rw [get_not_good g s x h]
  simp [IStream.good]

/-- The stream after an iteration is the stream after the key or after the value. -/
theorem loopBody_cin (F : NumGet F32) (U : NumGet ℕ) (junk : ℕ) (d : Driver) :
    (loopBody F U junk d).cin = (d.cin.getString "").1 ∨
    (∃ x, (loopBody F U junk d).cin = ((d.cin.getString "").1.get F x).1) ∨
    (loopBody F U junk d).cin = ((d.cin.getString "").1.get U junk).1 := by
  unfold loopBody
  dsimp only
  split_ifs
  · exact Or.inr (Or.inl ⟨_, rfl⟩)
  · exact Or.inr (Or.inl ⟨_, rfl⟩)
  · exact Or.inr (Or.inr rfl)
  · exact Or.inr (Or.inl ⟨_, rfl⟩)
  · exact Or.inl rfl
  · exact Or.inl rfl
  · exact Or.inl rfl

/-- An iteration from a good stream ends the stream or uses up a character. -/
theorem loopBody_progress (F : NumGet F32) (U : NumGet ℕ) (junk : ℕ) (d : Driver)
    (h : d.cin.good = true) :
    (loopBody F U junk d).cin.good = false ∨
    (loopBody F U junk d).cin.chars.length < d.cin.chars.length := by
  have hp := getString_progress d.cin "" h
  have key : ∀ {α : Type} (g : NumGet α) (x : α),
      ((d.cin.getString "").1.get g x).1.good = false ∨
      ((d.cin.getString "").1.get g x).1.chars.length < d.cin.chars.length := by
    intro α g x
    rcases hp with hp | hp
    · exact Or.inl (get_good_false g _ x hp)
    · exact Or.inr (lt_of_le_of_lt (get_length_le g _ x) hp)
  rcases loopBody_cin F U junk d with hc | ⟨x, hc⟩ | hc
  · rw [hc]; exact hp
  · rw [hc]; exact key F x
  · rw [hc]; exact key U junk

theorem loop_of_not_good (F : NumGet F32) (U : NumGet ℕ) (junk : ℕ) (n : ℕ) (d : Driver)
    (h : d.cin.good = false) : loop F U junk n d = d := by
  cases n with
  | zero => rfl
  | succ n => simp [loop, h]

theorem loop_succ_of_good (F : NumGet F32) (U : NumGet ℕ) (junk : ℕ) (n : ℕ) (d : Driver)
    (h : d.cin.good = true) : loop F U junk (n + 1) d = loop F U junk n (loopBody F U junk d) := by
  simp [loop, h]

/-- The loop is left within one iteration more than there are unread characters. -/
theorem loop_exit (F : NumGet F32) (U : NumGet ℕ) (junk : ℕ) :
    ∀ (n : ℕ) (d : Driver), d.cin.chars.length < n → (loop F U junk n d).cin.good = false := by
  intro n
  induction n with
  | zero => intro d h; omega
  | succ n ih =>
    intro d h
    by_cases hg : d.cin.good = true
    · rw [loop_succ_of_good F U junk n d hg]
      rcases loopBody_progress F U junk d hg with hp | hp
      · rw [loop_of_not_good F U junk n _ hp]; exact hp
      · exact ih _ (by omega)
    · have hg' : d.cin.good = false := by simpa using hg
      rw [loop_of_not_good F U junk _ d hg']; exact hg'

/-- More iterations than that change nothing. -/
theorem loop_stable (F : NumGet F32) (U : NumGet ℕ) (junk : ℕ) :
    ∀ (n : ℕ) (d : Driver), d.cin.chars.length < n → ∀ k, n ≤ k →
      loop F U junk k d = loop F U junk n d := by
  intro n
  induction n with
  | zero => intro d h; omega
  | succ n ih =>
    intro d h k hk
    obtain ⟨k, rfl⟩ : ∃ j, k = j + 1 := ⟨k - 1, by omega⟩
    by_cases hg : d.cin.good = true
    · rw [loop_succ_of_good F U junk n d hg, loop_succ_of_good F U junk k d hg]
      rcases loopBody_progress F U junk d hg with hp | hp
      · rw [loop_of_not_good F U junk n _ hp, loop_of_not_good F U junk k _ hp]
      · exact ih _ (by omega) k (by omega)
    · have hg' : d.cin.good = false := by simpa using hg
      rw [loop_of_not_good F U junk _ d hg', loop_of_not_good F U junk _ d hg']

/-- The rest of a run from a good stream is the rest of the run after one iteration. -/
theorem runFrom_step (F : NumGet F32) (U : NumGet ℕ) (junk : ℕ) (d : Driver)
    (h : d.cin.good = true) :
    runFrom F U junk d = runFrom F U junk (loopBody F U junk d) := by
  unfold runFrom
  rw [loop_succ_of_good F U junk _ d h]
  rcases loopBody_progress F U junk d h with hp | hp
  · rw [loop_of_not_good F U junk _ _ hp, loop_of_not_good F U junk _ _ hp]
  · rw [loop_stable F U junk _ _ (Nat.lt_succ_self _) d.cin.chars.length (by omega)]

/-- The rest of a run from a stream that is not good is the part after the loop. -/
theorem runFrom_done (F : NumGet F32) (U : NumGet ℕ) (junk : ℕ) (d : Driver)
    (h : d.cin.good = false) : runFrom F U junk d = finish d := by
  unfold runFrom
  rw [loop_of_not_good F U junk _ d h]

/-- The flag `fAny` tells whether the record has a valid field: one iteration. -/
theorem loopBody_fAny (F : NumGet F32) (U : NumGet ℕ) (junk : ℕ) (d : Driver)
    (h : d.fAny = hasValid d.m) :
    (loopBody F U junk d).fAny = hasValid (loopBody F U junk d).m := by
  unfold loopBody
  dsimp only
  split_ifs <;> simp [hasValid, h, m0]

theorem loop_fAny (F : NumGet F32) (U : NumGet ℕ) (junk : ℕ) :
    ∀ (n : ℕ) (d : Driver), d.fAny = hasValid d.m →
      (loop F U junk n d).fAny = hasValid (loop F U junk n d).m := by
  intro n
  induction n with
  | zero => intro d h; exact h
  | succ n ih =>
    intro d h
    by_cases hg : d.cin.good = true
    · rw [loop_succ_of_good F U junk n d hg]
      exact ih _ (loopBody_fAny F U junk d h)
    · have hg' : d.cin.good = false := by simpa using hg
      rw [loop_of_not_good F U junk _ d hg']; exact h

theorem loopBody_Vbat (F : NumGet F32) (U : NumGet ℕ) (junk : ℕ) (d : Driver)
    (h : (d.cin.getString "").2 = "Vbat") :
    loopBody F U junk d =
      { d with cin := ((d.cin.getString "").1.get F d.m.Vbat.v).1, key := "Vbat",
               m := { d.m with Vbat := ⟨true, ((d.cin.getString "").1.get F d.m.Vbat.v).2⟩ },
               fAny := true } := by
  unfold loopBody
  dsimp only
  rw [if_pos h, h, Bool.or_true]

theorem loopBody_Vbus (F : NumGet F32) (U : NumGet ℕ) (junk : ℕ) (d : Driver)
    (h : (d.cin.getString "").2 = "Vbus") :
    loopBody F U junk d =
      { d with cin := ((d.cin.getString "").1.get F d.m.Vbus.v).1, key := "Vbus",
               m := { d.m with Vbus := ⟨true, ((d.cin.getString "").1.get F d.m.Vbus.v).2⟩ },
               fAny := true } := by
  unfold loopBody
  dsimp only
  rw [if_neg (by rw [h]; decide), if_pos h, h, Bool.or_true]

theorem loopBody_Boot (F : NumGet F32) (U : NumGet ℕ) (junk : ℕ) (d : Driver)
    (h : (d.cin.getString "").2 = "Boot") :
    loopBody F U junk d =
      { d with cin := ((d.cin.getString "").1.get U junk).1, key := "Boot",
               m := { d.m with
                 Boot := ⟨true, Fin.ofNat ((d.cin.getString "").1.get U junk).2⟩ },
               fAny := true } := by
  unfold loopBody
  dsimp only
  rw [if_neg (by rw [h]; decide), if_neg (by rw [h]; decide), if_pos h, h, Bool.or_true]

theorem loopBody_CompostTemp (F : NumGet F32) (U : NumGet ℕ) (junk : ℕ) (d : Driver)
    (h : (d.cin.getString "").2 = "CompostTemp") :
    loopBody F U junk d =
      { d with cin := ((d.cin.getString "").1.get F d.m.CompostTemp.v.t).1,
               key := "CompostTemp",
               m := { d.m with CompostTemp :=
                 ⟨true, ⟨((d.cin.getString "").1.get F d.m.CompostTemp.v.t).2⟩⟩ },
               fAny := true } := by
  unfold loopBody
  dsimp only
  rw [if_neg (by rw [h]; decide), if_neg (by rw [h]; decide), if_neg (by rw [h]; decide),
    if_pos h, h, Bool.or_true]

theorem loopBody_dot (F : NumGet F32) (U : NumGet ℕ) (junk : ℕ) (d : Driver)
    (h : (d.cin.getString "").2 = ".") :
    loopBody F U junk d =
      { cin := (d.cin.getString "").1, cout := (putTestVector d.cout d.m).1, cerr := d.cerr,
        key := ".", m := m0, fAny := false } := by
  unfold loopBody
  dsimp only
  rw [if_neg (by rw [h]; decide), if_neg (by rw [h]; decide), if_neg (by rw [h]; decide),
    if_neg (by rw [h]; decide), if_pos h, h]

theorem loopBody_empty (F : NumGet F32) (U : NumGet ℕ) (junk : ℕ) (d : Driver)
    (h : (d.cin.getString "").2 = "") :
    loopBody F U junk d = { d with cin := (d.cin.getString "").1, key := "" } := by
  unfold loopBody
  dsimp only
  rw [if_neg (by rw [h]; decide), if_neg (by rw [h]; decide), if_neg (by rw [h]; decide),
    if_neg (by rw [h]; decide), if_neg (by rw [h]; decide), if_pos h, h]

theorem loopBody_unknown (F : NumGet F32) (U : NumGet ℕ) (junk : ℕ) (d : Driver)
    (h0 : (d.cin.getString "").2 ≠ "") (h1 : (d.cin.getString "").2 ≠ "Vbat")
    (h2 : (d.cin.getString "").2 ≠ "Vbus") (h3 : (d.cin.getString "").2 ≠ "Boot")
    (h4 : (d.cin.getString "").2 ≠ "CompostTemp") (h5 : (d.cin.getString "").2 ≠ ".") :
    loopBody F U junk d =
      { d with cin := (d.cin.getString "").1, key := (d.cin.getString "").2,
               cerr := d.cerr ++ "unknown key: " ++ (d.cin.getString "").2 ++ "\n" } := by
  unfold loopBody
  dsimp only
  rw [if_neg h1, if_neg h2, if_neg h3, if_neg h4, if_neg h5, if_neg h0]

/-- An iteration from a good stream that ends with `failbit` and without `eofbit` read the
key of a value and failed to convert the value; it wrote nothing. -/
theorem loopBody_bad (F : NumGet F32) (U : NumGet ℕ) (junk : ℕ) (d : Driver)
    (hg : d.cin.good = true) (h1 : (loopBody F U junk d).cin.failbit = true)
    (h2 : (loopBody F U junk d).cin.eofbit = false) :
    ((d.cin.getString "").2 = "Vbat" ∨ (d.cin.getString "").2 = "Vbus" ∨
      (d.cin.getString "").2 = "Boot" ∨ (d.cin.getString "").2 = "CompostTemp") ∧
    valueFails F U d = true ∧ (loopBody F U junk d).cout = d.cout ∧
    (loopBody F U junk d).cerr = d.cerr := by
  have hb := getString_bits d.cin "" hg
  have hk : ¬ ((d.cin.getString "").1.failbit = true ∧ (d.cin.getString "").1.eofbit = false) := by
    rintro ⟨a, b⟩
    rw [hb.1 a] at b
    exact absurd b (by simp)
  have key : ∀ {α : Type} (g : NumGet α) (x : α),
      ((d.cin.getString "").1.get g x).1.failbit = true →
      ((d.cin.getString "").1.get g x).1.eofbit = false →
      (d.cin.getString "").1.convFails g = true := by
    intro α g x a b
    obtain ⟨c1, c2, c3⟩ := get_failbit g _ x hb.2 a b
    simp [IStream.convFails, c1, c2, c3]
  by_cases k1 : (d.cin.getString "").2 = "Vbat"
  · rw [loopBody_Vbat F U junk d k1] at h1 h2 ⊢
    refine ⟨Or.inl k1, ?_, rfl, rfl⟩
    unfold valueFails
    rw [hg, if_pos (Or.inl k1), key F _ h1 h2]; rfl
  by_cases k2 : (d.cin.getString "").2 = "Vbus"
  · rw [loopBody_Vbus F U junk d k2] at h1 h2 ⊢
    refine ⟨Or.inr (Or.inl k2), ?_, rfl, rfl⟩
    unfold valueFails
    rw [hg, if_pos (Or.inr (Or.inl k2)), key F _ h1 h2]; rfl
  by_cases k3 : (d.cin.getString "").2 = "Boot"
  · rw [loopBody_Boot F U junk d k3] at h1 h2 ⊢
    refine ⟨Or.inr (Or.inr (Or.inl k3)), ?_, rfl, rfl⟩
    unfold valueFails
    rw [hg, if_neg (by rw [k3]; decide), if_pos k3, key U _ h1 h2]; rfl
  by_cases k4 : (d.cin.getString "").2 = "CompostTemp"
  · rw [loopBody_CompostTemp F U junk d k4] at h1 h2 ⊢
    refine ⟨Or.inr (Or.inr (Or.inr k4)), ?_, rfl, rfl⟩
    unfold valueFails
    rw [hg, if_pos (Or.inr (Or.inr k4)), key F _ h1 h2]; rfl
  by_cases k5 : (d.cin.getString "").2 = "."
  · rw [loopBody_dot F U junk d k5] at h1 h2
    exact absurd ⟨h1, h2⟩ hk
  by_cases k6 : (d.cin.getString "").2 = ""
  · rw [loopBody_empty F U junk d k6] at h1 h2
    exact absurd ⟨h1, h2⟩ hk
  · rw [loopBody_unknown F U junk d k6 k1 k2 k3 k4 k5] at h1 h2
    exact absurd ⟨h1, h2⟩ hk

/-- A loop that ends with `failbit` and without `eofbit` had an iteration that read the key
of a value and failed to convert the value. -/
theorem loop_bad (F : NumGet F32) (U : NumGet ℕ) (junk : ℕ) :
    ∀ (n : ℕ) (d : Driver), (loop F U junk n d).cin.failbit = true →
      (loop F U junk n d).cin.eofbit = false →
      ¬ (d.cin.failbit = true ∧ d.cin.eofbit = false) →
      ∃ k, valueFails F U (loop F U junk k d) = true := by
  intro n
  induction n with
  | zero => intro d h1 h2 h3; exact absurd ⟨h1, h2⟩ h3
  | succ n ih =>
    intro d h1 h2 h3
    by_cases hg : d.cin.good = true
    · rw [loop_succ_of_good F U junk n d hg] at h1 h2
      by_cases hb : (loopBody F U junk d).cin.failbit = true ∧
          (loopBody F U junk d).cin.eofbit = false
      · exact ⟨0, (loopBody_bad F U junk d hg hb.1 hb.2).2.1⟩
      · obtain ⟨k, hk⟩ := ih _ h1 h2 hb
        exact ⟨k + 1, by rw [loop_succ_of_good F U junk k d hg]; exact hk⟩
    · have hg' : d.cin.good = false := by simpa using hg
      rw [loop_of_not_good F U junk _ d hg'] at h1 h2
      exact absurd ⟨h1, h2⟩ h3

theorem finish_status (d : Driver) :
    (finish d).status = if d.cin.failbit = true ∧ d.cin.eofbit = false then 1 else 0 := by
  unfold finish
  rcases h1 : d.cin.failbit <;> rcases h2 : d.cin.eofbit <;> simp <;> split_ifs <;> rfl

/-- The part after the loop when the loop was not left in failure before the end. -/
theorem finish_clean (d : Driver) (h : ¬ (d.cin.failbit = true ∧ d.cin.eofbit = false))
    (hf : d.fAny = hasValid d.m) :
    finish d = { status := 0,
                 cout := if hasValid d.m = true then (putTestVector d.cout d.m).1 else d.cout,
                 cerr := d.cerr } := by
  unfold finish
  rw [← hf]
  rcases h1 : d.cin.failbit <;> rcases h2 : d.cin.eofbit <;> simp [h1, h2] at h ⊢ <;>
    split_ifs <;> rfl

/-- The part after the loop when the loop was left in failure before the end. -/
theorem finish_failed (d : Driver) (h1 : d.cin.failbit = true) (h2 : d.cin.eofbit = false) :
    finish d = { status := 1, cout := d.cout,
                 cerr := d.cerr ++ "parse error: " ++
                   (IStream.getString { d.cin with eofbit := false, failbit := false } "").2 ++
                   "\n" } := by
  unfold finish
  simp [h1, h2]

/-- A value whose conversion fails sets `failbit`. -/
theorem valueFails_failbit (F : NumGet F32) (U : NumGet ℕ) (junk : ℕ) (d : Driver)
    (h : valueFails F U d = true) : (loopBody F U junk d).cin.failbit = true := by
  have key : ∀ {α : Type} (g : NumGet α) (x : α),
      (d.cin.getString "").1.convFails g = true →
      ((d.cin.getString "").1.get g x).1.failbit = true := by
    intro α g x hc
    unfold IStream.convFails at hc
    simp only [Bool.and_eq_true, Bool.not_eq_true', List.isEmpty_eq_true] at hc
    unfold IStream.get
    rw [if_pos hc.1.1, if_neg (by simp [hc.1.2])]
    simp [hc.2]
  unfold valueFails at h
  simp only [Bool.and_eq_true] at h
  obtain ⟨_, h⟩ := h
  by_cases k1 : (d.cin.getString "").2 = "Vbat"
  · rw [if_pos (Or.inl k1)] at h
    rw [loopBody_Vbat F U junk d k1]; exact key F _ h
  by_cases k2 : (d.cin.getString "").2 = "Vbus"
  · rw [if_pos (Or.inr (Or.inl k2))] at h
    rw [loopBody_Vbus F U junk d k2]; exact key F _ h
  by_cases k4 : (d.cin.getString "").2 = "CompostTemp"
  · rw [if_pos (Or.inr (Or.inr k4))] at h
    rw [loopBody_CompostTemp F U junk d k4]; exact key F _ h
  rw [if_neg (by rintro (a | a | a) <;> contradiction)] at h
  by_cases k3 : (d.cin.getString "").2 = "Boot"
  · rw [if_pos k3] at h
    rw [loopBody_Boot F U junk d k3]; exact key U _ h
  · rw [if_neg k3] at h
    exact absurd h (by simp)

/-- What the next iterations read does not depend on what has been written. -/
theorem loopBody_core (F : NumGet F32) (U : NumGet ℕ) (junk : ℕ) (d1 d2 : Driver)
    (h1 : d1.cin = d2.cin) (h2 : d1.m = d2.m) (h3 : d1.fAny = d2.fAny) :
    (loopBody F U junk d1).cin = (loopBody F U junk d2).cin ∧
    (loopBody F U junk d1).m = (loopBody F U junk d2).m ∧
    (loopBody F U junk d1).fAny = (loopBody F U junk d2).fAny := by
  unfold loopBody
  dsimp only
  rw [h1, h2, h3]
  split_ifs <;> exact ⟨rfl, rfl, rfl⟩

theorem loop_core (F : NumGet F32) (U : NumGet ℕ) (junk : ℕ) :
    ∀ (n : ℕ) (d1 d2 : Driver), d1.cin = d2.cin → d1.m = d2.m → d1.fAny = d2.fAny →
      (loop F U junk n d1).cin = (loop F U junk n d2).cin ∧
      (loop F U junk n d1).m = (loop F U junk n d2).m ∧
      (loop F U junk n d1).fAny = (loop F U junk n d2).fAny := by
  intro n
  induction n with
  | zero => intro d1 d2 h1 h2 h3; exact ⟨h1, h2, h3⟩
  | succ n ih =>
    intro d1 d2 h1 h2 h3
    by_cases hg : d1.cin.good = true
    · rw [loop_succ_of_good F U junk n d1 hg, loop_succ_of_good F U junk n d2 (h1 ▸ hg)]
      obtain ⟨a, b, c⟩ := loopBody_core F U junk d1 d2 h1 h2 h3
      exact ih _ _ a b c
    · have hg' : d1.cin.good = false := by simpa using hg
      rw [loop_of_not_good F U junk _ d1 hg', loop_of_not_good F U junk _ d2 (h1 ▸ hg')]
      exact ⟨h1, h2, h3⟩

theorem put_hex (o : OStream) (s : String) : (o.put s).hex = o.hex := rfl

theorem putBytes_hex : ∀ (vs : List ℕ) (o : OStream) (fFirst : Bool), o.hex = true →
    (putBytes o fFirst vs).hex = true := by
  intro vs
  induction vs with
  | nil => intro o _ h; exact h
  | cons v vs ih => intro o fFirst _; exact ih _ false rfl

/-- After a test vector the base of `std::cout` is hexadecimal. -/
theorem putTestVector_hex (o : OStream) (m : Measurements) : (putTestVector o m).1.hex = true := by
  unfold putTestVector
  dsimp only
  rw [put_hex, encodeMeasurement_eq]
  exact putBytes_hex _ _ false rfl

/-! ### decimal numerals -/

theorem digitChar_toNat {k : ℕ} (h : k < 10) : (Nat.digitChar k).toNat = 48 + k := by
  interval_cases k <;> rfl

theorem digitsValue_append_singleton (l : List Char) (c : Char) :
    digitsValue (l ++ [c]) = 10 * digitsValue l + (c.toNat - 48) := by
  unfold digitsValue
  rw [List.foldl_append]
  rfl

theorem toDigitsCore_spec : ∀ (fuel n : ℕ) (ds : List Char), n < fuel →
    ∃ l, Nat.toDigitsCore 10 fuel n ds = l ++ ds ∧ l ≠ [] ∧
      (∀ c ∈ l, isDigit c = true) ∧ digitsValue l = n := by
  intro fuel
  induction fuel with
  | zero => intro n ds h; omega
  | succ fuel ih =>
    intro n ds h
    have hd : n % 10 < 10 := Nat.mod_lt _ (by norm_num)
    have hdig : isDigit (Nat.digitChar (n % 10)) = true := by
      unfold isDigit
      rw [digitChar_toNat hd]
      simp
      omega
    rw [Nat.toDigitsCore]
    by_cases h0 : n / 10 = 0
    · simp only [h0, if_true]
      refine ⟨[Nat.digitChar (n % 10)], rfl, by simp, ?_, ?_⟩
      · intro c hc
        rw [List.mem_singleton] at hc
        rw [hc]; exact hdig
      · have := digitsValue_append_singleton [] (Nat.digitChar (n % 10))
        simp only [List.nil_append] at this
        rw [this, digitChar_toNat hd]
        have : digitsValue [] = 0 := rfl
        rw [this]
        omega
    · simp only [h0, if_false]
      obtain ⟨l, hl, hne, hdl, hv⟩ := ih (n / 10) (Nat.digitChar (n % 10) :: ds) (by omega)
      refine ⟨l ++ [Nat.digitChar (n % 10)], ?_, by simp, ?_, ?_⟩
      · rw [hl]; simp
      · intro c hc
        rw [List.mem_append, List.mem_singleton] at hc
        rcases hc with hc | hc
        · exact hdl c hc
        · rw [hc]; exact hdig
      · rw [digitsValue_append_singleton, hv, digitChar_toNat hd]
        omega

/-- The decimal numeral of a number: digits, at least one, that denote the number. -/
theorem toDigits_spec (n : ℕ) :
    Nat.toDigits 10 n ≠ [] ∧ (∀ c ∈ Nat.toDigits 10 n, isDigit c = true) ∧
    digitsValue (Nat.toDigits 10 n) = n := by
  obtain ⟨l, hl, hne, hdl, hv⟩ := toDigitsCore_spec (n + 1) n [] (by omega)
  rw [List.append_nil] at hl
  unfold Nat.toDigits
  rw [hl]
  exact ⟨hne, hdl, hv⟩

theorem takeWhile_append_stop {p : Char → Bool} :
    ∀ (l rest : List Char), (∀ c ∈ l, p c = true) → (∀ c ∈ rest.head?, p c = false) →
      (l ++ rest).takeWhile p = l := by
  intro l
  induction l with
  | nil =>
    intro rest _ hr
    cases rest with
    | nil => rfl
    | cons a t =>
      have := hr a (by simp)
      simp [List.takeWhile, this]
  | cons a t ih =>
    intro rest hl hr
    have ha := hl a (by simp)
    rw [List.cons_append, List.takeWhile_cons_of_pos ha,
      ih rest (fun c hc => hl c (by simp [hc])) hr]

theorem isDigit_not_sign {c : Char} (h : isDigit c = true) : isSign c = false := by
  unfold isDigit at h
  unfold isSign
  simp at h ⊢
  omega

theorem isDigit_not_space {c : Char} (h : isDigit c = true) : isSpace c = false := by
  unfold isDigit at h
  unfold isSpace
  simp at h ⊢
  omega

/-- The facet `cinU32` reads a run of digits that denotes a number below `2^32` as that
number. -/
theorem cinU32_digits (l rest : List Char) (hne : l ≠ []) (hl : ∀ c ∈ l, isDigit c = true)
    (hr : ∀ c ∈ rest.head?, isDigit c = false) (hv : digitsValue l < 2 ^ 32) :
    cinU32.scan (l ++ rest) = l.length ∧ cinU32.conv l = (digitsValue l, true) ∧
    (' ' :: (l ++ rest)).dropWhile isSpace = l ++ rest ∧ (l ++ rest).isEmpty = false := by
  obtain ⟨c, t, rfl⟩ := List.exists_cons_of_ne_nil hne
  have hc := hl c (by simp)
  have hs := isDigit_not_sign hc
  have hsp := isDigit_not_space hc
  have hd1 : dropSign (c :: t ++ rest) = c :: t ++ rest := by
    simp [dropSign, hs]
  have hd2 : dropSign (c :: t) = c :: t := by
    simp [dropSign, hs]
  have hminus : ¬ (c :: t).head? = some '-' := by
    intro h
    simp at h
    rw [h] at hs
    exact absurd hs (by decide)
  refine ⟨?_, ?_, ?_, by simp⟩
  · show (_ - _) + _ = _
    rw [hd1, takeWhile_append_stop _ _ hl hr]
    simp
  · show (if _ then _ else _) = _
    rw [hd2, if_neg (by simp), if_pos hv, if_neg hminus]
  · have h1 : isSpace ' ' = true := by decide
    rw [List.dropWhile_cons_of_pos h1]
    simp only [List.cons_append]
    rw [List.dropWhile_cons_of_neg (by simp [hsp])]

/-- The extraction of a decimal numeral below `2^32` by `cinU32` stores the number. -/
theorem get_cinU32_numeral (n junk : ℕ) (hn : n < 2 ^ 32) (rest : List Char)
    (hr : ∀ c ∈ rest.head?, isDigit c = false) :
    IStream.get cinU32 ⟨' ' :: (Nat.toDigits 10 n ++ rest), false, false⟩ junk =
      (⟨rest, rest.isEmpty, false⟩, n) := by
  obtain ⟨hne, hl, hv⟩ := toDigits_spec n
  obtain ⟨h1, h2, h3, h4⟩ := cinU32_digits (Nat.toDigits 10 n) rest hne hl hr (by rw [hv]; exact hn)
  rw [hv] at h2
  exact get_eval cinU32 _ rest _ junk n true h3 h4 h1 h2

/-! ### evaluation of runs -/

theorem runFrom_Boot_eval (F : NumGet F32) (U : NumGet ℕ) (junk : ℕ) (cs : List Char) (s1 s2 : IStream)
    (cout : OStream) (cerr key : String) (m : Measurements) (fAny : Bool) (v : ℕ)
    (hk : IStream.getString ⟨cs, false, false⟩ "" = (s1, "Boot"))
    (hv : s1.get U junk = (s2, v)) :
    runFrom F U junk ⟨⟨cs, false, false⟩, cout, cerr, key, m, fAny⟩ =
      runFrom F U junk ⟨s2, cout, cerr, "Boot", { m with Boot := ⟨true, Fin.ofNat v⟩ }, true⟩ := by
  have h : ((Driver.mk ⟨cs, false, false⟩ cout cerr key m fAny).cin.getString "").2 = "Boot" := by
    show (IStream.getString ⟨cs, false, false⟩ "").2 = "Boot"
    rw [hk]
  rw [runFrom_step F U junk (Driver.mk ⟨cs, false, false⟩ cout cerr key m fAny) rfl, loopBody_Boot F U junk _ h]
  show runFrom F U junk ⟨((IStream.getString ⟨cs, false, false⟩ "").1.get U junk).1, cout, cerr, "Boot",
    { m with Boot := ⟨true, Fin.ofNat ((IStream.getString ⟨cs, false, false⟩ "").1.get U junk).2⟩ }, true⟩ = _
  rw [hk]
  show runFrom F U junk ⟨(s1.get U junk).1, cout, cerr, "Boot",
    { m with Boot := ⟨true, Fin.ofNat (s1.get U junk).2⟩ }, true⟩ = _
  rw [hv]

theorem runFrom_dot_eval (F : NumGet F32) (U : NumGet ℕ) (junk : ℕ) (cs : List Char) (s1 : IStream)
    (cout : OStream) (cerr key : String) (m : Measurements) (fAny : Bool)
    (hk : IStream.getString ⟨cs, false, false⟩ "" = (s1, ".")) :
    runFrom F U junk ⟨⟨cs, false, false⟩, cout, cerr, key, m, fAny⟩ =
      runFrom F U junk ⟨s1, (putTestVector cout m).1, cerr, ".", m0, false⟩ := by
  have h : ((Driver.mk ⟨cs, false, false⟩ cout cerr key m fAny).cin.getString "").2 = "." := by
    show (IStream.getString ⟨cs, false, false⟩ "").2 = "."
    rw [hk]
  rw [runFrom_step F U junk (Driver.mk ⟨cs, false, false⟩ cout cerr key m fAny) rfl, loopBody_dot F U junk _ h]
  show runFrom F U junk ⟨(IStream.getString ⟨cs, false, false⟩ "").1, (putTestVector cout m).1, cerr, ".", m0, false⟩ = _
  rw [hk]

/-- The end of a run at the end of the input, with no record pending. -/
theorem runFrom_end (F : NumGet F32) (U : NumGet ℕ) (junk : ℕ) (cs : List Char)
    (cout : OStream) (cerr key : String) (m : Measurements) :
    runFrom F U junk ⟨⟨cs, true, false⟩, cout, cerr, key, m, false⟩ =
      { status := 0, cout := cout, cerr := cerr } := by
  rw [runFrom_done F U junk ⟨⟨cs, true, false⟩, cout, cerr, key, m, false⟩ rfl]
  rfl

theorem putTestVector_eq (o : OStream) (m : Measurements) :
    (putTestVector o m).1 =
      (putBytes (logMeasurement o m).1 true (encodeMeasurement [] m).1).put "\n" := rfl

/-- The run on the input `Boot n .` for the decimal numeral of a number below `2^32`. -/
theorem main_Boot_numeral (junk n : ℕ) (hn : n < 2 ^ 32) :
    main cinFloat cinU32 junk ("Boot ".toList ++ ((showUnsigned false n).toList ++ " .".toList)) =
      { status := 0,
        cout := (putTestVector (OStream.put ⟨[], false⟩ banner)
          { m0 with Boot := ⟨true, Fin.ofNat n⟩ }).1,
        cerr := "" } := by
  unfold main initial
  rw [runFrom_Boot_eval cinFloat cinU32 junk
      ("Boot ".toList ++ ((showUnsigned false n).toList ++ " .".toList))
      ⟨' ' :: (Nat.toDigits 10 n ++ " .".toList), false, false⟩
      ⟨" .".toList, false, false⟩ _ _ _ _ _ n rfl
      (get_cinU32_numeral n junk hn " .".toList (by decide)),
    runFrom_dot_eval cinFloat cinU32 junk " .".toList ⟨[], true, false⟩ _ _ _ _ _ (by decide),
    runFrom_end]

theorem main_eq_finish (F : NumGet F32) (U : NumGet ℕ) (junk : ℕ) (input : List Char) :
    main F U junk input = finish (loop F U junk (input.length + 1) (initial input)) := rfl

/-- A run in which no value fails to convert ends without `failbit` before the end. -/
theorem loop_clean (F : NumGet F32) (U : NumGet ℕ) (junk : ℕ) (input : List Char)
    (h : ∀ n, valueFails F U (loop F U junk n (initial input)) = false) (n : ℕ) :
    ¬ ((loop F U junk n (initial input)).cin.failbit = true ∧
      (loop F U junk n (initial input)).cin.eofbit = false) := by
  rintro ⟨h1, h2⟩
  obtain ⟨k, hk⟩ := loop_bad F U junk n (initial input) h1 h2 (by rintro ⟨a, _⟩; exact Bool.false_ne_true a)
  rw [h k] at hk
  exact absurd hk (by decide)

/-! ## two runs of the driver -/

theorem Out.after_append (l w1 w2 : List Out) :
    Out.after l (w1 ++ w2) = Out.after (Out.after l w1) w2 := by
  unfold Out.after
  rw [List.foldl_append]

theorem SameWrites.put {o1 o2 p1 p2 : OStream} (h : SameWrites o1 o2 p1 p2) (s : String) :
    SameWrites o1 o2 (p1.put s) (p2.put s) := by
  obtain ⟨hh, W, h1, h2⟩ := h
  refine ⟨hh, W ++ [Out.text s], ?_, ?_⟩
  · rw [Out.after_append, ← h1]; rfl
  · rw [Out.after_append, ← h2]; rfl

theorem SameWrites.putFloat {o1 o2 p1 p2 : OStream} (h : SameWrites o1 o2 p1 p2) (v : F32) :
    SameWrites o1 o2 (p1.putFloat v) (p2.putFloat v) := by
  obtain ⟨hh, W, h1, h2⟩ := h
  refine ⟨hh, W ++ [Out.float v], ?_, ?_⟩
  · rw [Out.after_append, ← h1]; rfl
  · rw [Out.after_append, ← h2]; rfl

theorem SameWrites.putUnsigned {o1 o2 p1 p2 : OStream} (h : SameWrites o1 o2 p1 p2) (n : ℕ) :
    SameWrites o1 o2 (p1.putUnsigned n) (p2.putUnsigned n) := by
  unfold OStream.putUnsigned
  rw [h.1]
  exact h.put _

theorem SameWrites.putUnsigned2 {o1 o2 p1 p2 : OStream} (h : SameWrites o1 o2 p1 p2) (n : ℕ) :
    SameWrites o1 o2 (p1.putUnsigned2 n) (p2.putUnsigned2 n) := by
  unfold OStream.putUnsigned2
  rw [h.1]
  exact h.put _

theorem SameWrites.setHex {o1 o2 p1 p2 : OStream} (h : SameWrites o1 o2 p1 p2) (b : Bool) :
    SameWrites o1 o2 { p1 with hex := b } { p2 with hex := b } :=
  ⟨rfl, h.2⟩

theorem SameWrites.logMeasurement {o1 o2 p1 p2 : OStream} (h : SameWrites o1 o2 p1 p2)
    (m : Measurements) :
    SameWrites o1 o2 (logMeasurement p1 m).1 (logMeasurement p2 m).1 := by
  unfold Model4925.logMeasurement
  dsimp only
  generalize m.Vbat.fValid = a
  generalize m.Vbus.fValid = b
  generalize m.Boot.fValid = c
  generalize m.CompostTemp.fValid = d
  cases a <;> cases b <;> cases c <;> cases d <;>
    simp only [if_true, if_false, padGet, Bool.false_eq_true] <;>
    repeat (with_reducible first
      | exact h
      | apply SameWrites.put
      | apply SameWrites.putFloat
      | apply SameWrites.putUnsigned)

theorem SameWrites.putBytes {o1 o2 : OStream} :
    ∀ (vs : List ℕ) (p1 p2 : OStream) (fFirst : Bool), SameWrites o1 o2 p1 p2 →
      SameWrites o1 o2 (putBytes p1 fFirst vs) (putBytes p2 fFirst vs) := by
  intro vs
  induction vs with
  | nil => intro p1 p2 _ h; exact h
  | cons v vs ih =>
    intro p1 p2 fFirst h
    unfold Model4925.putBytes
    apply ih
    apply SameWrites.putUnsigned2
    apply SameWrites.setHex
    cases fFirst
    · exact h.put _
    · exact h

theorem SameWrites.putTestVector {o1 o2 p1 p2 : OStream} (h : SameWrites o1 o2 p1 p2)
    (m : Measurements) :
    SameWrites o1 o2 (putTestVector p1 m).1 (putTestVector p2 m).1 := by
  rw [putTestVector_eq, putTestVector_eq]
  exact (SameWrites.putBytes _ _ _ true (h.logMeasurement m)).put _

/-- C1: for every record and every initial buffer, the buffer built by `encodeMeasurement`
has byte 0 equal to `0x2B`, byte 1 equal to the OR of the bits 1, 2, 4, 8 of the valid fields
`Vbat`, `Vbus`, `Boot`, `CompostTemp`, and length 2 plus the widths 2, 2, 1, 2 of the valid
fields; the empty record gives `2b 00` and the record `Boot 7` gives `2b 04 07`. -/
theorem encodeMeasurement_layout (buf : Buffer) (m : Measurements) :
    (encodeMeasurement buf m).1[0]? = some 0x2B ∧
    (encodeMeasurement buf m).1[1]? = some
      ((if m.Vbat.fValid then 1 else 0) ||| (if m.Vbus.fValid then 2 else 0) |||
        (if m.Boot.fValid then 4 else 0) ||| (if m.CompostTemp.fValid then 8 else 0)) ∧
    (encodeMeasurement buf m).1.length =
      2 + 2 * (if m.Vbat.fValid then 1 else 0) + 2 * (if m.Vbus.fValid then 1 else 0) +
        1 * (if m.Boot.fValid then 1 else 0) + 2 * (if m.CompostTemp.fValid then 1 else 0) ∧
    (encodeMeasurement buf m0).1 = [0x2B, 0x00] ∧
    (encodeMeasurement buf recordB).1 = [0x2B, 0x04, 0x07] := by
  refine ⟨?_, ?_, ?_, ?_, ?_⟩
  · rw [encodeMeasurement_eq]; simp
  · rw [encodeMeasurement_eq]; simp
  · exact encodeMeasurement_length buf m
  · rw [encodeMeasurement_of_fields buf m0 false false false false (F32.fin 0) (F32.fin 0)
      (F32.fin 0) 0 rfl rfl rfl rfl]
    decide
  · rw [encodeMeasurement_of_fields buf recordB false false true false (F32.fin 0) (F32.fin 0)
      (F32.fin 0) 7 rfl rfl rfl rfl]
    decide

/-- C2: the bytes after the two header bytes are the concatenation, in the order `Vbat`,
`Vbus`, `Boot`, `CompostTemp`, of the big-endian code `encodeV` of a valid voltage, the raw
byte of a valid `Boot` and the big-endian code `encodeT` of a valid temperature, nothing for
an invalid field; `encodeV` and `encodeT` are `encode16s` of the single precision products
by 4096 and 256, which on binary32 values equal `encode16s` of the exact products; the
record `Vbat 3.3 Vbus 5.0` gives `2b 03 34 cd 50 00`. -/
theorem encodeMeasurement_fields (buf : Buffer) (m : Measurements) :
    (encodeMeasurement buf m).1.drop 2 =
      (if m.Vbat.fValid then [encodeV m.Vbat.v >>> 8, encodeV m.Vbat.v &&& 0xFF] else []) ++
      (if m.Vbus.fValid then [encodeV m.Vbus.v >>> 8, encodeV m.Vbus.v &&& 0xFF] else []) ++
      (if m.Boot.fValid then [m.Boot.v.val] else []) ++
      (if m.CompostTemp.fValid then
        [encodeT m.CompostTemp.v.t >>> 8, encodeT m.CompostTemp.v.t &&& 0xFF] else []) ∧
    (∀ v : F32, encodeV v = encode16s (F32.mul v 4096) ∧
      encodeT v = encode16s (F32.mul v 256)) ∧
    (∀ q : ℚ, isF32 q → encodeV (F32.fin q) = encode16s (F32.fin (4096 * q)) ∧
      encodeT (F32.fin q) = encode16s (F32.fin (256 * q))) ∧
    (encodeMeasurement buf recordA).1 = [0x2B, 0x03, 0x34, 0xCD, 0x50, 0x00] := by
  refine ⟨?_, fun v => ⟨rfl, rfl⟩, fun q hq => encodeV_eq_encode16s_exact hq, ?_⟩
  · rw [encodeMeasurement_eq]; simp
  · rw [encodeMeasurement_of_fields buf recordA true true false false (F32.ofRat (33 / 10))
      (F32.fin 5) (F32.fin 0) 0 rfl rfl rfl rfl, bytes_3_3.1, bytes_3_3.2, bytes_5.1, bytes_5.2]
    decide

/-- Witness of C2: the binary32 value of `3.3` is scaled exactly. -/
theorem encodeMeasurement_fields_witness :
    isF32 (13841203 / 4194304 : ℚ) ∧
    encodeV (F32.fin (13841203 / 4194304)) =
      encode16s (F32.fin (4096 * (13841203 / 4194304))) :=
  ⟨isF32_3_3, ((encodeMeasurement_fields [] recordA).2.2.1 _ isF32_3_3).1⟩

/-- C3: scenario C, the record `Vbat 3.3 Boot 7 CompostTemp 25.5` (`Vbus` invalid), encodes
as the seven bytes `2b 0d 34 cd 07 19 80`. -/
theorem encodeMeasurement_scenario_C (buf : Buffer) :
    (encodeMeasurement buf recordC).1 = [0x2B, 0x0D, 0x34, 0xCD, 0x07, 0x19, 0x80] := by
  rw [encodeMeasurement_of_fields buf recordC true false true true (F32.ofRat (33 / 10))
    (F32.fin 0) (F32.fin (51 / 2)) 7 rfl rfl rfl rfl, bytes_3_3.1, bytes_3_3.2, bytes_25_5.1,
    bytes_25_5.2]
  decide

/-- C4: the scaled codecs saturate: with `n = floor(v + 1/2)` for the exact value `v` of a
finite input, `encode16s` gives `0x7FFF` when `n > 32767` and `0x8000` when `n < -32768`;
`encode16u` gives `0xFFFF` when `n > 65535` and `0` when `n < 0`. -/
theorem encode16_saturation (v : ℚ) :
    (32767 < ⌊v + 1 / 2⌋ → encode16s (F32.fin v) = 0x7FFF) ∧
    (⌊v + 1 / 2⌋ < -32768 → encode16s (F32.fin v) = 0x8000) ∧
    (65535 < ⌊v + 1 / 2⌋ → encode16u (F32.fin v) = 0xFFFF) ∧
    (⌊v + 1 / 2⌋ < 0 → encode16u (F32.fin v) = 0) :=
  sat16_cases v

/-- Witness of C4: the inputs 40000, -40000, 70000 and -3. -/
theorem encode16_saturation_witness :
    encode16s (F32.fin 40000) = 0x7FFF ∧ encode16s (F32.fin (-40000)) = 0x8000 ∧
    encode16u (F32.fin 70000) = 0xFFFF ∧ encode16u (F32.fin (-3)) = 0 :=
  ⟨(encode16_saturation 40000).1
      (by rw [show ⌊(40000 : ℚ) + 1 / 2⌋ = 40000 by rw [Int.floor_eq_iff]; norm_num]; norm_num),
    (encode16_saturation (-40000)).2.1
      (by rw [show ⌊(-40000 : ℚ) + 1 / 2⌋ = -40000 by rw [Int.floor_eq_iff]; norm_num]; norm_num),
    (encode16_saturation 70000).2.2.1
      (by rw [show ⌊(70000 : ℚ) + 1 / 2⌋ = 70000 by rw [Int.floor_eq_iff]; norm_num]; norm_num),
    (encode16_saturation (-3)).2.2.2
      (by rw [show ⌊(-3 : ℚ) + 1 / 2⌋ = -3 by rw [Int.floor_eq_iff]; norm_num]; norm_num)⟩

/-- C5 (counterexample): at the binary32 value `0.5 - 2^-25`, whose exact rounding
`floor(v + 1/2)` is 0 and in range, `encode16s` gives 1: the single precision sum
`v + 0.5f` rounds up to `1.0`. -/
theorem encode16s_not_exact_rounding :
    isF32 (16777215 / 33554432 : ℚ) ∧
    -32768 ≤ ⌊(16777215 / 33554432 : ℚ) + 1 / 2⌋ ∧
    ⌊(16777215 / 33554432 : ℚ) + 1 / 2⌋ ≤ 32767 ∧
    encode16s (F32.fin (16777215 / 33554432)) = 1 ∧
    ¬ (encode16s (F32.fin (16777215 / 33554432)) =
        (⌊(16777215 / 33554432 : ℚ) + 1 / 2⌋ % 65536).toNat) := by
  have hfl : ⌊(16777215 / 33554432 : ℚ) + 1 / 2⌋ = 0 := by
    rw [Int.floor_eq_iff]; norm_num
  rw [hfl, encode16s_below_half]
  exact ⟨isF32_below_half, by norm_num, by norm_num, rfl, by decide⟩

/-- C5 (amended): for every binary32 input `v` other than `0.5 - 2^-25`, if
`floor(v + 1/2)` lies in `[-32768, 32767]` then `encode16s` gives its two's-complement
pattern `floor(v + 1/2) mod 65536`; and the signed 16-bit integer denoted by the result is
`floor(v + 1/2)` clamped to `[-32768, 32767]`. -/
theorem encode16s_rounding (v : ℚ) (hv : isF32 v) (hne : v ≠ 1 / 2 - 1 / 2 ^ 25) :
    (-32768 ≤ ⌊v + 1 / 2⌋ → ⌊v + 1 / 2⌋ ≤ 32767 →
      encode16s (F32.fin v) = (⌊v + 1 / 2⌋ % 65536).toNat) ∧
    toInt16 (encode16s (F32.fin v)) = max (-32768) (min ⌊v + 1 / 2⌋ 32767) := by
  refine ⟨fun h1 h2 => encode16s_of_in_range hv hne h1 h2, ?_⟩
  rcases lt_or_le 32767 ⌊v + 1 / 2⌋ with h | h
  · rw [(sat16_cases v).1 h, min_eq_right (le_of_lt h)]
    decide
  · rcases lt_or_le ⌊v + 1 / 2⌋ (-32768) with h' | h'
    · rw [(sat16_cases v).2.1 h', min_eq_left h, max_eq_left (le_of_lt h')]
      decide
    · rw [encode16s_of_in_range hv hne h' h, toInt16_toUInt16 h' h, min_eq_left h,
        max_eq_right h']

/-- Witness of C5 (amended): the binary32 value `2.5` has `floor(2.5 + 1/2) = 3` in range
and encodes as its pattern. -/
theorem encode16s_rounding_witness :
    isF32 (5 / 2 : ℚ) ∧ (5 / 2 : ℚ) ≠ 1 / 2 - 1 / 2 ^ 25 ∧
    -32768 ≤ ⌊(5 / 2 : ℚ) + 1 / 2⌋ ∧ ⌊(5 / 2 : ℚ) + 1 / 2⌋ ≤ 32767 ∧
    encode16s (F32.fin (5 / 2)) = (⌊(5 / 2 : ℚ) + 1 / 2⌋ % 65536).toNat ∧
    toInt16 (encode16s (F32.fin (5 / 2))) = max (-32768) (min ⌊(5 / 2 : ℚ) + 1 / 2⌋ 32767) :=
  have h : isF32 (5 / 2 : ℚ) :=
    ⟨⟨5, -1, by norm_num, by norm_num, by norm_num⟩, by rw [abs_lt]; constructor <;> norm_num⟩
  have hfl : ⌊(5 / 2 : ℚ) + 1 / 2⌋ = 3 := by rw [Int.floor_eq_iff]; norm_num
  have h1 : -32768 ≤ ⌊(5 / 2 : ℚ) + 1 / 2⌋ := by rw [hfl]; norm_num
  have h2 : ⌊(5 / 2 : ℚ) + 1 / 2⌋ ≤ 32767 := by rw [hfl]; norm_num
  ⟨h, by norm_num, h1, h2, (encode16s_rounding (5 / 2) h (by norm_num)).1 h1 h2,
    (encode16s_rounding (5 / 2) h (by norm_num)).2⟩

/-- C6: the compact floats saturate: `LMIC_f2uflt16` gives 0 for every input below 0 and
`0xFFFF` for every input at least 1; `LMIC_f2sflt16` gives `0xFFFF` for every input at most
-1 and `0x7FFF` for every input at least 1 (finite inputs and infinities). -/
theorem LMIC_saturation :
    (∀ q : ℚ, q < 0 → LMIC_f2uflt16 (F32.fin q) = 0) ∧ LMIC_f2uflt16 F32.ninf = 0 ∧
    (∀ q : ℚ, 1 ≤ q → LMIC_f2uflt16 (F32.fin q) = 0xFFFF) ∧
    LMIC_f2uflt16 F32.pinf = 0xFFFF ∧
    (∀ q : ℚ, q ≤ -1 → LMIC_f2sflt16 (F32.fin q) = 0xFFFF) ∧
    LMIC_f2sflt16 F32.ninf = 0xFFFF ∧
    (∀ q : ℚ, 1 ≤ q → LMIC_f2sflt16 (F32.fin q) = 0x7FFF) ∧
    LMIC_f2sflt16 F32.pinf = 0x7FFF :=
  lmic_sat_cases

/-- Witness of C6: the inputs -1/4, 2, -1 and 1. -/
theorem LMIC_saturation_witness :
    LMIC_f2uflt16 (F32.fin (-1 / 4)) = 0 ∧ LMIC_f2uflt16 (F32.fin 2) = 0xFFFF ∧
    LMIC_f2sflt16 (F32.fin (-1)) = 0xFFFF ∧ LMIC_f2sflt16 (F32.fin 1) = 0x7FFF :=
  ⟨LMIC_saturation.1 (-1 / 4) (by norm_num), LMIC_saturation.2.2.1 2 (by norm_num),
    LMIC_saturation.2.2.2.2.1 (-1) (by norm_num),
    LMIC_saturation.2.2.2.2.2.2.1 1 (by norm_num)⟩

/-- C7: rounding carry.  For `0 < |f| < 1` written `|f| = m * 2^e` with `1/2 <= m < 1` and
`E = max(e + 15, 0)`: when the 12-bit fraction of `LMIC_f2uflt16` rounds to 4096 and
`E + 1 <= 15` the result is `((E + 1) << 12) | 0x800`; when the 11-bit fraction of
`LMIC_f2sflt16` rounds to 2048 and `E + 1 <= 15` the result is
`sign | ((E + 1) << 11) | 0x400` with `sign = 0x8000` exactly for `f < 0`.  On every input
in range the fraction computed is below 4096 (resp. 2048), and an unsaturated result carries
the computed exponent and fraction in its exponent and fraction fields. -/
theorem LMIC_rounding_carry :
    (∀ (f m : ℚ) (e : ℤ), 0 < f → f < 1 → f = m * (2 : ℚ) ^ e → 1 / 2 ≤ m → m < 1 →
      ⌊m * 4096 + 1 / 2⌋ = 4096 → max (e + 15) 0 + 1 ≤ 15 →
      LMIC_f2uflt16 (F32.fin f) = ((max (e + 15) 0 + 1).toNat <<< 12) ||| 0x800) ∧
    (∀ (f m : ℚ) (e : ℤ), -1 < f → f < 1 → |f| = m * (2 : ℚ) ^ e → 1 / 2 ≤ m → m < 1 →
      ⌊m * 2048 + 1 / 2⌋ = 2048 → max (e + 15) 0 + 1 ≤ 15 →
      LMIC_f2sflt16 (F32.fin f) =
        (if f < 0 then 0x8000 else 0) ||| ((max (e + 15) 0 + 1).toNat <<< 11) ||| 0x400) ∧
    (∀ f : ℚ, 0 ≤ f → f < 1 →
      (f2uflt16_fields f).2 < 4096 ∧
      ((f2uflt16_fields f).1 ≤ 15 →
        LMIC_f2uflt16 (F32.fin f) >>> 12 = (f2uflt16_fields f).1.toNat ∧
        LMIC_f2uflt16 (F32.fin f) &&& 0xFFF = (f2uflt16_fields f).2)) ∧
    (∀ f : ℚ, -1 < f → f < 1 →
      (f2sflt16_fields f).2.2 < 2048 ∧
      ((f2sflt16_fields f).2.1 ≤ 15 →
        (LMIC_f2sflt16 (F32.fin f) >>> 11) &&& 0xF = (f2sflt16_fields f).2.1.toNat ∧
        LMIC_f2sflt16 (F32.fin f) &&& 0x7FF = (f2sflt16_fields f).2.2)) :=
  ⟨fun _ _ _ h0 h1 hf hm1 hm2 hc hE => LMIC_f2uflt16_carry h0 h1 hf hm1 hm2 hc hE,
    fun _ _ _ h0 h1 hf hm1 hm2 hc hE => LMIC_f2sflt16_carry h0 h1 hf hm1 hm2 hc hE,
    fun _ h0 h1 => LMIC_f2uflt16_fraction_field h0 h1,
    fun _ h0 h1 => LMIC_f2sflt16_fraction_field h0 h1⟩

/-- Witness of C7: `8191/16384 = (8191/8192) * 2^-1` encodes as `0xF800` and
`-4095/8192 = -(4095/4096) * 2^-1` as `0xFC00`, both after a carry into exponent 15. -/
theorem LMIC_rounding_carry_witness :
    LMIC_f2uflt16 (F32.fin (8191 / 16384)) = 0xF800 ∧
    LMIC_f2sflt16 (F32.fin (-4095 / 8192)) = 0xFC00 ∧
    (LMIC_f2uflt16 (F32.fin (8191 / 16384)) >>> 12 = (f2uflt16_fields (8191 / 16384)).1.toNat ∧
      LMIC_f2uflt16 (F32.fin (8191 / 16384)) &&& 0xFFF = (f2uflt16_fields (8191 / 16384)).2) ∧
    ((LMIC_f2sflt16 (F32.fin (-4095 / 8192)) >>> 11) &&& 0xF =
        (f2sflt16_fields (-4095 / 8192)).2.1.toNat ∧
      LMIC_f2sflt16 (F32.fin (-4095 / 8192)) &&& 0x7FF = (f2sflt16_fields (-4095 / 8192)).2.2) :=
  ⟨(LMIC_rounding_carry.1 (8191 / 16384) (8191 / 8192) (-1) (by norm_num) (by norm_num)
      (by norm_num) (by norm_num) (by norm_num) (by rw [Int.floor_eq_iff]; norm_num)
      (by decide)).trans (by decide),
    (LMIC_rounding_carry.2.1 (-4095 / 8192) (4095 / 4096) (-1) (by norm_num) (by norm_num)
      (by rw [abs_of_neg (by norm_num)]; norm_num) (by norm_num) (by norm_num)
      (by rw [Int.floor_eq_iff]; norm_num) (by decide)).trans (by norm_num; decide),
    (LMIC_rounding_carry.2.2.1 (8191 / 16384) (by norm_num) (by norm_num)).2
      (by rw [f2uflt16_fields_carry_example]),
    (LMIC_rounding_carry.2.2.2 (-4095 / 8192) (by norm_num) (by norm_num)).2
      (by rw [f2sflt16_fields_carry_example])⟩

/-- C8: sign/magnitude symmetry of `LMIC_f2sflt16`: for every input `f > 0` (finite or
infinite) the code of `f` has bit 15 clear and the code of `-f` is the code of `f` with bit
15 set. -/
theorem LMIC_f2sflt16_sign_symmetry :
    (∀ q : ℚ, 0 < q →
      Nat.testBit (LMIC_f2sflt16 (F32.fin q)) 15 = false ∧
      LMIC_f2sflt16 (F32.fin (-q)) = LMIC_f2sflt16 (F32.fin q) ||| 0x8000) ∧
    Nat.testBit (LMIC_f2sflt16 F32.pinf) 15 = false ∧
    LMIC_f2sflt16 F32.ninf = LMIC_f2sflt16 F32.pinf ||| 0x8000 := by
  refine ⟨fun q hq => LMIC_f2sflt16_neg hq, ?_, ?_⟩
  · rw [lmic_sat_cases.2.2.2.2.2.2.2]; decide
  · rw [lmic_sat_cases.2.2.2.2.2.2.2, lmic_sat_cases.2.2.2.2.2.1]; decide

/-- Witness of C8: the inputs 1/2 and -1/2. -/
theorem LMIC_f2sflt16_sign_symmetry_witness :
    Nat.testBit (LMIC_f2sflt16 (F32.fin (1 / 2))) 15 = false ∧
    LMIC_f2sflt16 (F32.fin (-(1 / 2))) = LMIC_f2sflt16 (F32.fin (1 / 2)) ||| 0x8000 :=
  LMIC_f2sflt16_sign_symmetry.1 (1 / 2) (by norm_num)

/-- C9 (failing input): the binary32 value `2^-20` lies in `(-1, 1)`; `LMIC_f2sflt16` gives
the unsaturated code `0x0400`, exponent field 0 and fraction `0x400`, which denotes `2^-16`,
not within `2^(0 - 15 - 12)` of the input. -/
theorem LMIC_f2sflt16_underflow :
    isF32 (1 / 2 ^ 20 : ℚ) ∧
    LMIC_f2sflt16 (F32.fin (1 / 2 ^ 20)) = 0x0400 ∧
    sflt16Exp (LMIC_f2sflt16 (F32.fin (1 / 2 ^ 20))) = 0 ∧
    sflt16Value (LMIC_f2sflt16 (F32.fin (1 / 2 ^ 20))) = 1 / 2 ^ 16 ∧
    ¬ (|sflt16Value (LMIC_f2sflt16 (F32.fin (1 / 2 ^ 20))) - 1 / 2 ^ 20| ≤
        (2 : ℚ) ^ (sflt16Exp (LMIC_f2sflt16 (F32.fin (1 / 2 ^ 20))) - 15 - 12)) := by
  rw [LMIC_f2sflt16_tiny, sflt16Value_0x0400.1, sflt16Value_0x0400.2]
  refine ⟨⟨⟨1, -20, by norm_num, by norm_num, by norm_num⟩,
    by rw [abs_lt]; constructor <;> norm_num⟩, rfl, rfl, rfl, ?_⟩
  rw [abs_of_pos (by norm_num)]
  norm_num

/-- C10: two records with the same validity flags and the same values in the valid fields
give the same buffer, whatever the initial buffers, the invalid fields and `Vsys` hold, and
the records are left unchanged. -/
theorem encodeMeasurement_noninterference (b1 b2 : Buffer) (m1 m2 : Measurements)
    (hVbat : m1.Vbat.fValid = m2.Vbat.fValid) (hVbus : m1.Vbus.fValid = m2.Vbus.fValid)
    (hBoot : m1.Boot.fValid = m2.Boot.fValid)
    (hTemp : m1.CompostTemp.fValid = m2.CompostTemp.fValid)
    (vVbat : m1.Vbat.fValid = true → m1.Vbat.v = m2.Vbat.v)
    (vVbus : m1.Vbus.fValid = true → m1.Vbus.v = m2.Vbus.v)
    (vBoot : m1.Boot.fValid = true → m1.Boot.v = m2.Boot.v)
    (vTemp : m1.CompostTemp.fValid = true → m1.CompostTemp.v = m2.CompostTemp.v) :
    (encodeMeasurement b1 m1).1 = (encodeMeasurement b2 m2).1 ∧
    (encodeMeasurement b1 m1).2 = m1 ∧ (encodeMeasurement b2 m2).2 = m2 := by
  refine ⟨?_, by rw [encodeMeasurement_eq], by rw [encodeMeasurement_eq]⟩
  rw [encodeMeasurement_eq, encodeMeasurement_eq]
  simp only [← hVbat, ← hVbus, ← hBoot, ← hTemp]
  rcases h1 : m1.Vbat.fValid <;> rcases h2 : m1.Vbus.fValid <;>
    rcases h3 : m1.Boot.fValid <;> rcases h4 : m1.CompostTemp.fValid <;>
    simp [h1, h2, h3, h4, ← vVbat, ← vVbus, ← vBoot, ← vTemp]

/-- Witness of C10: scenario C against the same record with other `Vsys` and `Vbus`
contents, from an empty and from a used buffer. -/
theorem encodeMeasurement_noninterference_witness :
    (encodeMeasurement [] recordC).1 = (encodeMeasurement [1, 2, 3] recordC2).1 ∧
    (encodeMeasurement [] recordC).2 = recordC ∧
    (encodeMeasurement [1, 2, 3] recordC2).2 = recordC2 :=
  encodeMeasurement_noninterference [] [1, 2, 3] recordC recordC2 rfl rfl rfl rfl
    (fun _ => rfl) (fun h => by cases h) (fun _ => rfl) (fun _ => rfl)

/-- C11 (counterexample): on the input `Boot -` the key `Boot` is followed by the token
`-`, which is not a numeric literal and fails to convert; the input ends there, and the
driver returns 0 and emits the pending record. -/
theorem main_value_failure_at_end :
    (cinU32.conv "-".toList).2 = false ∧
    valueFails cinFloat cinU32 (initial "Boot -".toList) = true ∧
    main cinFloat cinU32 0 "Boot -".toList =
      { status := 0, cout := ⟨[Out.text (banner ++ "Boot 0 .\n2b 04 00\n")], true⟩,
        cerr := "" } := by
  decide

/-- C11 (amended): when the key of a value (`Vbat`, `Vbus`, `Boot`, `CompostTemp`) is
followed by characters that fail to convert and the extraction does not reach the end of
the input, the driver writes the parse-error diagnostic, returns 1 and writes nothing more
to `std::cout`, so the pending record is not emitted; on every input on which no value
fails to convert the driver returns 0; the status is 0 or 1.  On `Vbat abc` the status is
1 and no record is emitted. -/
theorem main_parse_failure :
    (∀ (F : NumGet F32) (U : NumGet ℕ) (junk : ℕ) (d : Driver), d.cin.good = true →
      valueFails F U d = true → (loopBody F U junk d).cin.eofbit = false →
      ((d.cin.getString "").2 = "Vbat" ∨ (d.cin.getString "").2 = "Vbus" ∨
        (d.cin.getString "").2 = "Boot" ∨ (d.cin.getString "").2 = "CompostTemp") ∧
      runFrom F U junk d =
        { status := 1, cout := d.cout,
          cerr := d.cerr ++ "parse error: " ++
            (IStream.getString
              { (loopBody F U junk d).cin with eofbit := false, failbit := false } "").2 ++
            "\n" }) ∧
    (∀ (F : NumGet F32) (U : NumGet ℕ) (junk : ℕ) (input : List Char),
      (∀ n, valueFails F U (loop F U junk n (initial input)) = false) →
      (main F U junk input).status = 0) ∧
    (∀ (F : NumGet F32) (U : NumGet ℕ) (junk : ℕ) (input : List Char),
      (main F U junk input).status = 0 ∨ (main F U junk input).status = 1) ∧
    main cinFloat cinU32 0 "Vbat abc".toList =
      { status := 1, cout := ⟨[Out.text banner], false⟩, cerr := "parse error: abc\n" } := by
  refine ⟨?_, ?_, ?_, by decide⟩
  · intro F U junk d hg hv he
    have hf := valueFails_failbit F U junk d hv
    obtain ⟨hk, _, hc, hr⟩ := loopBody_bad F U junk d hg hf he
    refine ⟨hk, ?_⟩
    rw [runFrom_step F U junk d hg, runFrom_done F U junk _ (by simp [IStream.good, hf]),
      finish_failed _ hf he, hc, hr]
  · intro F U junk input h
    rw [main_eq_finish, finish_status, if_neg (loop_clean F U junk input h _)]
  · intro F U junk input
    rw [main_eq_finish, finish_status]
    split_ifs
    · exact Or.inr rfl
    · exact Or.inl rfl

/-- Witness of C11 (amended): the input `Vbat abc`. -/
theorem main_parse_failure_witness :
    valueFails cinFloat cinU32 (initial "Vbat abc".toList) = true ∧
    runFrom cinFloat cinU32 0 (initial "Vbat abc".toList) =
      { status := 1, cout := ⟨[Out.text banner], false⟩, cerr := "parse error: abc\n" } :=
  ⟨by decide,
    (main_parse_failure.1 cinFloat cinU32 0 (initial "Vbat abc".toList) (by decide) (by decide)
      (by decide)).2.trans (by decide)⟩

/-- C12: unrecognized keys are not fatal.  When the token read as key is not empty and is
none of `Vbat`, `Vbus`, `Boot`, `CompostTemp` and `.`, the iteration writes the unknown-key
diagnostic with that token to `std::cerr`, removes only the token (and the white space
before it) from the input, leaves `failbit` clear and changes neither the record nor the
flag `fAny` nor `std::cout`; the run continues from there.  On `Frobnicate 1 .` the
diagnostic for `Frobnicate` is written (and one for `1`, read as the next key), the empty
record is emitted (line `.`, bytes `2b 00`) and the status is 0. -/
theorem main_unknown_key :
    (∀ (F : NumGet F32) (U : NumGet ℕ) (junk : ℕ) (d : Driver),
      (d.cin.getString "").2 ≠ "" → (d.cin.getString "").2 ≠ "Vbat" →
      (d.cin.getString "").2 ≠ "Vbus" → (d.cin.getString "").2 ≠ "Boot" →
      (d.cin.getString "").2 ≠ "CompostTemp" → (d.cin.getString "").2 ≠ "." →
      loopBody F U junk d =
        { d with cin := (d.cin.getString "").1, key := (d.cin.getString "").2,
                 cerr := d.cerr ++ "unknown key: " ++ (d.cin.getString "").2 ++ "\n" } ∧
      (d.cin.getString "").1.failbit = false ∧
      (d.cin.getString "").1.chars =
        (d.cin.chars.dropWhile isSpace).dropWhile (fun c => !isSpace c) ∧
      (d.cin.getString "").2 =
        String.mk ((d.cin.chars.dropWhile isSpace).takeWhile (fun c => !isSpace c)) ∧
      runFrom F U junk d = runFrom F U junk
        { d with cin := (d.cin.getString "").1, key := (d.cin.getString "").2,
                 cerr := d.cerr ++ "unknown key: " ++ (d.cin.getString "").2 ++ "\n" }) ∧
    main cinFloat cinU32 0 "Frobnicate 1 .".toList =
      { status := 0, cout := ⟨[Out.text (banner ++ ".\n2b 00\n")], true⟩,
        cerr := "unknown key: Frobnicate\nunknown key: 1\n" } := by
  refine ⟨?_, by decide⟩
  intro F U junk d h0 h1 h2 h3 h4 h5
  obtain ⟨hg, hf, hc, hk⟩ := getString_nonempty d.cin h0
  refine ⟨loopBody_unknown F U junk d h0 h1 h2 h3 h4 h5, hf, hc, hk, ?_⟩
  rw [runFrom_step F U junk d hg, loopBody_unknown F U junk d h0 h1 h2 h3 h4 h5]

/-- Witness of C12: the first iteration on the input `Frobnicate 1 .`. -/
theorem main_unknown_key_witness :
    (loopBody cinFloat cinU32 0 (initial "Frobnicate 1 .".toList)).cerr =
      "unknown key: Frobnicate\n" :=
  (congrArg Driver.cerr
    (main_unknown_key.1 cinFloat cinU32 0 (initial "Frobnicate 1 .".toList) (by decide)
      (by decide) (by decide) (by decide) (by decide) (by decide)).1).trans (by decide)

/-- C13: the final emit rule.  At every iteration boundary of the loop of `main` the flag
`fAny` tells whether the record has a valid field.  On every input on which no value fails
to convert, the loop is left within `input.length + 1` iterations, and then `main` emits
the record once more exactly when it has a valid field, and returns 0.  Examples: `Boot 7`
(one further emit), `Boot 7 .` and `Frobnicate` (none). -/
theorem main_final_emit :
    (∀ (F : NumGet F32) (U : NumGet ℕ) (junk : ℕ) (input : List Char) (n : ℕ),
      (loop F U junk n (initial input)).fAny =
        hasValid (loop F U junk n (initial input)).m) ∧
    (∀ (F : NumGet F32) (U : NumGet ℕ) (junk : ℕ) (input : List Char),
      (∀ n, valueFails F U (loop F U junk n (initial input)) = false) →
      (loop F U junk (input.length + 1) (initial input)).cin.good = false ∧
      main F U junk input =
        { status := 0,
          cout :=
            if hasValid (loop F U junk (input.length + 1) (initial input)).m = true then
              (putTestVector (loop F U junk (input.length + 1) (initial input)).cout
                (loop F U junk (input.length + 1) (initial input)).m).1
            else (loop F U junk (input.length + 1) (initial input)).cout,
          cerr := (loop F U junk (input.length + 1) (initial input)).cerr }) ∧
    main cinFloat cinU32 0 "Boot 7".toList =
      { status := 0, cout := ⟨[Out.text (banner ++ "Boot 7 .\n2b 04 07\n")], true⟩,
        cerr := "" } ∧
    main cinFloat cinU32 0 "Boot 7 .".toList =
      { status := 0, cout := ⟨[Out.text (banner ++ "Boot 7 .\n2b 04 07\n")], true⟩,
        cerr := "" } ∧
    main cinFloat cinU32 0 "Frobnicate".toList =
      { status := 0, cout := ⟨[Out.text banner], false⟩,
        cerr := "unknown key: Frobnicate\n" } := by
  refine ⟨fun F U junk input n => loop_fAny F U junk n (initial input) rfl, ?_,
    by decide, by decide, by decide⟩
  intro F U junk input h
  refine ⟨loop_exit F U junk _ (initial input) (Nat.lt_succ_self _), ?_⟩
  rw [main_eq_finish,
    finish_clean _ (loop_clean F U junk input h _) (loop_fAny F U junk _ (initial input) rfl)]

/-- Witness of C13: the input `Boot 7`, on which no value fails to convert; the record is
emitted once, after the loop. -/
theorem main_final_emit_witness :
    (∀ n, valueFails cinFloat cinU32 (loop cinFloat cinU32 0 n (initial "Boot 7".toList)) =
      false) ∧
    main cinFloat cinU32 0 "Boot 7".toList =
      { status := 0,
        cout := (putTestVector (OStream.put ⟨[], false⟩ banner) recordB).1, cerr := "" } :=
  have h : ∀ n, valueFails cinFloat cinU32
      (loop cinFloat cinU32 0 n (initial "Boot 7".toList)) = false := by
    intro n
    by_cases hn : n < 7
    · interval_cases n <;> decide
    · rw [loop_stable cinFloat cinU32 0 7 (initial "Boot 7".toList) (by decide) n (by omega)]
      decide
  ⟨h, ((main_final_emit.2.1 cinFloat cinU32 0 "Boot 7".toList h).2).trans (by decide)⟩

/-- C14: post-rounding exponent overflow saturates.  For `0 < f < 1` with mantissa `m`
at exponent 0 whose 12-bit fraction rounds to 4096, which is the case exactly for
`f >= 1 - 2^-13`, `LMIC_f2uflt16` gives `0xFFFF`; for `1 - 2^-12 <= |f| < 1`,
`LMIC_f2sflt16` gives `0x7FFF` for positive and `0xFFFF = 0x7FFF | 0x8000` for negative
`f`.  On all other inputs in range the computed exponent is at most 15 and is the exponent
field of the result. -/
theorem LMIC_exponent_overflow :
    (∀ f m : ℚ, 0 < f → f < 1 → f = m * (2 : ℚ) ^ (0 : ℤ) → 1 / 2 ≤ m → m < 1 →
      ⌊m * 4096 + 1 / 2⌋ = 4096 → LMIC_f2uflt16 (F32.fin f) = 0xFFFF) ∧
    (∀ f : ℚ, 0 < f → f < 1 → ((f2uflt16_fields f).1 > 15 ↔ 1 - 1 / 2 ^ 13 ≤ f)) ∧
    (∀ f : ℚ, 1 - 1 / 2 ^ 13 ≤ f → f < 1 → LMIC_f2uflt16 (F32.fin f) = 0xFFFF) ∧
    (∀ f : ℚ, 1 - 1 / 2 ^ 12 ≤ |f| → |f| < 1 →
      LMIC_f2sflt16 (F32.fin f) = if 0 < f then 0x7FFF else 0x7FFF ||| 0x8000) ∧
    (∀ f : ℚ, 0 ≤ f → f < 1 - 1 / 2 ^ 13 →
      (f2uflt16_fields f).1 ≤ 15 ∧
      LMIC_f2uflt16 (F32.fin f) >>> 12 = (f2uflt16_fields f).1.toNat ∧
      LMIC_f2uflt16 (F32.fin f) >>> 12 ≤ 15) ∧
    (∀ f : ℚ, |f| < 1 - 1 / 2 ^ 12 →
      (f2sflt16_fields f).2.1 ≤ 15 ∧
      (LMIC_f2sflt16 (F32.fin f) >>> 11) &&& 0xF = (f2sflt16_fields f).2.1.toNat ∧
      (LMIC_f2sflt16 (F32.fin f) >>> 11) &&& 0xF ≤ 15) := by
  refine ⟨?_, fun f h0 h1 => (f2uflt16_fields_range h0 h1).1,
    fun f h0 h1 => LMIC_f2uflt16_overflow h0 h1, fun f h0 h1 => LMIC_f2sflt16_overflow h0 h1,
    fun f h0 h1 => LMIC_f2uflt16_exp_le h0 h1, fun f h1 => LMIC_f2sflt16_exp_le h1⟩
  intro f m h0 h1 hf hm1 hm2 hfl
  apply LMIC_f2uflt16_overflow _ h1
  have h3 := Int.floor_le (m * 4096 + 1 / 2)
  rw [hfl] at h3
  push_cast at h3
  rw [hf]
  norm_num
  linarith

/-- Witness of C14: the inputs 8191/8192, -4095/4096 and 1/2. -/
theorem LMIC_exponent_overflow_witness :
    LMIC_f2uflt16 (F32.fin (8191 / 8192)) = 0xFFFF ∧
    LMIC_f2sflt16 (F32.fin (-4095 / 4096)) = 0xFFFF ∧
    LMIC_f2uflt16 (F32.fin (1 / 2)) >>> 12 ≤ 15 :=
  ⟨LMIC_exponent_overflow.2.2.1 (8191 / 8192) (by norm_num) (by norm_num),
    (LMIC_exponent_overflow.2.2.2.1 (-4095 / 4096)
      (by rw [abs_of_neg (by norm_num)]; norm_num)
      (by rw [abs_of_neg (by norm_num)]; norm_num)).trans
      (by rw [if_neg (by norm_num)]; decide),
    (LMIC_exponent_overflow.2.2.2.2.1 (1 / 2) (by norm_num) (by norm_num)).2.2⟩

/-- C16: Boot narrowing.  An iteration that reads the key `Boot` makes the field valid with
the value extracted as `std::uint32_t` reduced modulo 256, and changes no other field; the
decimal numeral of every `n < 2^32` is extracted as `n`; so on the input `Boot n .` the
record emitted holds `Boot = n mod 256`, and the byte of `Boot` in the buffer is `n mod 256`.
On `Boot 263 .` the bytes are `2b 04 07`. -/
theorem main_Boot_narrowing :
    (∀ (F : NumGet F32) (U : NumGet ℕ) (junk : ℕ) (d : Driver),
      (d.cin.getString "").2 = "Boot" →
      (loopBody F U junk d).m =
        { d.m with Boot := ⟨true, Fin.ofNat ((d.cin.getString "").1.get U junk).2⟩ } ∧
      (loopBody F U junk d).m.Boot.v.val = ((d.cin.getString "").1.get U junk).2 % 256) ∧
    (∀ (n junk : ℕ) (rest : List Char), n < 2 ^ 32 → (∀ c ∈ rest.head?, isDigit c = false) →
      IStream.get cinU32 ⟨' ' :: ((showUnsigned false n).toList ++ rest), false, false⟩ junk =
        (⟨rest, rest.isEmpty, false⟩, n)) ∧
    (∀ n junk : ℕ, n < 2 ^ 32 →
      main cinFloat cinU32 junk
          ("Boot ".toList ++ ((showUnsigned false n).toList ++ " .".toList)) =
        { status := 0,
          cout := (putTestVector (OStream.put ⟨[], false⟩ banner)
            { m0 with Boot := ⟨true, Fin.ofNat n⟩ }).1,
          cerr := "" }) ∧
    (∀ (buf : Buffer) (m : Measurements) (n : ℕ),
      (encodeMeasurement buf { m with Boot := ⟨true, Fin.ofNat n⟩ }).1 =
        [0x2b, (if m.Vbat.fValid then 1 else 0) ||| (if m.Vbus.fValid then 2 else 0) ||| 4 |||
          (if m.CompostTemp.fValid then 8 else 0)] ++
        (if m.Vbat.fValid then [encodeV m.Vbat.v >>> 8, encodeV m.Vbat.v &&& 0xFF] else []) ++
        (if m.Vbus.fValid then [encodeV m.Vbus.v >>> 8, encodeV m.Vbus.v &&& 0xFF] else []) ++
        [n % 256] ++
        (if m.CompostTemp.fValid then
          [encodeT m.CompostTemp.v.t >>> 8, encodeT m.CompostTemp.v.t &&& 0xFF] else [])) ∧
    (∀ (buf : Buffer) (n : ℕ),
      (encodeMeasurement buf { m0 with Boot := ⟨true, Fin.ofNat n⟩ }).1 =
        [0x2b, 0x04, n % 256]) ∧
    main cinFloat cinU32 0 "Boot 263 .".toList =
      { status := 0, cout := ⟨[Out.text (banner ++ "Boot 7 .\n2b 04 07\n")], true⟩,
        cerr := "" } := by
  refine ⟨?_, fun n junk rest hn hr => get_cinU32_numeral n junk hn rest hr,
    fun n junk hn => main_Boot_numeral junk n hn, ?_, ?_, by decide⟩
  · intro F U junk d h
    rw [loopBody_Boot F U junk d h]
    exact ⟨rfl, rfl⟩
  · intro buf m n
    rw [encodeMeasurement_eq]
    rfl
  · intro buf n
    rw [encodeMeasurement_of_fields buf _ false false true false (F32.fin 0) (F32.fin 0)
      (F32.fin 0) (Fin.ofNat n) rfl rfl rfl rfl]
    simp [Fin.ofNat]

/-- Witness of C16: the input `Boot 263 .`. -/
theorem main_Boot_narrowing_witness :
    main cinFloat cinU32 0 "Boot 263 .".toList =
      { status := 0,
        cout := (putTestVector (OStream.put ⟨[], false⟩ banner) recordB).1, cerr := "" } :=
  main_Boot_narrowing.2.2.1 263 0 (by norm_num)

/-- C17 (failing input): on the input `Boot 10 . Boot 10 .` the first summary line is
`Boot 10 .` and the second is `Boot a .`: every test vector leaves `std::cout` in
hexadecimal, and `logMeasurement` prints the record holding `Boot 10` as `Boot 10 .` in
base ten and as `Boot a .` in base sixteen.  Fed back to the driver, the line `Boot a .`
is a parse error. -/
theorem logMeasurement_hex_after_emit :
    main cinFloat cinU32 0 "Boot 10 . Boot 10 .".toList =
      { status := 0,
        cout := ⟨[Out.text (banner ++ "Boot 10 .\n2b 04 0a\nBoot a .\n2b 04 0a\n")], true⟩,
        cerr := "" } ∧
    (logMeasurement ⟨[], false⟩ { m0 with Boot := ⟨true, 10⟩ }).1 =
      ⟨[Out.text "Boot 10 .\n"], false⟩ ∧
    (logMeasurement ⟨[], true⟩ { m0 with Boot := ⟨true, 10⟩ }).1 =
      ⟨[Out.text "Boot a .\n"], true⟩ ∧
    (∀ (o : OStream) (m : Measurements), (putTestVector o m).1.hex = true) ∧
    main cinFloat cinU32 0 "Boot a .".toList =
      { status := 1, cout := ⟨[Out.text banner], false⟩, cerr := "parse error: a\n" } :=
  ⟨by decide, by decide, by decide, putTestVector_hex, by decide⟩

/-- C18: the wire format is uniquely decodable.  The decoder `decodeMeasurement` returns,
on the buffer of every record, the validity flags of the record and the encoded value of
each valid field; so two records give the same buffer exactly when they have the same
validity flags and the same encoded value in every valid field. -/
theorem encodeMeasurement_decodable :
    (∀ (buf : Buffer) (m : Measurements),
      decodeMeasurement (encodeMeasurement buf m).1 = some (wireView m)) ∧
    (∀ (b1 b2 : Buffer) (m1 m2 : Measurements),
      (encodeMeasurement b1 m1).1 = (encodeMeasurement b2 m2).1 ↔
        (m1.Vbat.fValid = m2.Vbat.fValid ∧ m1.Vbus.fValid = m2.Vbus.fValid ∧
          m1.Boot.fValid = m2.Boot.fValid ∧ m1.CompostTemp.fValid = m2.CompostTemp.fValid) ∧
        (m1.Vbat.fValid = true → encodeV m1.Vbat.v = encodeV m2.Vbat.v) ∧
        (m1.Vbus.fValid = true → encodeV m1.Vbus.v = encodeV m2.Vbus.v) ∧
        (m1.Boot.fValid = true → m1.Boot.v = m2.Boot.v) ∧
        (m1.CompostTemp.fValid = true →
          encodeT m1.CompostTemp.v.t = encodeT m2.CompostTemp.v.t)) :=
  ⟨decodeMeasurement_encodeMeasurement,
    fun b1 b2 m1 m2 => (encodeMeasurement_eq_iff b1 b2 m1 m2).trans (wireView_eq_iff m1 m2)⟩

/-- Witness of C18: the records `recordC` and `recordC2`, which differ in fields that are
not valid, give the same buffer. -/
theorem encodeMeasurement_decodable_witness :
    (encodeMeasurement [] recordC).1 = (encodeMeasurement [1, 2, 3] recordC2).1 :=
  (encodeMeasurement_decodable.2 [] [1, 2, 3] recordC recordC2).mpr
    ⟨⟨rfl, rfl, rfl, rfl⟩, fun _ => rfl, fun h => absurd h (by decide), fun _ => rfl,
      fun _ => rfl⟩

/-- C19 (counterexample): the binary32 voltage `(2^24 - 1) * 2^-37` lies in
`[-8, 8 - 1/8192)`, its code denotes 1, and `1/4096` is farther than `1/8192` from it. -/
theorem encodeV_quantization_fails :
    isF32 (16777215 / 2 ^ 37 : ℚ) ∧
    (-8 : ℚ) ≤ 16777215 / 2 ^ 37 ∧ (16777215 / 2 ^ 37 : ℚ) < 8 - 1 / 8192 ∧
    toInt16 (encodeV (F32.fin (16777215 / 2 ^ 37))) = 1 ∧
    ¬ (|(toInt16 (encodeV (F32.fin (16777215 / 2 ^ 37))) : ℚ) / 4096 - 16777215 / 2 ^ 37| ≤
        1 / 8192) := by
  rw [encodeV_quantum_v]
  refine ⟨isF32_quantum_v, by norm_num, by norm_num, by decide, ?_⟩
  have h : toInt16 1 = 1 := by decide
  rw [h, abs_of_pos (by norm_num)]
  norm_num

/-- C19 (amended): for every binary32 voltage `v` in `[-8, 8 - 1/8192)` other than
`(1/2 - 2^-25) / 4096` the signed integer `q` denoted by `encodeV v` has
`|q/4096 - v| <= 1/8192`; for every binary32 temperature `t` in `[-128, 128 - 1/512)`
other than `(1/2 - 2^-25) / 256` the signed integer `q` denoted by `encodeT t` has
`|q/256 - t| <= 1/512`; both encoders are monotone in their input (infinities included)
when the code is read as a signed 16-bit integer. -/
theorem encodeV_encodeT_quantization :
    (∀ v : ℚ, isF32 v → v ≠ (1 / 2 - 1 / 2 ^ 25) / 4096 → -8 ≤ v → v < 8 - 1 / 8192 →
      |(toInt16 (encodeV (F32.fin v)) : ℚ) / 4096 - v| ≤ 1 / 8192) ∧
    (∀ t : ℚ, isF32 t → t ≠ (1 / 2 - 1 / 2 ^ 25) / 256 → -128 ≤ t → t < 128 - 1 / 512 →
      |(toInt16 (encodeT (F32.fin t)) : ℚ) / 256 - t| ≤ 1 / 512) ∧
    (∀ x y : F32, F32.le x y = true →
      toInt16 (encodeV x) ≤ toInt16 (encodeV y) ∧ toInt16 (encodeT x) ≤ toInt16 (encodeT y)) := by
  refine ⟨?_, ?_, fun x y h => encodeV_encodeT_mono h⟩
  · intro v hv hne hlo hhi
    have h := scaled_quantization hv 12
      (by intro h; apply hne; rw [eq_div_iff (by norm_num)]; norm_num at h ⊢; linarith)
      (by norm_num; linarith) (by norm_num; linarith)
    norm_num at h
    norm_num
    exact h
  · intro t ht hne hlo hhi
    have h := scaled_quantization ht 8
      (by intro h; apply hne; rw [eq_div_iff (by norm_num)]; norm_num at h ⊢; linarith)
      (by norm_num; linarith) (by norm_num; linarith)
    norm_num at h
    norm_num
    exact h

/-- Witness of C19 (amended): the voltage 5/2, the temperature 51/2 and the pair
`5/2 <= 5`. -/
theorem encodeV_encodeT_quantization_witness :
    |(toInt16 (encodeV (F32.fin (5 / 2))) : ℚ) / 4096 - 5 / 2| ≤ 1 / 8192 ∧
    |(toInt16 (encodeT (F32.fin (51 / 2))) : ℚ) / 256 - 51 / 2| ≤ 1 / 512 ∧
    toInt16 (encodeV (F32.fin (5 / 2))) ≤ toInt16 (encodeV (F32.fin 5)) :=
  ⟨encodeV_encodeT_quantization.1 (5 / 2)
      ⟨⟨5, -1, by norm_num, by norm_num, by norm_num⟩, by rw [abs_lt]; constructor <;> norm_num⟩
      (by norm_num) (by norm_num) (by norm_num),
    encodeV_encodeT_quantization.2.1 (51 / 2)
      ⟨⟨51, -1, by norm_num, by norm_num, by norm_num⟩, by rw [abs_lt]; constructor <;> norm_num⟩
      (by norm_num) (by norm_num) (by norm_num),
    (encodeV_encodeT_quantization.2.2 (F32.fin (5 / 2)) (F32.fin 5)
      (by simp only [F32.le, F32.lt]; norm_num)).1⟩

/-- C20: zero is not encoded as the all-zero code.  The decomposition of 0 is `(0, 0)`,
the fields computed for it are exponent 15 and fraction 0, and `LMIC_f2uflt16 0 = 0xF000`,
`LMIC_f2sflt16 0 = 0x7800`.  For every `0 < f < 1` the fraction field of
`LMIC_f2uflt16 f` lies in `[0x800, 0xFFF]`.  The code `0x0000` is the result of
`LMIC_f2uflt16` exactly on the inputs below 0. -/
theorem LMIC_zero_code :
    frexp 0 = (0, 0) ∧ f2uflt16_fields 0 = (15, 0) ∧ f2sflt16_fields 0 = (0, 15, 0) ∧
    LMIC_f2uflt16 (F32.fin 0) = 0xF000 ∧ LMIC_f2sflt16 (F32.fin 0) = 0x7800 ∧
    (∀ f : ℚ, 0 < f → f < 1 →
      0x800 ≤ LMIC_f2uflt16 (F32.fin f) &&& 0xFFF ∧ LMIC_f2uflt16 (F32.fin f) &&& 0xFFF ≤ 0xFFF) ∧
    (∀ x : F32, LMIC_f2uflt16 x = 0 ↔ F32.lt x (F32.fin 0) = true) :=
  ⟨frexp_zero, f2uflt16_fields_zero, f2sflt16_fields_zero, LMIC_f2uflt16_zero,
    LMIC_f2sflt16_zero, fun _ h0 h1 => LMIC_f2uflt16_fraction_top h0 h1,
    LMIC_f2uflt16_eq_zero_iff⟩

/-- Witness of C20: the input 1/3. -/
theorem LMIC_zero_code_witness :
    0x800 ≤ LMIC_f2uflt16 (F32.fin (1 / 3)) &&& 0xFFF ∧
    LMIC_f2uflt16 (F32.fin (1 / 3)) &&& 0xFFF ≤ 0xFFF :=
  LMIC_zero_code.2.2.2.2.2.1 (1 / 3) (by norm_num) (by norm_num)

end Model4925
